import Mathlib

/-!
# CPCD: validation, request normalisation and extraction over YAML trees

A shallow embedding of `tools/cpcd/src/cpcd.cc` (class `CPCD::CPCD`) and of the
schema literal of `tools/cpcd/include/syntax.h`.

The program manipulates `YAML::Node` values of the yaml-cpp library.  A node is
embedded as a value of the inductive type `Node`; the library calls the program
makes (`Type`, `size`, `operator[]`, `push_back`, `as<std::string>`, iteration)
are embedded as functions on that type.  A method that receives a `Node&` output
parameter is embedded as a function returning the new value of that parameter
next to the `int` return code.  A yaml-cpp exception, which every method catches
to return `SetError(...)`, is an `Option` that is `none`.
-/

namespace CPCD

/-! ## Return codes (`cpcd.h`) -/

/-- The macro `CPCD_SUCCESS`. -/
abbrev CPCD_SUCCESS : Nat := 0

/-- The macro `CPCD_FAILURE`; also the value `SetError` returns. -/
abbrev CPCD_FAILURE : Nat := 1

/-! ## The node model (`YAML::Node`) -/

/-- The enumeration `YAML::NodeType::value`. -/
inductive NodeType where
  | Undefined
  | Null
  | Scalar
  | Sequence
  | Map
deriving DecidableEq, Repr

/-- A `YAML::Node`.  `undefined` is a node for which `IsDefined()` is false: the
result of a lookup that found nothing, or the placeholder the non-const
`operator[]` creates for a new key.  Mapping keys are scalars; entries are kept
in insertion order. -/
inductive Node where
  | undefined : Node
  | null : Node
  | scalar (s : String) : Node
  | seq (items : List Node) : Node
  | map (entries : List (String × Node)) : Node
deriving Repr, Inhabited

namespace Node

/-- The method `Node::Type()`. -/
def type : Node → NodeType
  | undefined => NodeType.Undefined
  | null => NodeType.Null
  | scalar _ => NodeType.Scalar
  | seq _ => NodeType.Sequence
  | map _ => NodeType.Map

/-- The method `Node::IsDefined()`, also `operator bool` and the negation of `operator!`. -/
def IsDefined : Node → Bool
  | undefined => false
  | _ => true

/-- The method `Node::IsSequence()`. -/
def IsSequence : Node → Bool
  | seq _ => true
  | _ => false

/-- The method `Node::IsMap()`. -/
def IsMap : Node → Bool
  | map _ => true
  | _ => false

/-- The conversion `as<std::string>()` of yaml-cpp 0.6, the library of the time
of the code: the text of a Scalar; any other node throws `TypedBadConversion`,
which is `none` here. -/
def asString : Node → Option String
  | scalar s => some s
  | _ => none

/-- The entries a `const_iterator` visits between `begin()` and `end()` of a
Map: the pairs whose value is defined, in insertion order. -/
def iter : Node → List (String × Node)
  | map kvs => kvs.filter (fun kv => kv.2.IsDefined)
  | _ => []

/-- The method `Node::size()`: the number of items of a Sequence, of visible
entries of a Map, and 0 for every other node. -/
def size : Node → Nat
  | seq xs => xs.length
  | map kvs => (kvs.filter (fun kv => kv.2.IsDefined)).length
  | _ => 0

end Node

/-- The first entry of an entry list stored under `key`. -/
def get? : List (String × Node) → String → Option Node
  | [], _ => none
  | (k, v) :: t, key => if k = key then some v else get? t key

/-- Replace the value of the first entry stored under `key`, appending a new
entry when the key is absent. -/
def setEntry : List (String × Node) → String → Node → List (String × Node)
  | [], key, v => [(key, v)]
  | (k, w) :: t, key, v => if k = key then (k, v) :: t else (k, w) :: setEntry t key v

/-- The keys yaml-cpp gives the items of a Sequence that is converted to a Map
(`convert_sequence_to_map`): the decimal indices, counted from `i`. -/
def indexEntries : Nat → List Node → List (String × Node)
  | _, [] => []
  | i, x :: xs => (toString i, x) :: indexEntries (i + 1) xs

namespace Node

/-- The const `operator[]` with a string key: the value stored under the key of
a Map, an undefined node when nothing is found or when the node is Null,
undefined or a Sequence, and `BadSubscript` (`none`) on a Scalar. -/
def getConst : Node → String → Option Node
  | map kvs, key => some ((get? kvs key).getD undefined)
  | scalar _, _ => none
  | _, _ => some undefined

/-- The entries the node has once the non-const `operator[]` with a string key
has made it a Map: a Null or undefined node becomes the empty Map, a Sequence
the Map of its indices, and a Scalar throws `BadSubscript` (`none`). -/
def toMapEntries : Node → Option (List (String × Node))
  | map kvs => some kvs
  | undefined => some []
  | null => some []
  | seq xs => some (indexEntries 0 xs)
  | scalar _ => none

/-- The method `Node::push_back(rhs)`: appends to a Sequence, turns a Null or
undefined node into a one-item Sequence, and throws `BadPushback` (`none`) on a
Scalar or a Map. -/
def push_back : Node → Node → Option Node
  | seq xs, x => some (seq (xs ++ [x]))
  | undefined, x => some (seq [x])
  | null, x => some (seq [x])
  | _, _ => none

end Node

/-! ## Strings and the containers of `ParseReq` -/

/-- The comparison of two character sequences, first difference first, a proper
prefix being smaller. -/
def ltChars : List Char → List Char → Bool
  | [], [] => false
  | [], _ :: _ => true
  | _ :: _, [] => false
  | a :: as, b :: bs => if a < b then true else if b < a then false else ltChars as bs

/-- The `operator<` of `std::string`, the lexical order. -/
def strLt (a b : String) : Bool := ltChars a.data b.data

/-- The type `rList` of `ParseReq`, a `std::list<std::string>`. -/
abbrev rList := List String

/-- The type `rMap` of `ParseReq`, a `std::map<std::string, rList>`: the entries
in ascending key order. -/
abbrev rMap := List (String × rList)

/-- The statement `m[key].push_back(value)` on an `rMap`: `operator[]` finds the
key or inserts it with an empty list at its place in the order. -/
def rMapPushBack : rMap → String → String → rMap
  | [], key, v => [(key, [v])]
  | (k, l) :: t, key, v =>
    if strLt key k then (key, [v]) :: (k, l) :: t
    else if strLt k key then (k, l) :: rMapPushBack t key v
    else (k, l ++ [v]) :: t

/-- Insertion of one string before the first element that is not smaller. -/
def orderedInsert (a : String) : List String → List String
  | [] => [a]
  | b :: l => if strLt b a then b :: orderedInsert a l else a :: b :: l

/-- The method `std::list::sort()`: the elements in ascending order of
`operator<`, equal elements keeping their order. -/
def sort : List String → List String
  | [] => []
  | a :: l => orderedInsert a (sort l)

/-- The scan of `std::list::unique()`: drops each element equal to the last
element kept. -/
def uniqueFrom (prev : String) : List String → List String
  | [] => []
  | b :: t => if prev = b then uniqueFrom prev t else b :: uniqueFrom b t

/-- The method `std::list::unique()`: keeps the first element of every run of
equal elements. -/
def unique : List String → List String
  | [] => []
  | a :: t => a :: uniqueFrom a t

/-! ## `CPCD::ParseReq` -/

/-- The loop `for (i < it->second.size()) m[key].push_back(it->second[i].as<std::string>())`
over the items of the value. -/
def pushNames (key : String) : List Node → rMap → Option rMap
  | [], m => some m
  | x :: xs, m =>
    match x.asString with
    | none => none
    | some s => pushNames key xs (rMapPushBack m key s)

/-- The body of the first loop of `ParseReq`, the `switch` on the type of the
value.  The Scalar case has no `break` and runs on into the Sequence case, whose
loop is over the `size()` of a Scalar, which is 0. -/
def collectEntry (m : rMap) (key : String) (value : Node) : Option rMap :=
  match value with
  | Node.null => none
  | Node.undefined => none
  | Node.map _ => none
  | Node.scalar s => pushNames key [] (rMapPushBack m key s)
  | Node.seq xs => pushNames key xs m

/-- The first loop of `ParseReq` ("first, order by key") over the visited
entries of the request. -/
def collect : List (String × Node) → rMap → Option rMap
  | [], m => some m
  | (key, value) :: rest, m =>
    match collectEntry m key value with
    | none => none
    | some m1 => collect rest m1

/-- The statement `preq[key].push_back(x)`: the non-const `operator[]` makes
`preq` a Map and creates the key if needed, then the item is appended to the
value under the key. -/
def pushBackAt (preq : Node) (key : String) (x : Node) : Option Node :=
  match preq.toMapEntries with
  | none => none
  | some kvs =>
    match ((get? kvs key).getD Node.undefined).push_back x with
    | none => none
    | some v => some (Node.map (setEntry kvs key v))

/-- The innermost loop of `ParseReq`: the names of one group are appended to
`preq[key]`. -/
def emitNames (key : String) : List String → Node → Option Node
  | [], preq => some preq
  | s :: t, preq =>
    match pushBackAt preq key (Node.scalar s) with
    | none => none
    | some p => emitNames key t p

/-- The second loop of `ParseReq` ("then order by value"): every list is sorted,
made unique and written under its key. -/
def emitGroups : rMap → Node → Option Node
  | [], preq => some preq
  | (key, l) :: rest, preq =>
    match emitNames key (unique (sort l)) preq with
    | none => none
    | some p => emitGroups rest p

/-- The method `CPCD::ParseReq (req, preq)`: the return code and the value of
`preq` on return.  `preq` is reset to Null first and is written by the second
loop only.  The iterators of a Sequence carry an invalid `second`, whose
`Type()` throws. -/
def ParseReq (req : Node) : Nat × Node :=
  match req with
  | Node.seq (_ :: _) => (CPCD_FAILURE, Node.null)
  | _ =>
    match collect req.iter [] with
    | none => (CPCD_FAILURE, Node.null)
    | some m =>
      match emitGroups m Node.null with
      | none => (CPCD_FAILURE, Node.null)
      | some preq => (CPCD_SUCCESS, preq)

/-! ## `CPCD::ValidateNode` and `CPCD::validate` -/

/-- The node `YAMLLoad(dict_syntax)` yields for the text `dict_syntax` of
`syntax.h`, which the constructor stores in the member `syntax`. -/
def dict_syntax : Node :=
  Node.map [("physical_constants_dictionary", Node.map [
    ("version_number", Node.scalar "VALUE"),
    ("institution", Node.scalar "VALUE"),
    ("description", Node.scalar "VALUE"),
    ("contact", Node.scalar "VALUE"),
    ("set", Node.seq [Node.map [("VALUE", Node.map [
      ("description", Node.scalar "VALUE"),
      ("citation", Node.scalar "VALUE"),
      ("entries", Node.seq [Node.map [
        ("name", Node.scalar "VALUE"),
        ("value", Node.scalar "VALUE"),
        ("units", Node.scalar "VALUE"),
        ("prec", Node.scalar "VALUE"),
        ("type", Node.scalar "VALUE"),
        ("uncertainty", Node.scalar "VALUE"),
        ("description", Node.scalar "VALUE")]])])]])])]

/-- A loop whose body is `if (check(x)) return SetError(...)`: the checks run in
order until one returns a non-zero code.  `none` is a check that has no defined
result. -/
def allPass {α : Type} (check : α → Option Nat) : List α → Option Nat
  | [] => some CPCD_SUCCESS
  | a :: t =>
    match check a with
    | none => none
    | some rc => if rc = CPCD_SUCCESS then allPass check t else some CPCD_FAILURE

mutual
/-- The method `CPCD::ValidateNode (node, syntax)`.  The result is the return
code; it is `none` where the code dereferences `node.begin()` of a Map that has
no visible entry, which has no defined behaviour.  The two nodes have the same
type when the `switch` is reached, so the cases are those of the type of the
second argument. -/
def ValidateNode (node : Node) : Node → Option Nat
  | Node.seq ss =>
    match node with
    | Node.seq ns => ValidateSeq ns ss
    | _ => some CPCD_FAILURE
  | Node.map skvs =>
    match node with
    | Node.map nkvs => ValidateMap nkvs skvs
    | _ => some CPCD_FAILURE
  | Node.scalar _ =>
    match node with
    | Node.scalar _ => some CPCD_SUCCESS
    | _ => some CPCD_FAILURE
  | Node.null =>
    match node with
    | Node.null => some CPCD_SUCCESS
    | _ => some CPCD_FAILURE
  | Node.undefined =>
    match node with
    | Node.undefined => some CPCD_SUCCESS
    | _ => some CPCD_FAILURE
/-- The Sequence case of `ValidateNode`: for every item `syntax[i]`, every item
`node[l]` is validated against it. -/
def ValidateSeq (ns : List Node) : List Node → Option Nat
  | [] => some CPCD_SUCCESS
  | s :: ss =>
    match allPass (fun n => ValidateNode n s) ns with
    | none => none
    | some rc => if rc = CPCD_SUCCESS then ValidateSeq ns ss else some CPCD_FAILURE
/-- The Map case of `ValidateNode`: the loop over the entries of `syntax`, those
with an undefined value being skipped by the iterator.  `nkvs` are the entries
of `node`. -/
def ValidateMap (nkvs : List (String × Node)) : List (String × Node) → Option Nat
  | [] => some CPCD_SUCCESS
  | (key, sp) :: rest =>
    if sp.IsDefined then
      if key ≠ "VALUE" ∧ ((get? nkvs key).getD Node.undefined).IsDefined then
        match ValidateNode ((get? nkvs key).getD Node.undefined) sp with
        | none => none
        | some rc => if rc = CPCD_SUCCESS then ValidateMap nkvs rest else some CPCD_FAILURE
      else
        match (Node.map nkvs).iter with
        | [] => none
        | (_, first) :: _ =>
          match ValidateNode first sp with
          | none => none
          | some rc => if rc = CPCD_SUCCESS then ValidateMap nkvs rest else some CPCD_FAILURE
    else ValidateMap nkvs rest
end

/-- The method `CPCD::validate ()` on the stored dictionary `doc`: it calls
`ValidateNode` as a statement and returns `CPCD_SUCCESS`. -/
def validate (doc : Node) : Option Nat :=
  match ValidateNode doc dict_syntax with
  | none => none
  | some _ => some CPCD_SUCCESS

/-! ## `CPCD::ParseNode` and `CPCD::parse` -/

/-- A `for` loop over `items` whose body may leave the method: the body returns
the code and the new value of the output node, and a non-zero code ends the
loop. -/
def forEach {α : Type} (body : α → Node → Nat × Node) : List α → Node → Nat × Node
  | [], map => (CPCD_SUCCESS, map)
  | a :: t, map =>
    match body a map with
    | (rc, map1) => if rc = CPCD_SUCCESS then forEach body t map1 else (CPCD_FAILURE, map1)

/-- The node `pair` of `ParseNode`, with `pair["name"] = str` and
`pair["value"] = val`. -/
def mkPair (str val : String) : Node :=
  Node.map [("name", Node.scalar str), ("value", Node.scalar val)]

/-- The body of the loop over `req[i]` in Sequence mode: when the name equals
the requested one, the pair is appended to `map`. -/
def matchName (str val : String) (r : Node) (map : Node) : Nat × Node :=
  match r.asString with
  | none => (CPCD_FAILURE, map)
  | some name =>
    if str = name then
      match map.push_back (mkPair str val) with
      | none => (CPCD_FAILURE, map)
      | some map1 => (CPCD_SUCCESS, map1)
    else (CPCD_SUCCESS, map)

/-- The body of the loop over `node[l]` in Sequence mode, `names` being the
items of `req`.  The operands of `&&` are evaluated left to right. -/
def scanEntry (names : List Node) (e : Node) (map : Node) : Nat × Node :=
  match e.getConst "name" with
  | none => (CPCD_FAILURE, map)
  | some n =>
    if n.IsDefined then
      match e.getConst "value" with
      | none => (CPCD_FAILURE, map)
      | some v =>
        if v.IsDefined then
          match n.asString with
          | none => (CPCD_FAILURE, map)
          | some str =>
            match v.asString with
            | none => (CPCD_FAILURE, map)
            | some val => forEach (matchName str val) names map
        else (CPCD_SUCCESS, map)
    else (CPCD_SUCCESS, map)

mutual
/-- The method `CPCD::ParseNode (node, req, map)`: the return code and the value
of `map` on return. -/
def ParseNode (node : Node) (req : Node) (map : Node) : Nat × Node :=
  if node.IsDefined then
    match req with
    | Node.seq names =>
      match node with
      | Node.seq es => forEach (scanEntry names) es map
      | _ => (CPCD_FAILURE, map)
    | Node.map q =>
      match node with
      | Node.seq records => forEach (fun record mp => ParseGroups record q mp) records map
      | _ => (CPCD_FAILURE, map)
    | _ => (CPCD_SUCCESS, map)
  else (CPCD_SUCCESS, map)
/-- The loop of Map mode over the entries `it` of `req`, for the item `record`
of the document (`node[i]`); the iterator skips the entries with an undefined
value.  `Node m = map[str]` creates the key in `map`, and what the nested call
does to `m` is done to the value under that key. -/
def ParseGroups (record : Node) : List (String × Node) → Node → Nat × Node
  | [], map => (CPCD_SUCCESS, map)
  | (str, sub) :: rest, map =>
    if sub.IsDefined then
      match record.getConst str with
      | none => (CPCD_FAILURE, map)
      | some group =>
        if group.IsDefined then
          match map.toMapEntries with
          | none => (CPCD_FAILURE, map)
          | some kvs =>
            match group.getConst "entries" with
            | none => (CPCD_FAILURE, Node.map (setEntry kvs str ((get? kvs str).getD Node.undefined)))
            | some entries =>
              match ParseNode entries sub ((get? kvs str).getD Node.undefined) with
              | (rc, m) =>
                if rc = CPCD_SUCCESS then ParseGroups record rest (Node.map (setEntry kvs str m))
                else (CPCD_FAILURE, Node.map (setEntry kvs str m))
        else ParseGroups record rest map
    else ParseGroups record rest map
end

/-- The value of the non-const `operator[]` with a string key: the node stored
under the key once the node is a Map, undefined when the key is new. -/
def Node.index (n : Node) (key : String) : Option Node :=
  match n.toMapEntries with
  | none => none
  | some kvs => some ((get? kvs key).getD Node.undefined)

/-- The method `CPCD::parse ()` on the members `doc`, `sel` and `map`: the
return code and the value of `map` on return. -/
def parse (doc sel map : Node) : Nat × Node :=
  match doc.index "physical_constants_dictionary" with
  | none => (CPCD_FAILURE, map)
  | some dict =>
    match dict.index "set" with
    | none => (CPCD_FAILURE, map)
    | some set =>
      match ParseNode set sel map with
      | (rc, map1) => if rc = CPCD_SUCCESS then (CPCD_SUCCESS, map1) else (CPCD_FAILURE, map1)

/-! ## Vocabulary of the statements -/

/-- The node is a Scalar. -/
def isScalar : Node → Bool
  | Node.scalar _ => true
  | _ => false

/-- A request value "is a Scalar or a Sequence of Scalars". -/
def wellFormedValue : Node → Bool
  | Node.scalar _ => true
  | Node.seq xs => xs.all isScalar
  | _ => false

/-- The names one request value asks for: the text of a bare Scalar, the texts
of the Scalar items of a Sequence. -/
def namesOf : Node → List String
  | Node.scalar s => [s]
  | Node.seq xs => xs.filterMap Node.asString
  | _ => []

/-- The names requested under group `g`, in the order of the request. -/
def requested : List (String × Node) → String → List String
  | [], _ => []
  | (k, v) :: t, g => if k = g then namesOf v ++ requested t g else requested t g

/-- The list an `rMap` holds under a key, empty when the key is absent. -/
def rFind : rMap → String → List String
  | [], _ => []
  | (k, l) :: t, key => if k = key then l else rFind t key

/-- The Query the second loop of `ParseReq` writes for an `rMap`: Null when
there is no group, otherwise one Sequence of sorted unique Scalars per key. -/
def queryOf (m : rMap) : Node :=
  match m with
  | [] => Node.null
  | _ :: _ => Node.map (m.map (fun e => (e.1, Node.seq ((unique (sort e.2)).map Node.scalar))))

/-- The entry the second loop of `ParseReq` writes for one entry of the
`rMap`. -/
def queryEntry (e : String × rList) : String × Node :=
  (e.1, Node.seq ((unique (sort e.2)).map Node.scalar))

/-- The invariant of the first loop of `ParseReq`: ascending keys, no empty
list. -/
def rMapOk (m : rMap) : Prop :=
  List.Sorted (· < ·) (m.map Prod.fst) ∧ ∀ e ∈ m, e.2 ≠ []

/-- The entry list holds a Scalar under `key`. -/
def hasScalar (kvs : List (String × Node)) (key : String) : Bool :=
  match get? kvs key with
  | some (Node.scalar _) => true
  | _ => false

/-- An entry of a set as the schema describes it: a Mapping with Scalar `name`,
`value`, `units`, `prec`, `type`, `uncertainty` and `description`. -/
def isEntryRecord : Node → Bool
  | Node.map kvs =>
    ["name", "value", "units", "prec", "type", "uncertainty", "description"].all (hasScalar kvs)
  | _ => false

/-- The record of a set as the schema describes it: a Mapping with Scalar
`description` and `citation` and a Sequence `entries` of entry records. -/
def isSetRecord : Node → Bool
  | Node.map kvs =>
    hasScalar kvs "description" && hasScalar kvs "citation" &&
      (match get? kvs "entries" with
        | some (Node.seq es) => es.all isEntryRecord
        | _ => false)
  | _ => false

/-- The record of a set that matches the schema except that it has no `entries`
key: its entries are a Scalar `description` and a Scalar `citation`. -/
def isSetRecordWithoutEntries : Node → Bool
  | Node.map kvs =>
    hasScalar kvs "description" && hasScalar kvs "citation" &&
      kvs.all (fun kv => (kv.1 = "description" || kv.1 = "citation") && isScalar kv.2)
  | _ => false

/-- An item of `set`: a one-key Mapping from an arbitrary key to a record for
which `record` holds. -/
def isSetItem (record : Node → Bool) : Node → Bool
  | Node.map [(_, r)] => record r
  | _ => false

/-- The value under `physical_constants_dictionary`: a Mapping with Scalar
`version_number`, `institution`, `description` and `contact` and a Sequence
`set` of items for which `item` holds. -/
def isDictionary (item : Node → Bool) : Node → Bool
  | Node.map kvs =>
    hasScalar kvs "version_number" && hasScalar kvs "institution" &&
      hasScalar kvs "description" && hasScalar kvs "contact" &&
      (match get? kvs "set" with
        | some (Node.seq items) => items.all item
        | _ => false)
  | _ => false

/-- A document of the shape of the embedded schema: the Mapping of
`physical_constants_dictionary` to a dictionary whose `set` items have complete
records. -/
def matchesSchema : Node → Bool
  | Node.map [(k, d)] => k = "physical_constants_dictionary" && isDictionary (isSetItem isSetRecord) d
  | _ => false

/-- A document of the shape of the embedded schema except that the records of some
`set` items have no `entries` key. -/
def matchesSchemaOrLacksEntries : Node → Bool
  | Node.map [(k, d)] =>
    k = "physical_constants_dictionary" &&
      isDictionary (fun i => isSetItem isSetRecord i || isSetItem isSetRecordWithoutEntries i) d
  | _ => false

/-- The `set` items of a document. -/
def setItems : Node → List Node
  | Node.map [(_, Node.map kvs)] =>
    match get? kvs "set" with
    | some (Node.seq items) => items
    | _ => []
  | _ => []

/-- The schema of an entry, `syntax["physical_constants_dictionary"]["set"][0]["VALUE"]["entries"][0]`. -/
def entrySchema : Node :=
  Node.map [
    ("name", Node.scalar "VALUE"),
    ("value", Node.scalar "VALUE"),
    ("units", Node.scalar "VALUE"),
    ("prec", Node.scalar "VALUE"),
    ("type", Node.scalar "VALUE"),
    ("uncertainty", Node.scalar "VALUE"),
    ("description", Node.scalar "VALUE")]

/-- The schema of the record of a set, `syntax["physical_constants_dictionary"]["set"][0]["VALUE"]`. -/
def recordSchema : Node :=
  Node.map [
    ("description", Node.scalar "VALUE"),
    ("citation", Node.scalar "VALUE"),
    ("entries", Node.seq [entrySchema])]

/-- The schema of an item of `set`, `syntax["physical_constants_dictionary"]["set"][0]`. -/
def itemSchema : Node :=
  Node.map [("VALUE", recordSchema)]

/-- The schema of the dictionary, `syntax["physical_constants_dictionary"]`. -/
def dictSchema : Node :=
  Node.map [
    ("version_number", Node.scalar "VALUE"),
    ("institution", Node.scalar "VALUE"),
    ("description", Node.scalar "VALUE"),
    ("contact", Node.scalar "VALUE"),
    ("set", Node.seq [itemSchema])]

/-- A dictionary of the shape of the schema with one set `myset` holding one
entry. -/
def sampleDocument : Node :=
  Node.map [("physical_constants_dictionary", Node.map [
    ("version_number", Node.scalar "1"),
    ("institution", Node.scalar "inst"),
    ("description", Node.scalar "desc"),
    ("contact", Node.scalar "who"),
    ("set", Node.seq [Node.map [("myset", Node.map [
      ("description", Node.scalar "d"),
      ("citation", Node.scalar "c"),
      ("entries", Node.seq [Node.map [
        ("name", Node.scalar "g"),
        ("value", Node.scalar "9.81"),
        ("units", Node.scalar "m s-2"),
        ("prec", Node.scalar "double"),
        ("type", Node.scalar "real"),
        ("uncertainty", Node.scalar "0"),
        ("description", Node.scalar "gravity")]])])]])])]

/-- The dictionary whose only set item is `myset: (description: d, citation: c)`,
a record without `entries`. -/
def sampleDocumentWithoutEntries : Node :=
  Node.map [("physical_constants_dictionary", Node.map [
    ("version_number", Node.scalar "1"),
    ("institution", Node.scalar "inst"),
    ("description", Node.scalar "desc"),
    ("contact", Node.scalar "who"),
    ("set", Node.seq [Node.map [("myset", Node.map [
      ("description", Node.scalar "d"),
      ("citation", Node.scalar "c")])]])])]

/-- The items of a Sequence, none for any other node. -/
def itemsOf : Node → List Node
  | Node.seq xs => xs
  | _ => []

/-- The node after the items `xs` have been appended by `push_back`, one by
one; with no item the node is untouched. -/
def appendItems (m : Node) (xs : List Node) : Node :=
  match xs with
  | [] => m
  | _ :: _ => Node.seq (itemsOf m ++ xs)

/-- The nodes `push_back` accepts: undefined, Null and Sequence. -/
def appendable : Node → Bool
  | Node.undefined => true
  | Node.null => true
  | Node.seq _ => true
  | _ => false

/-- The shape of the work map of `ParseNode` under a Query of Sequences: Null or
undefined before the first group is met, then a Mapping whose values are
placeholders or Sequences. -/
def resultOk : Node → Bool
  | Node.null => true
  | Node.undefined => true
  | Node.map kvs => kvs.all (fun kv => appendable kv.2)
  | _ => false

/-- The node a reader finds under group `g` of the result (`map[g]`), undefined
when there is none. -/
def valueUnder (mp : Node) (g : String) : Node :=
  (mp.getConst g).getD Node.undefined

/-- The result sequence under group `g`: the items `map[g][0]`, ... up to
`map[g].size()`. -/
def pairsUnder (mp : Node) (g : String) : List Node :=
  itemsOf (valueUnder mp g)

/-- The Query that maps every group `g` of `qs` to the Sequence of its names. -/
def toQuery (qs : List (String × List String)) : Node :=
  Node.map (qs.map (fun e => (e.1, Node.seq (e.2.map Node.scalar))))

/-- The pair an entry contributes for the requested `names`: the entry exposes a
`name` and a `value`, both Scalars, and the name is requested. -/
def selectEntry (names : List String) (e : Node) : Option Node :=
  match e.getConst "name", e.getConst "value" with
  | some (Node.scalar n), some (Node.scalar v) => if n ∈ names then some (mkPair n v) else none
  | _, _ => none

/-- The items of the `entries` of the group `g` of a record, none when the record
has no such group or the group no Sequence `entries`. -/
def entriesOf (record : Node) (g : String) : List Node :=
  match record.getConst g with
  | some grp =>
    match grp.getConst "entries" with
    | some (Node.seq es) => es
    | _ => []
  | none => []

/-- The pairs the document `records` holds for group `g` and the requested
`names`, in document order. -/
def expectedPairs (records : List Node) (g : String) (names : List String) : List Node :=
  records.flatMap (fun r => (entriesOf r g).filterMap (selectEntry names))

/-- An entry `ParseNode` can read: it is not a Scalar, and when it exposes both a
`name` and a `value` they are Scalars. -/
def entryOk (e : Node) : Bool :=
  match e.getConst "name", e.getConst "value" with
  | some n, some v => !(n.IsDefined && v.IsDefined) || (isScalar n && isScalar v)
  | _, _ => false

/-- The `entries` of the group `g` of the record, when the record has that
group, is a Sequence. -/
def entriesIsSequence (record : Node) (g : String) : Bool :=
  match record.getConst g with
  | none => false
  | some grp =>
    !grp.IsDefined ||
      (match grp.getConst "entries" with
        | some (Node.seq _) => true
        | _ => false)

/-- The `entries` of the group `g` of the record, when the record has that
group, is a Sequence of entries `ParseNode` can read. -/
def groupOk (record : Node) (g : String) : Bool :=
  entriesIsSequence record g && (entriesOf record g).all entryOk

/-- What the record `r` contributes to group `g` under the Query `qs`. -/
def contrib (r : Node) (qs : List (String × List String)) (g : String) : List Node :=
  qs.flatMap (fun e => if e.1 = g then (entriesOf r e.1).filterMap (selectEntry e.2) else [])

/-- The entries of the work map once the non-const `operator[]` has been applied
to it. -/
def resultEntries (mp : Node) : List (String × Node) :=
  (mp.toMapEntries).getD []

/-- The work map after `Node m = map[g]` and the appending of `xs` to `m`. -/
def touchAppend (mp : Node) (g : String) (xs : List Node) : Node :=
  Node.map (setEntry (resultEntries mp) g
    (appendItems ((get? (resultEntries mp) g).getD Node.undefined) xs))

/-! ## `CPCD::emitF`, `CPCD::femit`, `CPCD::readreq` and `main`

Writing a node to a stream (`os << node`) runs the YAML emitter of the library,
which is not part of the program: the text it writes for a node is the parameter
`text` of the functions below.  The emitter writes nothing for an undefined
node.  `asInt` is the conversion of the text of a key to an `int`, which the
const `operator[]` with an `int` index uses on a Map. -/

/-- The macro `_CPCD_FORTRAN_NAME` of `syntax.h`. -/
def _CPCD_FORTRAN_NAME : String := "cpcd"

/-- The macro `_CPCD_FORTRAN_KIND` of `syntax.h`. -/
def _CPCD_FORTRAN_KIND : String := "cpcd_kind"

/-- The macro `_CPCD_FORTRAN_INDENT` of `syntax.h`. -/
def _CPCD_FORTRAN_INDENT : String := "  "

/-- A `for` loop that writes to a stream and whose body may leave the method:
the body returns the code and the text written so far, and a non-zero code ends
the loop. -/
def forEachOut {α : Type} (body : α → String → Nat × String) : List α → String → Nat × String
  | [], os => (CPCD_SUCCESS, os)
  | a :: t, os =>
    match body a os with
    | (rc, os1) => if rc = CPCD_SUCCESS then forEachOut body t os1 else (CPCD_FAILURE, os1)

/-- The const `operator[]` with the `int` index `i` on the entries of a Map: the
value of the first entry whose key converts to `i`; `none` is the invalid node
of a lookup that found nothing. -/
def lookupIndex (asInt : String → Option Int) (i : Nat) : List (String × Node) → Option Node
  | [] => none
  | (k, v) :: t => if asInt k = some (i : Int) then some v else lookupIndex asInt i t

/-- The nodes `second[0]`, ... up to `second.size()` that the inner loop of
`emitF` reads: the items of a Sequence, the lookups of the indices in a Map,
none for a node of size 0. -/
def indexItems (asInt : String → Option Int) : Node → List (Option Node)
  | Node.seq xs => xs.map some
  | Node.map kvs => (List.range (Node.map kvs).size).map (fun i => lookupIndex asInt i kvs)
  | _ => []

/-- The body of the inner loop of `emitF`, one declaration for the item
`is->second[i]` of the set `key`.  The operands of `<<` are evaluated left to
right; a lookup in an invalid node or in a Scalar throws. -/
def emitDeclaration (text : Node → String) (key : String) (item : Option Node) (os : String) :
    Nat × String :=
  match item with
  | none =>
    (CPCD_FAILURE, os ++ _CPCD_FORTRAN_INDENT ++ "real(" ++ _CPCD_FORTRAN_KIND
      ++ "), parameter :: " ++ text (Node.scalar key) ++ "_")
  | some n =>
    match n.getConst "name" with
    | none =>
      (CPCD_FAILURE, os ++ _CPCD_FORTRAN_INDENT ++ "real(" ++ _CPCD_FORTRAN_KIND
        ++ "), parameter :: " ++ text (Node.scalar key) ++ "_")
    | some name =>
      match n.getConst "value" with
      | none =>
        (CPCD_FAILURE, os ++ _CPCD_FORTRAN_INDENT ++ "real(" ++ _CPCD_FORTRAN_KIND
          ++ "), parameter :: " ++ text (Node.scalar key) ++ "_" ++ text name ++ " = ")
      | some value =>
        (CPCD_SUCCESS, os ++ _CPCD_FORTRAN_INDENT ++ "real(" ++ _CPCD_FORTRAN_KIND
          ++ "), parameter :: " ++ text (Node.scalar key) ++ "_" ++ text name ++ " = "
          ++ text value ++ "_" ++ _CPCD_FORTRAN_KIND ++ "\n")

/-- The body of the outer loop of `emitF` for the entry `is` of `map`: the
comment naming the set, then the declarations of its items. -/
def emitSet (text : Node → String) (asInt : String → Option Int) (is : String × Node)
    (os : String) : Nat × String :=
  forEachOut (emitDeclaration text is.1) (indexItems asInt is.2)
    (os ++ "! - from set " ++ text (Node.scalar is.1) ++ "\n")

/-- The method `CPCD::emitF (os, map)`: the return code and the text written to
`os`.  The iterators of a Sequence carry an invalid `first` and `second`; the
`size()` of the latter throws after the comment is written. -/
def emitF (text : Node → String) (asInt : String → Option Int) (map : Node) : Nat × String :=
  match map with
  | Node.seq (_ :: _) =>
    (CPCD_FAILURE, "module " ++ _CPCD_FORTRAN_NAME ++ "\n" ++ "\n" ++ _CPCD_FORTRAN_INDENT
      ++ "integer, parameter :: " ++ _CPCD_FORTRAN_KIND ++ " = kind(1.d0)" ++ "\n" ++ "\n"
      ++ "! - from set " ++ text Node.undefined ++ "\n")
  | _ =>
    match forEachOut (emitSet text asInt) map.iter
        ("module " ++ _CPCD_FORTRAN_NAME ++ "\n" ++ "\n" ++ _CPCD_FORTRAN_INDENT
          ++ "integer, parameter :: " ++ _CPCD_FORTRAN_KIND ++ " = kind(1.d0)" ++ "\n" ++ "\n") with
    | (rc, os) =>
      if rc = CPCD_SUCCESS then
        (CPCD_SUCCESS, os ++ "\n" ++ "end module " ++ _CPCD_FORTRAN_NAME ++ "\n")
      else (CPCD_FAILURE, os)

/-- The method `CPCD::femit (filename)` on the member `map`: the return code of
`emitF` and the text written to the file. -/
def femit (text : Node → String) (asInt : String → Option Int) (map : Node) : Nat × String :=
  emitF text asInt map

/-- The method `CPCD::readreq (filename)`: the return code and the value of the
member `sel` on return.  `request` is the node `YAMLLoadFile` yields for the
file, `none` when it throws; `sel` is Null before the call. -/
def readreq (request : Option Node) : Nat × Node :=
  match request with
  | none => (CPCD_FAILURE, Node.null)
  | some req =>
    match ParseReq req with
    | (rc, sel) => if rc = CPCD_SUCCESS then (CPCD_SUCCESS, sel) else (CPCD_FAILURE, sel)

/-- The public methods of `CPCD` that `main` calls. -/
inductive Call where
  | read
  | write
  | validate
  | readreq
  | showreq
  | showsreq
  | parse
  | femit
deriving DecidableEq, Repr

/-- What a run of `main` is given.  `exitInOptions` is the status with which
`print_usage` or `print_version` leave the program while the options are read,
`none` when they are not called; `validate`, `verbose` and `print` are the
control flags; `dictionary` and `request` are the nodes `YAMLLoadFile` yields
for the two files, `none` when it throws. -/
structure Run where
  exitInOptions : Option Nat
  validate : Bool
  verbose : Bool
  print : Bool
  dictionary : Option Node
  request : Option Node

/-- The function `main` of `driver.cc`: the exit status and the methods called,
in order.  The result is `none` when `validate` has no defined result.  The
methods that only write a stored node to standard output return
`CPCD_SUCCESS`. -/
def main (text : Node → String) (asInt : String → Option Int) (run : Run) :
    Option (Nat × List Call) :=
  match run.exitInOptions with
  | some status => some (status, [])
  | none =>
    match run.dictionary with
    | none => some (CPCD_FAILURE, [Call.read])
    | some doc =>
      if run.validate then
        match validate doc with
        | none => none
        | some rc =>
          some (rc, (if run.print then [Call.read, Call.write] else [Call.read])
            ++ [Call.validate])
      else
        match readreq run.request with
        | (rc, sel) =>
          if rc = CPCD_SUCCESS then
            match parse doc sel Node.null with
            | (rc1, map) =>
              if rc1 = CPCD_SUCCESS then
                some ((femit text asInt map).1,
                  (if run.print then [Call.read, Call.write] else [Call.read])
                    ++ [Call.readreq]
                    ++ (if run.verbose then [Call.showreq, Call.showsreq] else [])
                    ++ [Call.parse, Call.femit])
              else
                some (rc1, (if run.print then [Call.read, Call.write] else [Call.read])
                  ++ [Call.readreq]
                  ++ (if run.verbose then [Call.showreq, Call.showsreq] else [])
                  ++ [Call.parse])
          else
            some (rc, (if run.print then [Call.read, Call.write] else [Call.read])
              ++ [Call.readreq])

/-! ## Vocabulary of the statements on `emitF` and `main` -/

/-- The emitter on nodes that need no quoting: a Scalar is written as its text,
an undefined node as nothing. -/
def plainText : Node → String
  | Node.scalar s => s
  | _ => ""

/-- A key is never read as an index. -/
def noIndex : String → Option Int := fun _ => none

/-- The text of lines, each ended by `std::endl`. -/
def unlines : List String → String
  | [] => ""
  | l :: t => l ++ "\n" ++ unlines t

/-- The entry of an ExtractionResult for the group `g.1` with the pairs of name
and value `g.2`. -/
def resultEntry (g : String × List (String × String)) : String × Node :=
  (g.1, Node.seq (g.2.map (fun p => mkPair p.1 p.2)))

/-- The declaration line of the pair `p` of group `G` with the group name, the
name and the value standing as they are. -/
def declarationLine (G : String) (p : String × String) : String :=
  "  real(cpcd_kind), parameter :: " ++ G ++ "_" ++ p.1 ++ " = " ++ p.2 ++ "_cpcd_kind"

/-- The lines of one group, its name standing as it is: the comment, then one
declaration per pair. -/
def groupLines (g : String × List (String × String)) : List String :=
  ("! - from set " ++ g.1) :: g.2.map (declarationLine g.1)

/-- The lines of the Fortran module of the groups, every Scalar standing as it
is. -/
def moduleLines (groups : List (String × List (String × String))) : List String :=
  ["module cpcd", "", "  integer, parameter :: cpcd_kind = kind(1.d0)", ""]
    ++ groups.flatMap groupLines ++ ["", "end module cpcd"]

/-- The emitter of the library on the nodes of the statements below.  A Scalar
that is empty is no valid plain scalar and is written within double quotes; a
Scalar that is a valid plain scalar, as are the words and numbers used below
(letters, digits and dots), is written as it is; Null is written `~` and an
undefined node writes nothing.  The statements below use it on these nodes
only: the Scalars the library writes within quotes for another reason (a
leading blank, a colon before a blank, a line break) and the Sequences and
Mappings, which no pair of an ExtractionResult holds, are outside it. -/
def quotingText : Node → String
  | Node.scalar s => if s = "" then "\"\"" else s
  | Node.null => "~"
  | _ => ""

/-- The declaration line `emitF` writes for the pair `p` of group `G`: the group
name, the name and the value stand in it as the emitter `text` writes them. -/
def writtenDeclaration (text : Node → String) (G : String) (p : String × String) : String :=
  "  real(cpcd_kind), parameter :: " ++ text (Node.scalar G) ++ "_" ++ text (Node.scalar p.1)
    ++ " = " ++ text (Node.scalar p.2) ++ "_cpcd_kind"

/-- The lines `emitF` writes for one group: the comment, then one declaration
per pair. -/
def writtenGroup (text : Node → String) (g : String × List (String × String)) : List String :=
  ("! - from set " ++ text (Node.scalar g.1)) :: g.2.map (writtenDeclaration text g.1)

/-- The lines of the Fortran module `emitF` writes for the groups. -/
def writtenModule (text : Node → String) (groups : List (String × List (String × String))) :
    List String :=
  ["module cpcd", "", "  integer, parameter :: cpcd_kind = kind(1.d0)", ""]
    ++ groups.flatMap (writtenGroup text) ++ ["", "end module cpcd"]

/-- The text holds no line break. -/
def noBreak (s : String) : Bool := s.data.all (fun c => c != '\n')

/-- The emitter writes the group names, names and values of the groups without
a line break. -/
def writtenWithoutBreak (text : Node → String)
    (groups : List (String × List (String × String))) : Bool :=
  groups.all (fun g => noBreak (text (Node.scalar g.1)) &&
    g.2.all (fun p => noBreak (text (Node.scalar p.1)) && noBreak (text (Node.scalar p.2))))

/-- The words every declaration line begins with. -/
def declarationStart : String := "  real(cpcd_kind), parameter :: "

/-- The line begins with the words of a declaration. -/
def isDeclaration (l : String) : Bool := declarationStart.data.isPrefixOf l.data

/-- The number of lines of a text that begin with the words of a declaration;
`atStart` says that the text begins a line. -/
def declarationCount : Bool → List Char → Nat
  | _, [] => 0
  | atStart, c :: t =>
    (if atStart && declarationStart.data.isPrefixOf (c :: t) then 1 else 0)
      + declarationCount (c == '\n') t

/-- The dictionary `sampleDocument` with an empty `value` for its entry `g`. -/
def sampleDocumentEmptyValue : Node :=
  Node.map [("physical_constants_dictionary", Node.map [
    ("version_number", Node.scalar "1"),
    ("institution", Node.scalar "inst"),
    ("description", Node.scalar "desc"),
    ("contact", Node.scalar "who"),
    ("set", Node.seq [Node.map [("myset", Node.map [
      ("description", Node.scalar "d"),
      ("citation", Node.scalar "c"),
      ("entries", Node.seq [Node.map [
        ("name", Node.scalar "g"),
        ("value", Node.scalar ""),
        ("units", Node.scalar "m s-2"),
        ("prec", Node.scalar "double"),
        ("type", Node.scalar "real"),
        ("uncertainty", Node.scalar "0"),
        ("description", Node.scalar "gravity")]])])]])])]

/-! ## Vocabulary of the statements on absent nodes -/

/-- The work map is Null, undefined or a Mapping, so that `map[str]` neither
throws nor turns a Sequence into a Mapping. -/
def mapLike : Node → Bool
  | Node.null => true
  | Node.undefined => true
  | Node.map _ => true
  | _ => false

/-- The record has no `entries` to read under the group `g`: the lookup of `g`
in the record and of `entries` in what it finds end on an undefined node (the
record has no key `g`, or the record of the group has no `entries` field). -/
def lacksEntries (record : Node) (g : String) : Bool :=
  match record.getConst g with
  | none => false
  | some grp =>
    match grp.getConst "entries" with
    | none => false
    | some ent => !ent.IsDefined

/-! # Theorems -/

/-! ## The lexical order and the list operations -/

theorem ltChars_iff_lex (a b : List Char) : ltChars a b = true ↔ List.Lex (· < ·) a b := by
  induction a generalizing b with
  | nil =>
    cases b with
    | nil => simp [ltChars]
    | cons y ys => simpa [ltChars] using List.Lex.nil
  | cons x xs ih =>
    cases b with
    | nil => simp [ltChars]
    | cons y ys =>
      simp only [ltChars]
      rcases lt_trichotomy x y with h | h | h
      · simpa [h] using List.Lex.rel h
      · subst h
        simp [ih, List.Lex.cons_iff]
      · have h2 : ¬ x < y := not_lt_of_gt h
        simp only [h2, h, if_true, if_false]
        constructor
        · intro hf; cases hf
        · intro hl
          cases hl with
          | cons hl => exact absurd h (lt_irrefl _)
          | rel hl => exact absurd hl h2

theorem strLt_iff (a b : String) : strLt a b = true ↔ a < b := by
  rw [String.lt_iff_toList_lt]; exact ltChars_iff_lex _ _

theorem strLt_eq_false_iff (a b : String) : strLt a b = false ↔ b ≤ a := by
  rw [← not_lt, ← strLt_iff]; simp

theorem mem_orderedInsert (a x : String) (l : List String) :
    x ∈ orderedInsert a l ↔ x = a ∨ x ∈ l := by
  induction l with
  | nil => simp [orderedInsert]
  | cons b t ih =>
    simp only [orderedInsert]
    split
    · simp [ih]; tauto
    · simp

theorem mem_sort (x : String) (l : List String) : x ∈ sort l ↔ x ∈ l := by
  induction l with
  | nil => simp [sort]
  | cons a t ih => simp [sort, mem_orderedInsert, ih]

theorem sorted_orderedInsert (a : String) (l : List String) (h : List.Sorted (· ≤ ·) l) :
    List.Sorted (· ≤ ·) (orderedInsert a l) := by
  induction l with
  | nil => simp [orderedInsert]
  | cons b t ih =>
    simp only [orderedInsert]
    rw [List.sorted_cons] at h
    split
    · rename_i hlt
      rw [strLt_iff] at hlt
      rw [List.sorted_cons]
      refine ⟨?_, ih h.2⟩
      intro c hc
      rw [mem_orderedInsert] at hc
      rcases hc with rfl | hc
      · exact le_of_lt hlt
      · exact h.1 c hc
    · rename_i hlt
      have hle : a ≤ b := by
        rw [Bool.not_eq_true, strLt_eq_false_iff] at hlt; exact hlt
      rw [List.sorted_cons, List.sorted_cons]
      refine ⟨?_, h⟩
      intro c hc
      rcases List.mem_cons.1 hc with rfl | hc
      · exact hle
      · exact le_trans hle (h.1 c hc)

theorem sorted_sort (l : List String) : List.Sorted (· ≤ ·) (sort l) := by
  induction l with
  | nil => simp [sort]
  | cons a t ih => exact sorted_orderedInsert a _ ih

theorem mem_uniqueFrom (p x : String) (l : List String) :
    x ∈ uniqueFrom p l → x ∈ l := by
  induction l generalizing p with
  | nil => simp [uniqueFrom]
  | cons b t ih =>
    simp only [uniqueFrom]
    split
    · intro h; exact List.mem_cons_of_mem _ (ih p h)
    · intro h
      rcases List.mem_cons.1 h with rfl | h
      · simp
      · exact List.mem_cons_of_mem _ (ih b h)

theorem mem_of_uniqueFrom (p x : String) (l : List String) (hx : x ∈ l) :
    x = p ∨ x ∈ uniqueFrom p l := by
  induction l generalizing p with
  | nil => simp at hx
  | cons b t ih =>
    simp only [uniqueFrom]
    rcases List.mem_cons.1 hx with rfl | hx
    · split
      · rename_i h; left; exact h.symm
      · right; simp
    · split
      · exact ih p hx
      · rcases ih b hx with h | h
        · right; simp [h]
        · right; exact List.mem_cons_of_mem _ h

theorem mem_unique (x : String) (l : List String) : x ∈ unique l ↔ x ∈ l := by
  cases l with
  | nil => simp [unique]
  | cons a t =>
    simp only [unique, List.mem_cons]
    constructor
    · rintro (h | h)
      · exact Or.inl h
      · exact Or.inr (mem_uniqueFrom a x t h)
    · rintro (h | h)
      · exact Or.inl h
      · exact (mem_of_uniqueFrom a x t h)

theorem sorted_uniqueFrom (p : String) (l : List String) (h : List.Sorted (· ≤ ·) (p :: l)) :
    List.Sorted (· < ·) (p :: uniqueFrom p l) := by
  induction l generalizing p with
  | nil => simp [uniqueFrom]
  | cons b t ih =>
    simp only [uniqueFrom]
    rw [List.sorted_cons] at h
    have hbt := h.2
    split
    · rename_i hpb
      subst hpb
      exact ih p hbt
    · rename_i hpb
      have hlt : p < b := lt_of_le_of_ne (h.1 b (by simp)) hpb
      have ihb := ih b hbt
      rw [List.sorted_cons]
      refine ⟨?_, ihb⟩
      intro c hc
      rcases List.mem_cons.1 hc with rfl | hc
      · exact hlt
      · exact lt_trans hlt ((List.sorted_cons.1 ihb).1 c hc)

theorem sorted_unique (l : List String) (h : List.Sorted (· ≤ ·) l) :
    List.Sorted (· < ·) (unique l) := by
  cases l with
  | nil => simp [unique]
  | cons a t => exact sorted_uniqueFrom a t h

theorem uniqueFrom_of_sorted (p : String) (l : List String) (h : List.Sorted (· < ·) (p :: l)) :
    uniqueFrom p l = l := by
  induction l generalizing p with
  | nil => rfl
  | cons b t ih =>
    simp only [uniqueFrom]
    rw [List.sorted_cons] at h
    have hne : p ≠ b := ne_of_lt (h.1 b (by simp))
    simp [hne, ih b h.2]

theorem unique_of_sorted (l : List String) (h : List.Sorted (· < ·) l) : unique l = l := by
  cases l with
  | nil => rfl
  | cons a t => simp [unique, uniqueFrom_of_sorted a t h]

theorem orderedInsert_of_le (a : String) (l : List String) (h : ∀ b ∈ l, a < b) :
    orderedInsert a l = a :: l := by
  cases l with
  | nil => rfl
  | cons b t =>
    have : strLt b a = false := by
      rw [strLt_eq_false_iff]; exact le_of_lt (h b (by simp))
    simp [orderedInsert, this]

theorem sort_of_sorted (l : List String) (h : List.Sorted (· < ·) l) : sort l = l := by
  induction l with
  | nil => rfl
  | cons a t ih =>
    rw [List.sorted_cons] at h
    simp [sort, ih h.2, orderedInsert_of_le a t h.1]

/-! ## The `rMap` of `ParseReq` -/

theorem rMapPushBack_keys (m : rMap) (key v k : String) :
    k ∈ (rMapPushBack m key v).map Prod.fst ↔ k = key ∨ k ∈ m.map Prod.fst := by
  induction m with
  | nil => simp [rMapPushBack]
  | cons e t ih =>
    obtain ⟨k0, l⟩ := e
    simp only [rMapPushBack]
    split
    · simp
    · split
      · simp only [List.map_cons, List.mem_cons, ih]; tauto
      · rename_i h1 h2
        have heq : key = k0 := by
          rw [Bool.not_eq_true, strLt_eq_false_iff] at h1 h2
          exact le_antisymm h2 h1
        subst heq
        simp

theorem rMapPushBack_sorted (m : rMap) (key v : String)
    (h : List.Sorted (· < ·) (m.map Prod.fst)) :
    List.Sorted (· < ·) ((rMapPushBack m key v).map Prod.fst) := by
  induction m with
  | nil => simp [rMapPushBack]
  | cons e t ih =>
    obtain ⟨k0, l⟩ := e
    simp only [List.map_cons, List.sorted_cons] at h
    simp only [rMapPushBack]
    split
    · rename_i h1
      rw [strLt_iff] at h1
      simp only [List.map_cons, List.sorted_cons, List.mem_cons]
      refine ⟨?_, h.1, h.2⟩
      rintro b (rfl | hb)
      · exact h1
      · exact lt_trans h1 (h.1 b hb)
    · split
      · rename_i h1 h2
        rw [strLt_iff] at h2
        simp only [List.map_cons, List.sorted_cons]
        refine ⟨?_, ih h.2⟩
        intro b hb
        rw [rMapPushBack_keys] at hb
        rcases hb with rfl | hb
        · exact h2
        · exact h.1 b hb
      · simpa [List.sorted_cons] using h

theorem rFind_of_not_mem (m : rMap) (key : String) (h : key ∉ m.map Prod.fst) :
    rFind m key = [] := by
  induction m with
  | nil => rfl
  | cons e t ih =>
    obtain ⟨k0, l⟩ := e
    simp only [List.map_cons, List.mem_cons, not_or] at h
    simp [rFind, Ne.symm h.1, ih h.2]

theorem rFind_rMapPushBack (m : rMap) (key v k : String)
    (h : List.Sorted (· < ·) (m.map Prod.fst)) :
    rFind (rMapPushBack m key v) k = if k = key then rFind m key ++ [v] else rFind m k := by
  induction m with
  | nil =>
    by_cases hk : k = key
    · subst hk; simp [rMapPushBack, rFind]
    · simp [rMapPushBack, rFind, hk, Ne.symm hk]
  | cons e t ih =>
    obtain ⟨k0, l⟩ := e
    simp only [List.map_cons, List.sorted_cons] at h
    simp only [rMapPushBack]
    split
    · rename_i h1
      rw [strLt_iff] at h1
      have hnot : key ∉ ((k0, l) :: t).map Prod.fst := by
        simp only [List.map_cons, List.mem_cons, not_or]
        refine ⟨ne_of_lt h1, fun hm => ?_⟩
        exact lt_asymm h1 (h.1 key hm)
      by_cases hk : k = key
      · subst hk
        rw [if_pos rfl, rFind_of_not_mem _ _ hnot]
        simp [rFind]
      · simp [rFind, hk, Ne.symm hk]
    · split
      · rename_i h1 h2
        rw [strLt_iff] at h2
        have hne : k0 ≠ key := ne_of_lt h2
        by_cases hk : k = key
        · subst hk
          simp [rFind, hne, ih h.2]
        · by_cases hk0 : k0 = k
          · simp [rFind, hk0, hk]
          · simp [rFind, hk0, hk, ih h.2]
      · rename_i h1 h2
        have heq : key = k0 := by
          rw [Bool.not_eq_true, strLt_eq_false_iff] at h1 h2
          exact le_antisymm h2 h1
        subst heq
        by_cases hk : k = key
        · subst hk; simp [rFind]
        · simp [rFind, hk, Ne.symm hk]

theorem rMapPushBack_nonempty (m : rMap) (key v : String) (h : ∀ e ∈ m, e.2 ≠ []) :
    ∀ e ∈ rMapPushBack m key v, e.2 ≠ [] := by
  induction m with
  | nil => simp [rMapPushBack]
  | cons e t ih =>
    obtain ⟨k0, l⟩ := e
    have ht : ∀ e ∈ t, e.2 ≠ [] := fun e he => h e (List.mem_cons_of_mem _ he)
    have h0 : l ≠ [] := h (k0, l) (by simp)
    simp only [rMapPushBack]
    split
    · intro e he
      rcases List.mem_cons.1 he with rfl | he
      · simp
      · exact h e he
    · split
      · intro e he
        rcases List.mem_cons.1 he with rfl | he
        · exact h0
        · exact ih ht e he
      · intro e he
        rcases List.mem_cons.1 he with rfl | he
        · simp
        · exact ht e he

theorem rFind_of_mem (m : rMap) (k : String) (l : List String)
    (h : List.Sorted (· < ·) (m.map Prod.fst)) (hm : (k, l) ∈ m) : rFind m k = l := by
  induction m with
  | nil => simp at hm
  | cons e t ih =>
    obtain ⟨k0, l0⟩ := e
    simp only [List.map_cons, List.sorted_cons] at h
    rcases List.mem_cons.1 hm with heq | hm
    · cases heq; simp [rFind]
    · have hne : k0 ≠ k := ne_of_lt (h.1 k (List.mem_map_of_mem Prod.fst hm))
      simp [rFind, hne, ih h.2 hm]

theorem mem_of_rFind_ne_nil (m : rMap) (k : String) (h : rFind m k ≠ []) :
    (k, rFind m k) ∈ m := by
  induction m with
  | nil => simp [rFind] at h
  | cons e t ih =>
    obtain ⟨k0, l0⟩ := e
    by_cases hk : k0 = k
    · subst hk; simp [rFind]
    · simp only [rFind, hk, if_false] at h ⊢
      exact List.mem_cons_of_mem _ (ih h)

theorem rMapOk_nil : rMapOk [] := by
  constructor
  · simp
  · simp

theorem rMapOk_pushBack (m : rMap) (key v : String) (h : rMapOk m) :
    rMapOk (rMapPushBack m key v) :=
  ⟨rMapPushBack_sorted m key v h.1, rMapPushBack_nonempty m key v h.2⟩

theorem pushNames_scalars (key : String) (xs : List Node) (m : rMap)
    (hx : xs.all isScalar = true) (hm : rMapOk m) :
    ∃ m1, pushNames key xs m = some m1 ∧ rMapOk m1 ∧
      ∀ k, rFind m1 k = if k = key then rFind m key ++ xs.filterMap Node.asString
        else rFind m k := by
  induction xs generalizing m with
  | nil =>
    refine ⟨m, rfl, hm, ?_⟩
    intro k; by_cases hk : k = key <;> simp [hk]
  | cons x t ih =>
    simp only [List.all_cons, Bool.and_eq_true] at hx
    cases x with
    | scalar s =>
      obtain ⟨m1, h1, h2, h3⟩ := ih (rMapPushBack m key s) hx.2 (rMapOk_pushBack m key s hm)
      refine ⟨m1, ?_, h2, ?_⟩
      · simpa [pushNames, Node.asString] using h1
      · intro k
        rw [h3 k]
        by_cases hk : k = key
        · subst hk
          simp [rFind_rMapPushBack m k s k hm.1, Node.asString]
        · simp [hk, rFind_rMapPushBack m key s k hm.1]
    | undefined => simp [isScalar] at hx
    | null => simp [isScalar] at hx
    | seq _ => simp [isScalar] at hx
    | map _ => simp [isScalar] at hx

theorem collectEntry_wellFormed (m : rMap) (key : String) (value : Node)
    (hv : wellFormedValue value = true) (hm : rMapOk m) :
    ∃ m1, collectEntry m key value = some m1 ∧ rMapOk m1 ∧
      ∀ k, rFind m1 k = if k = key then rFind m key ++ namesOf value else rFind m k := by
  cases value with
  | scalar s =>
    refine ⟨rMapPushBack m key s, rfl, rMapOk_pushBack m key s hm, ?_⟩
    intro k
    simp [rFind_rMapPushBack m key s k hm.1, namesOf]
  | seq xs =>
    exact pushNames_scalars key xs m hv hm
  | undefined => simp [wellFormedValue] at hv
  | null => simp [wellFormedValue] at hv
  | map _ => simp [wellFormedValue] at hv

theorem collect_wellFormed (req : List (String × Node)) (m : rMap)
    (hwf : ∀ kv ∈ req, wellFormedValue kv.2 = true) (hm : rMapOk m) :
    ∃ m1, collect req m = some m1 ∧ rMapOk m1 ∧
      ∀ k, rFind m1 k = rFind m k ++ requested req k := by
  induction req generalizing m with
  | nil => exact ⟨m, rfl, hm, by simp [requested]⟩
  | cons e t ih =>
    obtain ⟨key, value⟩ := e
    obtain ⟨m1, h1, h2, h3⟩ :=
      collectEntry_wellFormed m key value (hwf (key, value) (by simp)) hm
    obtain ⟨m2, h4, h5, h6⟩ := ih m1 (fun kv hkv => hwf kv (List.mem_cons_of_mem _ hkv)) h2
    refine ⟨m2, ?_, h5, ?_⟩
    · simp [collect, h1, h4]
    · intro k
      rw [h6 k, h3 k]
      by_cases hk : k = key
      · subst hk; simp [requested]
      · simp [requested, hk, Ne.symm hk]

theorem wellFormedValue_defined (v : Node) (h : wellFormedValue v = true) :
    v.IsDefined = true := by
  cases v <;> simp_all [wellFormedValue, Node.IsDefined]

theorem iter_wellFormed (req : List (String × Node))
    (hwf : ∀ kv ∈ req, wellFormedValue kv.2 = true) : (Node.map req).iter = req := by
  simp only [Node.iter]
  rw [List.filter_eq_self]
  intro kv hkv
  exact wellFormedValue_defined kv.2 (hwf kv hkv)

/-! ## The second loop of `ParseReq` -/

theorem setEntry_of_absent (kvs : List (String × Node)) (key : String) (v : Node)
    (h : get? kvs key = none) : setEntry kvs key v = kvs ++ [(key, v)] := by
  induction kvs with
  | nil => rfl
  | cons e t ih =>
    obtain ⟨k, w⟩ := e
    by_cases hk : k = key
    · simp [get?, hk] at h
    · simp only [get?, hk, if_false] at h
      simp [setEntry, hk, ih h]

theorem get?_append_last (kvs : List (String × Node)) (key : String) (v : Node)
    (h : get? kvs key = none) : get? (kvs ++ [(key, v)]) key = some v := by
  induction kvs with
  | nil => simp [get?]
  | cons e t ih =>
    obtain ⟨k, w⟩ := e
    by_cases hk : k = key
    · simp [get?, hk] at h
    · simp only [get?, hk, if_false] at h
      simp [get?, hk, ih h]

theorem setEntry_append_last (kvs : List (String × Node)) (key : String) (w v : Node)
    (h : get? kvs key = none) :
    setEntry (kvs ++ [(key, w)]) key v = kvs ++ [(key, v)] := by
  induction kvs with
  | nil => simp [setEntry]
  | cons e t ih =>
    obtain ⟨k, u⟩ := e
    by_cases hk : k = key
    · simp [get?, hk] at h
    · simp only [get?, hk, if_false] at h
      simp [setEntry, hk, ih h]

theorem get?_append_other (kvs : List (String × Node)) (key k : String) (v : Node)
    (hk : k ≠ key) : get? (kvs ++ [(k, v)]) key = get? kvs key := by
  induction kvs with
  | nil => simp [get?, hk]
  | cons e t ih =>
    obtain ⟨k0, u⟩ := e
    by_cases h0 : k0 = key
    · simp [get?, h0]
    · simp [get?, h0, ih]

theorem emitNames_tail (key : String) (t : List String) (kvs : List (String × Node))
    (xs : List Node) (h : get? kvs key = none) :
    emitNames key t (Node.map (kvs ++ [(key, Node.seq xs)]))
      = some (Node.map (kvs ++ [(key, Node.seq (xs ++ t.map Node.scalar))])) := by
  induction t generalizing xs with
  | nil => simp [emitNames]
  | cons s t ih =>
    have hstep : pushBackAt (Node.map (kvs ++ [(key, Node.seq xs)])) key (Node.scalar s)
        = some (Node.map (kvs ++ [(key, Node.seq (xs ++ [Node.scalar s]))])) := by
      simp [pushBackAt, Node.toMapEntries, get?_append_last kvs key _ h, Node.push_back,
        setEntry_append_last kvs key _ _ h]
    simp only [emitNames, hstep]
    rw [ih (xs ++ [Node.scalar s])]
    simp

theorem emitNames_fresh (key : String) (s : String) (t : List String) (preq : Node)
    (kvs : List (String × Node)) (hp : preq.toMapEntries = some kvs)
    (h : get? kvs key = none) :
    emitNames key (s :: t) preq
      = some (Node.map (kvs ++ [(key, Node.seq ((s :: t).map Node.scalar))])) := by
  have hstep : pushBackAt preq key (Node.scalar s)
      = some (Node.map (kvs ++ [(key, Node.seq [Node.scalar s])])) := by
    simp [pushBackAt, hp, h, Node.push_back, setEntry_of_absent kvs key _ h]
  simp only [emitNames, hstep]
  rw [emitNames_tail key t kvs _ h]
  simp

theorem unique_ne_nil (l : List String) (h : l ≠ []) : unique l ≠ [] := by
  cases l with
  | nil => exact absurd rfl h
  | cons a t => simp [unique]

theorem sort_ne_nil (l : List String) (h : l ≠ []) : sort l ≠ [] := by
  cases l with
  | nil => exact absurd rfl h
  | cons a t =>
    intro hs
    have : a ∈ sort (a :: t) := (mem_sort a (a :: t)).2 (by simp)
    rw [hs] at this
    simp at this

theorem get?_eq_none_of_not_mem (kvs : List (String × Node)) (key : String)
    (h : key ∉ kvs.map Prod.fst) : get? kvs key = none := by
  induction kvs with
  | nil => rfl
  | cons e t ih =>
    obtain ⟨k, w⟩ := e
    simp only [List.map_cons, List.mem_cons, not_or] at h
    simp [get?, Ne.symm h.1, ih h.2]

theorem emitGroups_map (m : rMap) (kvs : List (String × Node))
    (hfresh : ∀ e ∈ m, e.1 ∉ kvs.map Prod.fst)
    (hnd : (m.map Prod.fst).Nodup) (hne : ∀ e ∈ m, e.2 ≠ []) :
    emitGroups m (Node.map kvs) = some (Node.map (kvs ++ m.map queryEntry)) := by
  induction m generalizing kvs with
  | nil => simp [emitGroups]
  | cons e t ih =>
    obtain ⟨k, l⟩ := e
    have hl : unique (sort l) ≠ [] := unique_ne_nil _ (sort_ne_nil _ (hne (k, l) (by simp)))
    obtain ⟨s, ss, hss⟩ := List.exists_cons_of_ne_nil hl
    have hk : get? kvs k = none :=
      get?_eq_none_of_not_mem kvs k (hfresh (k, l) (by simp))
    simp only [List.map_cons, List.nodup_cons] at hnd
    simp only [emitGroups, hss]
    rw [emitNames_fresh k s ss (Node.map kvs) kvs rfl hk]
    simp only []
    rw [ih (kvs ++ [(k, Node.seq ((s :: ss).map Node.scalar))])]
    · simp [queryEntry, hss]
    · intro e he
      simp only [List.map_append, List.map_cons, List.map_nil, List.mem_append,
        List.mem_singleton, not_or]
      refine ⟨hfresh e (List.mem_cons_of_mem _ he), ?_⟩
      intro hek
      exact hnd.1 (hek ▸ List.mem_map_of_mem Prod.fst he)
    · exact hnd.2
    · exact fun e he => hne e (List.mem_cons_of_mem _ he)

theorem queryOf_eq (m : rMap) (h : m ≠ []) : queryOf m = Node.map (m.map queryEntry) := by
  cases m with
  | nil => exact absurd rfl h
  | cons e t => rfl

theorem emitGroups_null (m : rMap) (hm : rMapOk m) :
    emitGroups m Node.null = some (queryOf m) := by
  cases m with
  | nil => rfl
  | cons e t =>
    obtain ⟨k, l⟩ := e
    have hnd : (((k, l) :: t).map Prod.fst).Nodup := hm.1.nodup
    have hl : unique (sort l) ≠ [] := unique_ne_nil _ (sort_ne_nil _ (hm.2 (k, l) (by simp)))
    obtain ⟨s, ss, hss⟩ := List.exists_cons_of_ne_nil hl
    simp only [List.map_cons, List.nodup_cons] at hnd
    simp only [emitGroups, hss]
    rw [emitNames_fresh k s ss Node.null [] rfl rfl]
    simp only []
    rw [emitGroups_map t _ _ hnd.2 (fun e he => hm.2 e (List.mem_cons_of_mem _ he))]
    · simp [queryOf, queryEntry, hss]
    · intro e he hek
      simp only [List.nil_append, List.map_cons, List.map_nil, List.mem_singleton] at hek
      exact hnd.1 (hek ▸ List.mem_map_of_mem Prod.fst he)

theorem ParseReq_map (req : List (String × Node)) :
    ParseReq (Node.map req) =
      match collect (Node.map req).iter [] with
      | none => (CPCD_FAILURE, Node.null)
      | some m =>
        match emitGroups m Node.null with
        | none => (CPCD_FAILURE, Node.null)
        | some preq => (CPCD_SUCCESS, preq) := rfl

/-- On a well-formed request `ParseReq` succeeds with the Query of an `rMap`
that holds, under every key, the names requested under it in request order. -/
theorem ParseReq_wellFormed_eq (req : List (String × Node))
    (hwf : ∀ kv ∈ req, wellFormedValue kv.2 = true) :
    ∃ m, rMapOk m ∧ (∀ k, rFind m k = requested req k) ∧
      ParseReq (Node.map req) = (CPCD_SUCCESS, queryOf m) := by
  obtain ⟨m, h1, h2, h3⟩ := collect_wellFormed req [] hwf rMapOk_nil
  refine ⟨m, h2, ?_, ?_⟩
  · intro k; simpa [rFind] using h3 k
  · rw [ParseReq_map, iter_wellFormed req hwf, h1]
    simp only []
    rw [emitGroups_null m h2]

theorem queryOf_iter (m : rMap) : (queryOf m).iter = m.map queryEntry := by
  cases m with
  | nil => rfl
  | cons e t =>
    rw [queryOf_eq _ (List.cons_ne_nil e t)]
    simp only [Node.iter]
    rw [List.filter_eq_self]
    intro kv hkv
    obtain ⟨e0, _, rfl⟩ := List.mem_map.1 hkv
    rfl

/-! ## C1 -/

theorem mem_requested (req : List (String × Node)) (g x : String) :
    x ∈ requested req g ↔ ∃ v, (g, v) ∈ req ∧ x ∈ namesOf v := by
  induction req with
  | nil => simp [requested]
  | cons e t ih =>
    obtain ⟨k, w⟩ := e
    by_cases hk : k = g
    · subst hk
      simp only [requested, if_true, List.mem_append, ih, List.mem_cons, Prod.mk.injEq,
        true_and]
      constructor
      · rintro (h | ⟨v, hv, hx⟩)
        · exact ⟨w, Or.inl rfl, h⟩
        · exact ⟨v, Or.inr hv, hx⟩
      · rintro ⟨v, (rfl | hv), hx⟩
        · exact Or.inl hx
        · exact Or.inr ⟨v, hv, hx⟩
    · simp only [requested, hk, if_false, ih, List.mem_cons, Prod.mk.injEq]
      constructor
      · rintro ⟨v, hv, hx⟩
        exact ⟨v, Or.inr hv, hx⟩
      · rintro ⟨v, (⟨h1, _⟩ | hv), hx⟩
        · exact absurd h1.symm hk
        · exact ⟨v, hv, hx⟩

theorem sorted_singleton_of_mem (l : List String) (s : String)
    (hs : List.Sorted (· < ·) l) (hm : ∀ x, x ∈ l ↔ x = s) : l = [s] := by
  cases l with
  | nil => exact absurd ((hm s).2 rfl) (by simp)
  | cons a t =>
    have ha : a = s := (hm a).1 (by simp)
    subst ha
    cases t with
    | nil => rfl
    | cons b u =>
      have hb : b = a := (hm b).1 (by simp)
      have hlt : a < b := (List.sorted_cons.1 hs).1 b (by simp)
      rw [hb] at hlt
      exact absurd hlt (lt_irrefl _)

/-- C1: for every request that is a Mapping whose values are each a Scalar or a
Sequence of Scalars, `ParseReq` succeeds, and every group the produced Query
holds has a Sequence of Scalars as value that is strictly ascending in lexical
order (sorted, no duplicate) and whose elements are exactly the names requested
under that group; a group requested as the bare Scalar `s` holds exactly the
one-element Sequence `[s]`. -/
theorem ParseReq_sorted_unique (req : List (String × Node))
    (hwf : ∀ kv ∈ req, wellFormedValue kv.2 = true) :
    ∃ preq, ParseReq (Node.map req) = (CPCD_SUCCESS, preq) ∧
      (∀ g v, (g, v) ∈ preq.iter →
        ∃ l : List String, v = Node.seq (l.map Node.scalar) ∧ List.Sorted (· < ·) l ∧
          ∀ s, s ∈ l ↔ s ∈ requested req g) ∧
      (∀ g s, (g, Node.scalar s) ∈ req → (∀ v, (g, v) ∈ req → v = Node.scalar s) →
        (g, Node.seq [Node.scalar s]) ∈ preq.iter) := by
  obtain ⟨m, hok, hfind, hreq⟩ := ParseReq_wellFormed_eq req hwf
  refine ⟨queryOf m, hreq, ?_, ?_⟩
  · intro g v hgv
    rw [queryOf_iter] at hgv
    obtain ⟨e, he, heq⟩ := List.mem_map.1 hgv
    obtain ⟨k, l⟩ := e
    simp only [queryEntry, Prod.mk.injEq] at heq
    obtain ⟨rfl, rfl⟩ := heq
    have hl : rFind m k = l := rFind_of_mem m k l hok.1 he
    refine ⟨unique (sort l), rfl, sorted_unique _ (sorted_sort l), ?_⟩
    intro s
    rw [mem_unique, mem_sort, ← hfind k, hl]
  · intro g s hmem hall
    have hs : ∀ x, x ∈ requested req g ↔ x = s := by
      intro x
      rw [mem_requested]
      constructor
      · rintro ⟨v, hv, hx⟩
        rw [hall v hv] at hx
        simpa [namesOf] using hx
      · rintro rfl
        exact ⟨Node.scalar x, hmem, by simp [namesOf]⟩
    have hne : rFind m g ≠ [] := by
      intro h0
      have : s ∈ rFind m g := by rw [hfind g]; exact (hs s).2 rfl
      rw [h0] at this
      simp at this
    have hin : (g, rFind m g) ∈ m := mem_of_rFind_ne_nil m g hne
    have hl : unique (sort (rFind m g)) = [s] := by
      apply sorted_singleton_of_mem _ _ (sorted_unique _ (sorted_sort _))
      intro x
      rw [mem_unique, mem_sort, hfind g]
      exact hs x
    rw [queryOf_iter]
    refine List.mem_map.2 ⟨(g, rFind m g), hin, ?_⟩
    simp [queryEntry, hl]

/-- The theorem of C1 at the request that maps `a` to `["x","y","x"]` and `b` to
the bare Scalar `z`, with the Query `ParseReq` returns for it. -/
theorem ParseReq_sorted_unique_witness :
    ParseReq (Node.map [("a", Node.seq [Node.scalar "x", Node.scalar "y", Node.scalar "x"]),
        ("b", Node.scalar "z")])
      = (CPCD_SUCCESS, Node.map [("a", Node.seq [Node.scalar "x", Node.scalar "y"]),
          ("b", Node.seq [Node.scalar "z"])]) ∧
    ∃ preq, ParseReq (Node.map [("a", Node.seq [Node.scalar "x", Node.scalar "y",
        Node.scalar "x"]), ("b", Node.scalar "z")]) = (CPCD_SUCCESS, preq) ∧
      (∀ g v, (g, v) ∈ preq.iter →
        ∃ l : List String, v = Node.seq (l.map Node.scalar) ∧ List.Sorted (· < ·) l ∧
          ∀ s, s ∈ l ↔ s ∈ requested [("a", Node.seq [Node.scalar "x", Node.scalar "y",
            Node.scalar "x"]), ("b", Node.scalar "z")] g) ∧
      (∀ g s, (g, Node.scalar s) ∈ [("a", Node.seq [Node.scalar "x", Node.scalar "y",
          Node.scalar "x"]), ("b", Node.scalar "z")] →
        (∀ v, (g, v) ∈ [("a", Node.seq [Node.scalar "x", Node.scalar "y",
          Node.scalar "x"]), ("b", Node.scalar "z")] → v = Node.scalar s) →
        (g, Node.seq [Node.scalar s]) ∈ preq.iter) :=
  ⟨rfl, ParseReq_sorted_unique _ (by decide)⟩

/-! ## C6 -/

theorem pushNames_some (key : String) (xs : List Node) (m m1 : rMap)
    (h : pushNames key xs m = some m1) : xs.all isScalar = true := by
  induction xs generalizing m with
  | nil => rfl
  | cons x t ih =>
    cases x with
    | scalar s =>
      simp only [pushNames, Node.asString] at h
      simp [isScalar, ih _ h]
    | undefined => simp [pushNames, Node.asString] at h
    | null => simp [pushNames, Node.asString] at h
    | seq _ => simp [pushNames, Node.asString] at h
    | map _ => simp [pushNames, Node.asString] at h

theorem collectEntry_some (m m1 : rMap) (key : String) (value : Node)
    (h : collectEntry m key value = some m1) : wellFormedValue value = true := by
  cases value with
  | scalar s => rfl
  | seq xs => exact pushNames_some key xs m m1 h
  | undefined => simp [collectEntry] at h
  | null => simp [collectEntry] at h
  | map _ => simp [collectEntry] at h

theorem collect_some (l : List (String × Node)) (m m1 : rMap)
    (h : collect l m = some m1) : ∀ kv ∈ l, wellFormedValue kv.2 = true := by
  induction l generalizing m with
  | nil => simp
  | cons e t ih =>
    obtain ⟨key, value⟩ := e
    simp only [collect] at h
    cases hc : collectEntry m key value with
    | none => simp [hc] at h
    | some m2 =>
      simp only [hc] at h
      intro kv hkv
      rcases List.mem_cons.1 hkv with rfl | hkv
      · exact collectEntry_some m m2 key value hc
      · exact ih m2 h kv hkv

theorem ParseReq_fst_of_collect_none (req : List (String × Node))
    (h : collect (Node.map req).iter [] = none) :
    (ParseReq (Node.map req)).1 = CPCD_FAILURE := by
  rw [ParseReq_map, h]

/-- C6: for every request that is a Mapping, `ParseReq` succeeds if and only if
the value of every group is a Scalar or a Sequence of Scalars; it fails whenever
the value of some group is a Mapping or Null, whatever the other groups are. -/
theorem ParseReq_succeeds_iff (req : List (String × Node)) :
    ((ParseReq (Node.map req)).1 = CPCD_SUCCESS ↔
      ∀ kv ∈ (Node.map req).iter, wellFormedValue kv.2 = true) ∧
    (∀ kv ∈ req, (kv.2 = Node.null ∨ ∃ e, kv.2 = Node.map e) →
      (ParseReq (Node.map req)).1 = CPCD_FAILURE) := by
  have hiff : (ParseReq (Node.map req)).1 = CPCD_SUCCESS ↔
      ∀ kv ∈ (Node.map req).iter, wellFormedValue kv.2 = true := by
    constructor
    · intro h
      cases hc : collect (Node.map req).iter [] with
      | none =>
        rw [ParseReq_fst_of_collect_none req hc] at h
        exact absurd h (by decide)
      | some m => exact collect_some _ _ _ hc
    · intro hwf
      obtain ⟨m, h1, h2, _⟩ := collect_wellFormed (Node.map req).iter [] hwf rMapOk_nil
      rw [ParseReq_map, h1]
      simp only []
      rw [emitGroups_null m h2]
  refine ⟨hiff, ?_⟩
  intro kv hkv hbad
  cases hc : collect (Node.map req).iter [] with
  | none => exact ParseReq_fst_of_collect_none req hc
  | some m =>
    have hdef : kv.2.IsDefined = true := by
      rcases hbad with h | ⟨e, h⟩ <;> rw [h] <;> rfl
    have hin : kv ∈ (Node.map req).iter := by
      simp only [Node.iter, List.mem_filter]
      exact ⟨hkv, hdef⟩
    have hwf := collect_some _ _ _ hc kv hin
    rcases hbad with h | ⟨e, h⟩ <;> rw [h] at hwf <;> simp [wellFormedValue] at hwf

/-- The theorem of C6 at the request `a: x, b: (k: v)`, whose second group is a
Mapping, and at the request `a: [x]`. -/
theorem ParseReq_succeeds_iff_witness :
    (ParseReq (Node.map [("a", Node.scalar "x"),
        ("b", Node.map [("k", Node.scalar "v")])])).1 = CPCD_FAILURE ∧
    (ParseReq (Node.map [("a", Node.seq [Node.scalar "x"])])).1 = CPCD_SUCCESS :=
  ⟨(ParseReq_succeeds_iff [("a", Node.scalar "x"), ("b", Node.map [("k", Node.scalar "v")])]).2
      ("b", Node.map [("k", Node.scalar "v")]) (List.Mem.tail _ (List.Mem.head _))
      (Or.inr ⟨_, rfl⟩),
    (ParseReq_succeeds_iff [("a", Node.seq [Node.scalar "x"])]).1.2 (by decide)⟩

/-! ## C7 -/

theorem rFind_nil_of_lt (m : rMap) (k : String) (h : ∀ b ∈ m.map Prod.fst, k < b) :
    rFind m k = [] := by
  apply rFind_of_not_mem
  intro hk
  exact lt_irrefl _ (h k hk)

theorem rMap_ext (m1 m2 : rMap) (h1 : rMapOk m1) (h2 : rMapOk m2)
    (h : ∀ k, rFind m1 k = rFind m2 k) : m1 = m2 := by
  induction m1 generalizing m2 with
  | nil =>
    cases m2 with
    | nil => rfl
    | cons e t =>
      obtain ⟨k, l⟩ := e
      have := h k
      simp only [rFind, if_true] at this
      exact absurd this.symm (h2.2 (k, l) (by simp))
  | cons e1 t1 ih =>
    obtain ⟨k1, l1⟩ := e1
    have hs1 := h1.1
    simp only [List.map_cons, List.sorted_cons] at hs1
    cases m2 with
    | nil =>
      have := h k1
      simp only [rFind, if_true] at this
      exact absurd this (h1.2 (k1, l1) (by simp))
    | cons e2 t2 =>
      obtain ⟨k2, l2⟩ := e2
      have hs2 := h2.1
      simp only [List.map_cons, List.sorted_cons] at hs2
      have hk : k1 = k2 := by
        rcases lt_trichotomy k1 k2 with hlt | heq | hgt
        · exfalso
          have h0 := h k1
          rw [rFind_nil_of_lt ((k2, l2) :: t2) k1] at h0
          · simp only [rFind, if_true] at h0
            exact h1.2 (k1, l1) (by simp) h0
          · intro b hb
            simp only [List.map_cons, List.mem_cons] at hb
            rcases hb with rfl | hb
            · exact hlt
            · exact lt_trans hlt (hs2.1 b hb)
        · exact heq
        · exfalso
          have h0 := h k2
          rw [rFind_nil_of_lt ((k1, l1) :: t1) k2] at h0
          · simp only [rFind, if_true] at h0
            exact h2.2 (k2, l2) (by simp) h0.symm
          · intro b hb
            simp only [List.map_cons, List.mem_cons] at hb
            rcases hb with rfl | hb
            · exact hgt
            · exact lt_trans hgt (hs1.1 b hb)
      subst hk
      have hl : l1 = l2 := by simpa [rFind] using h k1
      subst hl
      have ht : t1 = t2 := by
        apply ih t2 ⟨hs1.2, fun e he => h1.2 e (List.mem_cons_of_mem _ he)⟩
          ⟨hs2.2, fun e he => h2.2 e (List.mem_cons_of_mem _ he)⟩
        intro k
        by_cases hk : k1 = k
        · subst hk
          rw [rFind_nil_of_lt t1 k1 hs1.1, rFind_nil_of_lt t2 k1 hs2.1]
        · simpa [rFind, hk] using h k
      rw [ht]

theorem filterMap_asString_scalar (l : List String) :
    (l.map Node.scalar).filterMap Node.asString = l := by
  induction l with
  | nil => rfl
  | cons a t ih => simp [Node.asString, ih]

theorem requested_nil_of_not_mem (req : List (String × Node)) (g : String)
    (h : g ∉ req.map Prod.fst) : requested req g = [] := by
  induction req with
  | nil => rfl
  | cons e t ih =>
    obtain ⟨k, v⟩ := e
    simp only [List.map_cons, List.mem_cons, not_or] at h
    simp [requested, Ne.symm h.1, ih h.2]

theorem requested_queryEntry (m : rMap) (k : String)
    (hs : List.Sorted (· < ·) (m.map Prod.fst)) :
    requested (m.map queryEntry) k = unique (sort (rFind m k)) := by
  induction m with
  | nil => rfl
  | cons e t ih =>
    obtain ⟨k0, l0⟩ := e
    simp only [List.map_cons, List.sorted_cons] at hs
    by_cases hk : k0 = k
    · subst hk
      have hnot : k0 ∉ (t.map queryEntry).map Prod.fst := by
        intro hm
        simp only [List.map_map] at hm
        obtain ⟨e, he, hek⟩ := List.mem_map.1 hm
        have : k0 < e.1 := hs.1 e.1 (List.mem_map_of_mem Prod.fst he)
        simp only [Function.comp, queryEntry] at hek
        rw [hek] at this
        exact lt_irrefl _ this
      show requested (queryEntry (k0, l0) :: t.map queryEntry) k0 = _
      simp only [queryEntry, requested, if_true, namesOf, rFind]
      rw [filterMap_asString_scalar, requested_nil_of_not_mem _ _ hnot, List.append_nil]
    · simp only [List.map_cons, requested, queryEntry, hk, if_false, rFind]
      exact ih hs.2

theorem all_isScalar_map_scalar (l : List String) :
    (l.map Node.scalar).all isScalar = true := by
  induction l with
  | nil => rfl
  | cons a t ih => simp [isScalar]

theorem rFind_map_unique_sort (m : rMap) (k : String) :
    rFind (m.map (fun e => (e.1, unique (sort e.2)))) k = unique (sort (rFind m k)) := by
  induction m with
  | nil => rfl
  | cons e t ih =>
    obtain ⟨k0, l0⟩ := e
    by_cases hk : k0 = k
    · simp [rFind, hk]
    · simp [rFind, hk, ih]

theorem unique_sort_idem (l : List String) :
    unique (sort (unique (sort l))) = unique (sort l) := by
  have h := sorted_unique _ (sorted_sort l)
  rw [sort_of_sorted _ h, unique_of_sorted _ h]

/-- C7: for every well-formed request `r`, `ParseReq` applied to the Query it
produced from `r` succeeds and returns that same Query. -/
theorem ParseReq_idempotent (req : List (String × Node))
    (hwf : ∀ kv ∈ req, wellFormedValue kv.2 = true) :
    ParseReq (ParseReq (Node.map req)).2 = (CPCD_SUCCESS, (ParseReq (Node.map req)).2) ∧
      ParseReq (ParseReq (Node.map req)).2 = ParseReq (Node.map req) := by
  obtain ⟨m, hok, _, hreq⟩ := ParseReq_wellFormed_eq req hwf
  have key : ParseReq (queryOf m) = (CPCD_SUCCESS, queryOf m) := by
    cases hm : m with
    | nil => rfl
    | cons e0 t0 =>
      rw [← hm]
      have hne : m ≠ [] := by rw [hm]; exact List.cons_ne_nil _ _
      rw [queryOf_eq m hne]
      have hwf2 : ∀ kv ∈ m.map queryEntry, wellFormedValue kv.2 = true := by
        intro kv hkv
        obtain ⟨e, _, rfl⟩ := List.mem_map.1 hkv
        exact all_isScalar_map_scalar _
      obtain ⟨m2, hok2, hfind2, hreq2⟩ := ParseReq_wellFormed_eq (m.map queryEntry) hwf2
      rw [hreq2]
      have hcanon : rMapOk (m.map (fun e => (e.1, unique (sort e.2)))) := by
        constructor
        · simpa [List.map_map, Function.comp] using hok.1
        · intro e he
          obtain ⟨e1, he1, rfl⟩ := List.mem_map.1 he
          exact unique_ne_nil _ (sort_ne_nil _ (hok.2 e1 he1))
      have hm2 : m2 = m.map (fun e => (e.1, unique (sort e.2))) := by
        apply rMap_ext m2 _ hok2 hcanon
        intro k
        rw [hfind2 k, requested_queryEntry m k hok.1, rFind_map_unique_sort m k]
      rw [hm2, queryOf_eq _ (by simpa using hne)]
      simp [List.map_map, Function.comp, queryEntry, unique_sort_idem]
  rw [hreq]
  exact ⟨key, key⟩

/-- The theorem of C7 at the request that maps `a` to `["x","y","x"]` and `b` to
the bare Scalar `z`. -/
theorem ParseReq_idempotent_witness :
    (∀ kv ∈ [("a", Node.seq [Node.scalar "x", Node.scalar "y", Node.scalar "x"]),
        ("b", Node.scalar "z")], wellFormedValue kv.2 = true) ∧
    ParseReq (ParseReq (Node.map [("a", Node.seq [Node.scalar "x", Node.scalar "y",
        Node.scalar "x"]), ("b", Node.scalar "z")])).2
      = (CPCD_SUCCESS, (ParseReq (Node.map [("a", Node.seq [Node.scalar "x", Node.scalar "y",
        Node.scalar "x"]), ("b", Node.scalar "z")])).2) ∧
    ParseReq (ParseReq (Node.map [("a", Node.seq [Node.scalar "x", Node.scalar "y",
        Node.scalar "x"]), ("b", Node.scalar "z")])).2
      = ParseReq (Node.map [("a", Node.seq [Node.scalar "x", Node.scalar "y",
        Node.scalar "x"]), ("b", Node.scalar "z")]) :=
  ⟨by decide, ParseReq_idempotent _ (by decide)⟩

/-! ## C3, C4, C5: the validator -/

theorem get?_of_hasScalar (kvs : List (String × Node)) (key : String)
    (h : hasScalar kvs key = true) : ∃ s, get? kvs key = some (Node.scalar s) := by
  unfold hasScalar at h
  split at h
  · rename_i s hs; exact ⟨s, hs⟩
  · exact absurd h (by decide)

theorem ValidateMap_cons_scalar (nkvs rest : List (String × Node)) (key v : String)
    (hk : key ≠ "VALUE") (h : hasScalar nkvs key = true) :
    ValidateMap nkvs ((key, Node.scalar v) :: rest) = ValidateMap nkvs rest := by
  obtain ⟨s, hs⟩ := get?_of_hasScalar nkvs key h
  simp [ValidateMap, Node.IsDefined, hk, hs, ValidateNode]

theorem ValidateNode_entry (e : Node) (h : isEntryRecord e = true) :
    ValidateNode e entrySchema = some CPCD_SUCCESS := by
  cases e with
  | map kvs =>
    simp only [isEntryRecord, List.all_cons, List.all_nil, Bool.and_true, Bool.and_eq_true] at h
    obtain ⟨h1, h2, h3, h4, h5, h6, h7⟩ := h
    simp only [entrySchema, ValidateNode]
    rw [ValidateMap_cons_scalar _ _ _ _ (by decide) h1,
      ValidateMap_cons_scalar _ _ _ _ (by decide) h2,
      ValidateMap_cons_scalar _ _ _ _ (by decide) h3,
      ValidateMap_cons_scalar _ _ _ _ (by decide) h4,
      ValidateMap_cons_scalar _ _ _ _ (by decide) h5,
      ValidateMap_cons_scalar _ _ _ _ (by decide) h6,
      ValidateMap_cons_scalar _ _ _ _ (by decide) h7]
    simp [ValidateMap]
  | undefined => simp [isEntryRecord] at h
  | null => simp [isEntryRecord] at h
  | scalar _ => simp [isEntryRecord] at h
  | seq _ => simp [isEntryRecord] at h

theorem allPass_of_all {α : Type} (check : α → Option Nat) (l : List α)
    (h : ∀ a ∈ l, check a = some CPCD_SUCCESS) : allPass check l = some CPCD_SUCCESS := by
  induction l with
  | nil => rfl
  | cons a t ih =>
    simp only [allPass, h a (by simp)]
    simpa using ih (fun b hb => h b (List.mem_cons_of_mem _ hb))

theorem allPass_of_failure {α : Type} (check : α → Option Nat) (l : List α)
    (h : ∀ a ∈ l, check a = some CPCD_SUCCESS ∨ check a = some CPCD_FAILURE)
    (hex : ∃ a ∈ l, check a = some CPCD_FAILURE) : allPass check l = some CPCD_FAILURE := by
  induction l with
  | nil =>
    obtain ⟨a, ha, _⟩ := hex
    simp at ha
  | cons a t ih =>
    rcases h a (by simp) with ha | ha
    · simp only [allPass, ha]
      have hex2 : ∃ b ∈ t, check b = some CPCD_FAILURE := by
        obtain ⟨b, hb, hfb⟩ := hex
        rcases List.mem_cons.1 hb with rfl | hb
        · rw [ha] at hfb
          exact absurd hfb (by decide)
        · exact ⟨b, hb, hfb⟩
      simpa using ih (fun b hb => h b (List.mem_cons_of_mem _ hb)) hex2
    · simp [allPass, ha]

theorem allPass_some {α : Type} (check : α → Option Nat) (l : List α) (rc : Nat)
    (h : allPass check l = some rc) : rc = CPCD_SUCCESS ∨ rc = CPCD_FAILURE := by
  induction l with
  | nil =>
    simp only [allPass, Option.some.injEq] at h
    exact Or.inl h.symm
  | cons a t ih =>
    simp only [allPass] at h
    cases hc : check a with
    | none => simp [hc] at h
    | some r =>
      simp only [hc] at h
      split at h
      · exact ih h
      · simp only [Option.some.injEq] at h
        exact Or.inr h.symm

theorem ValidateSeq_single (ns : List Node) (s : Node) :
    ValidateNode (Node.seq ns) (Node.seq [s]) = allPass (fun n => ValidateNode n s) ns := by
  simp only [ValidateNode, ValidateSeq]
  cases h : allPass (fun n => ValidateNode n s) ns with
  | none => rfl
  | some rc =>
    have hrc : rc = CPCD_SUCCESS ∨ rc = CPCD_FAILURE := allPass_some _ _ _ h
    rcases hrc with rfl | rfl <;> rfl

theorem ValidateNode_record (r : Node) (h : isSetRecord r = true) :
    ValidateNode r recordSchema = some CPCD_SUCCESS := by
  cases r with
  | map kvs =>
    simp only [isSetRecord, Bool.and_eq_true] at h
    obtain ⟨⟨h1, h2⟩, h3⟩ := h
    split at h3
    · rename_i es hes
      simp only [recordSchema, ValidateNode]
      rw [ValidateMap_cons_scalar _ _ _ _ (by decide) h1,
        ValidateMap_cons_scalar _ _ _ _ (by decide) h2]
      have hseq : ValidateNode (Node.seq es) (Node.seq [entrySchema]) = some CPCD_SUCCESS := by
        rw [ValidateSeq_single]
        apply allPass_of_all
        intro e he
        exact ValidateNode_entry e (List.all_eq_true.1 h3 e he)
      simp [ValidateMap, Node.IsDefined, hes, hseq]
    · exact absurd h3 (by decide)
  | undefined => simp [isSetRecord] at h
  | null => simp [isSetRecord] at h
  | scalar _ => simp [isSetRecord] at h
  | seq _ => simp [isSetRecord] at h

theorem dict_syntax_eq :
    dict_syntax = Node.map [("physical_constants_dictionary", dictSchema)] := rfl

theorem ValidateNode_map_map (nkvs skvs : List (String × Node)) :
    ValidateNode (Node.map nkvs) (Node.map skvs) = ValidateMap nkvs skvs := by
  simp only [ValidateNode]

theorem ValidateNode_item (k : String) (r : Node) (rc : Nat)
    (hrc : rc = CPCD_SUCCESS ∨ rc = CPCD_FAILURE) (hdef : r.IsDefined = true)
    (h : ValidateNode r recordSchema = some rc) :
    ValidateNode (Node.map [(k, r)]) itemSchema = some rc := by
  have hrs : recordSchema.IsDefined = true := rfl
  rw [itemSchema, ValidateNode_map_map]
  rcases hrc with rfl | rfl <;>
    simp [ValidateMap, hrs, Node.iter, hdef, h]

theorem isSetRecord_defined (r : Node) (h : isSetRecord r = true) : r.IsDefined = true := by
  cases r <;> simp_all [isSetRecord, Node.IsDefined]

theorem isSetRecordWithoutEntries_defined (r : Node)
    (h : isSetRecordWithoutEntries r = true) : r.IsDefined = true := by
  cases r <;> simp_all [isSetRecordWithoutEntries, Node.IsDefined]

theorem ValidateNode_item_pass (i : Node) (h : isSetItem isSetRecord i = true) :
    ValidateNode i itemSchema = some CPCD_SUCCESS := by
  unfold isSetItem at h
  split at h
  · exact ValidateNode_item _ _ _ (Or.inl rfl) (isSetRecord_defined _ h) (ValidateNode_record _ h)
  · exact absurd h (by decide)

theorem get?_eq_none_of_keys (kvs : List (String × Node)) (key : String)
    (h : ∀ kv ∈ kvs, kv.1 ≠ key) : get? kvs key = none := by
  induction kvs with
  | nil => rfl
  | cons e t ih =>
    obtain ⟨k, v⟩ := e
    have hk : k ≠ key := h (k, v) (by simp)
    simp [get?, hk, ih (fun kv hkv => h kv (List.mem_cons_of_mem _ hkv))]

theorem ValidateNode_record_without_entries (r : Node)
    (h : isSetRecordWithoutEntries r = true) :
    ValidateNode r recordSchema = some CPCD_FAILURE := by
  cases r with
  | map kvs =>
    simp only [isSetRecordWithoutEntries, Bool.and_eq_true, List.all_eq_true,
      Bool.or_eq_true, decide_eq_true_eq] at h
    obtain ⟨⟨h1, h2⟩, h3⟩ := h
    have hnone : get? kvs "entries" = none := by
      apply get?_eq_none_of_keys
      intro kv hkv heq
      rcases (h3 kv hkv).1 with hk | hk <;> rw [hk] at heq <;> exact absurd heq (by decide)
    simp only [recordSchema, ValidateNode]
    rw [ValidateMap_cons_scalar _ _ _ _ (by decide) h1,
      ValidateMap_cons_scalar _ _ _ _ (by decide) h2]
    cases kvs with
    | nil => simp [hasScalar, get?] at h1
    | cons e t =>
      obtain ⟨k0, v0⟩ := e
      have hv0 : isScalar v0 = true := (h3 (k0, v0) (by simp)).2
      cases v0 with
      | scalar s0 =>
        simp [ValidateMap, Node.IsDefined, hnone, Node.iter, ValidateNode]
      | undefined => simp [isScalar] at hv0
      | null => simp [isScalar] at hv0
      | seq _ => simp [isScalar] at hv0
      | map _ => simp [isScalar] at hv0
  | undefined => simp [isSetRecordWithoutEntries] at h
  | null => simp [isSetRecordWithoutEntries] at h
  | scalar _ => simp [isSetRecordWithoutEntries] at h
  | seq _ => simp [isSetRecordWithoutEntries] at h

theorem ValidateNode_item_fail (i : Node)
    (h : isSetItem isSetRecordWithoutEntries i = true) :
    ValidateNode i itemSchema = some CPCD_FAILURE := by
  unfold isSetItem at h
  split at h
  · exact ValidateNode_item _ _ _ (Or.inr rfl) (isSetRecordWithoutEntries_defined _ h)
      (ValidateNode_record_without_entries _ h)
  · exact absurd h (by decide)

theorem ValidateNode_dictionary (item : Node → Bool) (d : Node) (rc : Nat)
    (hrc : rc = CPCD_SUCCESS ∨ rc = CPCD_FAILURE)
    (h : isDictionary item d = true)
    (hseq : ∀ items, items.all item = true →
      (match d with
        | Node.map kvs => get? kvs "set" = some (Node.seq items)
        | _ => False) →
      allPass (fun n => ValidateNode n itemSchema) items = some rc) :
    ValidateNode d dictSchema = some rc := by
  cases d with
  | map kvs =>
    simp only [isDictionary, Bool.and_eq_true] at h
    obtain ⟨⟨⟨⟨h1, h2⟩, h3⟩, h4⟩, h5⟩ := h
    split at h5
    · rename_i items hitems
      have hs := hseq items h5 hitems
      simp only [dictSchema, ValidateNode]
      rw [ValidateMap_cons_scalar _ _ _ _ (by decide) h1,
        ValidateMap_cons_scalar _ _ _ _ (by decide) h2,
        ValidateMap_cons_scalar _ _ _ _ (by decide) h3,
        ValidateMap_cons_scalar _ _ _ _ (by decide) h4]
      have hv : ValidateNode (Node.seq items) (Node.seq [itemSchema]) = some rc := by
        rw [ValidateSeq_single]; exact hs
      rcases hrc with rfl | rfl <;>
        simp [ValidateMap, Node.IsDefined, hitems, hv]
    · exact absurd h5 (by decide)
  | undefined => simp [isDictionary] at h
  | null => simp [isDictionary] at h
  | scalar _ => simp [isDictionary] at h
  | seq _ => simp [isDictionary] at h

theorem ValidateNode_document (d : Node) (rc : Nat)
    (hrc : rc = CPCD_SUCCESS ∨ rc = CPCD_FAILURE) (hdef : d.IsDefined = true)
    (h : ValidateNode d dictSchema = some rc) :
    ValidateNode (Node.map [("physical_constants_dictionary", d)]) dict_syntax = some rc := by
  have hds : dictSchema.IsDefined = true := rfl
  rw [dict_syntax_eq, ValidateNode_map_map]
  rcases hrc with rfl | rfl <;>
    simp [ValidateMap, hds, get?, hdef, h]

theorem isDictionary_defined (item : Node → Bool) (d : Node)
    (h : isDictionary item d = true) : d.IsDefined = true := by
  cases d <;> simp_all [isDictionary, Node.IsDefined]

/-- C3: at the dictionary `physical_constants_dictionary: oops`, whose value is
a Scalar where the schema has a Mapping, `ValidateNode` fails against the
embedded schema and `validate` returns `CPCD_SUCCESS`: the code of the recursive
validator does not reach the caller, and no stored document makes `validate`
return `CPCD_FAILURE`. -/
theorem validate_returns_success_on_mismatch :
    ValidateNode (Node.map [("physical_constants_dictionary", Node.scalar "oops")]) dict_syntax
      = some CPCD_FAILURE ∧
    validate (Node.map [("physical_constants_dictionary", Node.scalar "oops")])
      = some CPCD_SUCCESS ∧
    ∀ doc : Node, validate doc ≠ some CPCD_FAILURE := by
  refine ⟨rfl, rfl, ?_⟩
  intro doc h
  unfold validate at h
  cases hv : ValidateNode doc dict_syntax with
  | none => simp [hv] at h
  | some rc => simp [hv] at h

/-- C4: every document of the shape of the embedded schema validates: a Mapping
of `physical_constants_dictionary` to a Mapping with Scalar `version_number`,
`institution`, `description`, `contact` and a Sequence `set` of one-key Mappings,
each from an arbitrary key to a record with Scalar `description`, `citation` and
a Sequence `entries` of Mappings with Scalar `name`, `value`, `units`, `prec`,
`type`, `uncertainty`, `description`, makes `ValidateNode` return success
against the embedded schema. -/
theorem ValidateNode_accepts_schema_shape (doc : Node) (h : matchesSchema doc = true) :
    ValidateNode doc dict_syntax = some CPCD_SUCCESS := by
  unfold matchesSchema at h
  split at h
  · rename_i k d
    simp only [Bool.and_eq_true, decide_eq_true_eq] at h
    obtain ⟨rfl, hd⟩ := h
    apply ValidateNode_document _ _ (Or.inl rfl) (isDictionary_defined _ _ hd)
    apply ValidateNode_dictionary _ _ _ (Or.inl rfl) hd
    intro items hitems _
    apply allPass_of_all
    intro i hi
    exact ValidateNode_item_pass i (List.all_eq_true.1 hitems i hi)
  · exact absurd h (by decide)

/-- The theorem of C4 at a dictionary with one set `myset` of one entry. -/
theorem ValidateNode_accepts_schema_shape_witness :
    matchesSchema sampleDocument = true ∧
      ValidateNode sampleDocument dict_syntax = some CPCD_SUCCESS :=
  ⟨by decide, ValidateNode_accepts_schema_shape sampleDocument (by decide)⟩

/-- C5: every document of the shape of the embedded schema except that the record
of some `set` item has no `entries` key (the record holds a Scalar `description`
and a Scalar `citation` only) makes `ValidateNode` fail against the embedded
schema. -/
theorem ValidateNode_rejects_missing_entries (doc : Node)
    (h : matchesSchemaOrLacksEntries doc = true)
    (hex : ∃ i ∈ setItems doc, isSetItem isSetRecordWithoutEntries i = true) :
    ValidateNode doc dict_syntax = some CPCD_FAILURE := by
  unfold matchesSchemaOrLacksEntries at h
  split at h
  · rename_i k d
    simp only [Bool.and_eq_true, decide_eq_true_eq] at h
    obtain ⟨rfl, hd⟩ := h
    apply ValidateNode_document _ _ (Or.inr rfl) (isDictionary_defined _ _ hd)
    apply ValidateNode_dictionary _ _ _ (Or.inr rfl) hd
    intro items hitems hget
    cases d with
    | map kvs =>
      simp only at hget
      simp only [setItems, hget] at hex
      apply allPass_of_failure
      · intro i hi
        have := List.all_eq_true.1 hitems i hi
        simp only [Bool.or_eq_true] at this
        rcases this with hp | hf
        · exact Or.inl (ValidateNode_item_pass i hp)
        · exact Or.inr (ValidateNode_item_fail i hf)
      · obtain ⟨i, hi, hf⟩ := hex
        exact ⟨i, hi, ValidateNode_item_fail i hf⟩
    | undefined => exact absurd hget id
    | null => exact absurd hget id
    | scalar _ => exact absurd hget id
    | seq _ => exact absurd hget id
  · exact absurd h (by decide)

/-- The theorem of C5 at the dictionary whose only set item is the record
`myset` with a `description` and a `citation` and no `entries`. -/
theorem ValidateNode_rejects_missing_entries_witness :
    matchesSchemaOrLacksEntries sampleDocumentWithoutEntries = true ∧
      (∃ i ∈ setItems sampleDocumentWithoutEntries,
        isSetItem isSetRecordWithoutEntries i = true) ∧
      ValidateNode sampleDocumentWithoutEntries dict_syntax = some CPCD_FAILURE :=
  ⟨by decide, ⟨_, List.Mem.head _, by decide⟩,
    ValidateNode_rejects_missing_entries sampleDocumentWithoutEntries (by decide)
      ⟨_, List.Mem.head _, by decide⟩⟩

/-! ## Sequence mode of `ParseNode` -/

theorem push_back_appendable (m x : Node) (h : appendable m = true) :
    m.push_back x = some (appendItems m [x]) := by
  cases m <;> simp_all [appendable, Node.push_back, appendItems, itemsOf]

theorem appendItems_nil (m : Node) : appendItems m [] = m := rfl

theorem itemsOf_appendItems (m : Node) (xs : List Node) :
    itemsOf (appendItems m xs) = itemsOf m ++ xs := by
  cases xs with
  | nil => simp [appendItems]
  | cons x t => simp [appendItems, itemsOf]

theorem appendItems_appendItems (m : Node) (xs ys : List Node) :
    appendItems (appendItems m xs) ys = appendItems m (xs ++ ys) := by
  cases xs with
  | nil => simp [appendItems]
  | cons x t =>
    cases ys with
    | nil => simp [appendItems]
    | cons y u => simp [appendItems, itemsOf]

theorem appendable_appendItems (m : Node) (xs : List Node) (h : appendable m = true) :
    appendable (appendItems m xs) = true := by
  cases xs with
  | nil => simpa [appendItems] using h
  | cons x t => simp [appendItems, appendable]

theorem forEach_matchName_not_mem (str val : String) (names : List String) (m : Node)
    (h : str ∉ names) :
    forEach (matchName str val) (names.map Node.scalar) m = (CPCD_SUCCESS, m) := by
  induction names with
  | nil => rfl
  | cons n t ih =>
    simp only [List.mem_cons, not_or] at h
    simp [forEach, matchName, Node.asString, h.1, ih h.2]

theorem forEach_matchName_mem (str val : String) (names : List String) (m : Node)
    (hm : appendable m = true) (hnd : names.Nodup) (h : str ∈ names) :
    forEach (matchName str val) (names.map Node.scalar) m
      = (CPCD_SUCCESS, appendItems m [mkPair str val]) := by
  induction names with
  | nil => simp at h
  | cons n t ih =>
    rw [List.nodup_cons] at hnd
    by_cases hn : str = n
    · subst hn
      simp [forEach, matchName, Node.asString, push_back_appendable m _ hm,
        forEach_matchName_not_mem str val t _ hnd.1]
    · have ht : str ∈ t := by
        rcases List.mem_cons.1 h with h | h
        · exact absurd h hn
        · exact h
      simp [forEach, matchName, Node.asString, hn, ih hnd.2 ht]

theorem scanEntry_ok (names : List String) (e m : Node) (hnd : names.Nodup)
    (he : entryOk e = true) (hm : appendable m = true) :
    scanEntry (names.map Node.scalar) e m
      = (CPCD_SUCCESS, appendItems m (selectEntry names e).toList) := by
  unfold entryOk at he
  unfold scanEntry selectEntry
  cases hn : e.getConst "name" with
  | none => simp [hn] at he
  | some n =>
    cases hv : e.getConst "value" with
    | none => simp [hn, hv] at he
    | some v =>
      simp only [hn, hv] at he ⊢
      cases n with
      | undefined => simp [Node.IsDefined, appendItems]
      | scalar sn =>
        cases v with
        | undefined => simp [Node.IsDefined, appendItems]
        | scalar sv =>
          simp only [Node.IsDefined, Node.asString, if_true]
          by_cases hmem : sn ∈ names
          · simp [hmem, forEach_matchName_mem sn sv names m hm hnd hmem]
          · simp [hmem, forEach_matchName_not_mem sn sv names m hmem, appendItems]
        | null => simp [Node.IsDefined, isScalar] at he
        | seq _ => simp [Node.IsDefined, isScalar] at he
        | map _ => simp [Node.IsDefined, isScalar] at he
      | null =>
        cases v <;> simp_all [Node.IsDefined, isScalar, appendItems]
      | seq _ =>
        cases v <;> simp_all [Node.IsDefined, isScalar, appendItems]
      | map _ =>
        cases v <;> simp_all [Node.IsDefined, isScalar, appendItems]

theorem forEach_scanEntry_ok (names : List String) (es : List Node) (m : Node)
    (hnd : names.Nodup) (he : es.all entryOk = true) (hm : appendable m = true) :
    forEach (scanEntry (names.map Node.scalar)) es m
      = (CPCD_SUCCESS, appendItems m (es.filterMap (selectEntry names))) := by
  induction es generalizing m with
  | nil => rfl
  | cons e t ih =>
    simp only [List.all_cons, Bool.and_eq_true] at he
    simp only [forEach, scanEntry_ok names e m hnd he.1 hm, if_true]
    rw [ih _ he.2 (appendable_appendItems m _ hm), appendItems_appendItems]
    cases hs : selectEntry names e with
    | none => simp [List.filterMap_cons, hs]
    | some p => simp [List.filterMap_cons, hs]

/-! ## Mapping mode of `ParseNode` -/

theorem ParseNode_seq_seq (es names : List Node) (m : Node) :
    ParseNode (Node.seq es) (Node.seq names) m = forEach (scanEntry names) es m := by
  simp only [ParseNode, Node.IsDefined, if_true]

theorem ParseNode_seq_map (records : List Node) (q : List (String × Node)) (m : Node) :
    ParseNode (Node.seq records) (Node.map q) m
      = forEach (fun record mp => ParseGroups record q mp) records m := by
  simp only [ParseNode, Node.IsDefined, if_true]

theorem toMapEntries_of_resultOk (mp : Node) (h : resultOk mp = true) :
    mp.toMapEntries = some (resultEntries mp) := by
  cases mp <;> simp_all [resultOk, resultEntries, Node.toMapEntries]

theorem valueUnder_of_resultOk (mp : Node) (g : String) (h : resultOk mp = true) :
    valueUnder mp g = (get? (resultEntries mp) g).getD Node.undefined := by
  cases mp <;> simp_all [resultOk, resultEntries, Node.toMapEntries, valueUnder,
    Node.getConst, get?]

theorem get?_setEntry (kvs : List (String × Node)) (g g1 : String) (v : Node) :
    get? (setEntry kvs g v) g1 = if g = g1 then some v else get? kvs g1 := by
  induction kvs with
  | nil => simp [setEntry, get?]
  | cons e t ih =>
    obtain ⟨k, w⟩ := e
    by_cases hk : k = g
    · subst hk
      by_cases hg : k = g1
      · simp [setEntry, get?, hg]
      · simp [setEntry, get?, hg]
    · by_cases hg : g = g1
      · subst hg
        simp [setEntry, get?, hk, ih]
      · by_cases hk1 : k = g1
        · subst hk1
          simp [setEntry, get?, hk, hg]
        · simp [setEntry, get?, hk, hk1, ih, hg]

theorem mem_setEntry (kvs : List (String × Node)) (g : String) (v : Node)
    (kv : String × Node) (h : kv ∈ setEntry kvs g v) : kv ∈ kvs ∨ kv = (g, v) := by
  induction kvs with
  | nil =>
    simp only [setEntry, List.mem_singleton] at h
    exact Or.inr h
  | cons e t ih =>
    obtain ⟨k, w⟩ := e
    by_cases hk : k = g
    · subst hk
      simp only [setEntry, if_true, List.mem_cons] at h
      rcases h with h | h
      · exact Or.inr h
      · exact Or.inl (List.mem_cons_of_mem _ h)
    · simp only [setEntry, hk, if_false, List.mem_cons] at h
      rcases h with h | h
      · exact Or.inl (by rw [h]; simp)
      · rcases ih h with h | h
        · exact Or.inl (List.mem_cons_of_mem _ h)
        · exact Or.inr h

theorem mem_of_get? (kvs : List (String × Node)) (g : String) (v : Node)
    (h : get? kvs g = some v) : (g, v) ∈ kvs := by
  induction kvs with
  | nil => simp [get?] at h
  | cons e t ih =>
    obtain ⟨k, w⟩ := e
    by_cases hk : k = g
    · subst hk
      simp only [get?, if_true, Option.some.injEq] at h
      subst h
      simp
    · simp only [get?, hk, if_false] at h
      exact List.mem_cons_of_mem _ (ih h)

theorem appendable_of_resultOk (mp : Node) (g : String) (h : resultOk mp = true) :
    appendable ((get? (resultEntries mp) g).getD Node.undefined) = true := by
  cases hg : get? (resultEntries mp) g with
  | none => rfl
  | some v =>
    have hmem := mem_of_get? _ _ _ hg
    cases mp with
    | map kvs =>
      simp only [resultOk, List.all_eq_true] at h
      exact h (g, v) hmem
    | undefined => simp [resultEntries, Node.toMapEntries] at hmem
    | null => simp [resultEntries, Node.toMapEntries] at hmem
    | scalar _ => simp [resultOk] at h
    | seq _ => simp [resultOk] at h

theorem resultOk_setEntry (mp : Node) (g : String) (v : Node) (h : resultOk mp = true)
    (hv : appendable v = true) : resultOk (Node.map (setEntry (resultEntries mp) g v)) = true := by
  simp only [resultOk, List.all_eq_true]
  intro kv hkv
  rcases mem_setEntry _ _ _ _ hkv with hkv | hkv
  · cases mp with
    | map kvs =>
      simp only [resultOk, List.all_eq_true] at h
      exact h kv hkv
    | undefined => simp [resultEntries, Node.toMapEntries] at hkv
    | null => simp [resultEntries, Node.toMapEntries] at hkv
    | scalar _ => simp [resultOk] at h
    | seq _ => simp [resultOk] at h
  · rw [hkv]; exact hv

theorem resultOk_touchAppend (mp : Node) (g : String) (xs : List Node)
    (h : resultOk mp = true) : resultOk (touchAppend mp g xs) = true :=
  resultOk_setEntry mp g _ h (appendable_appendItems _ _ (appendable_of_resultOk mp g h))

theorem valueUnder_touchAppend (mp : Node) (g g1 : String) (xs : List Node)
    (h : resultOk mp = true) :
    valueUnder (touchAppend mp g xs) g1
      = if g = g1 then appendItems (valueUnder mp g) xs else valueUnder mp g1 := by
  rw [valueUnder_of_resultOk mp g h, valueUnder_of_resultOk mp g1 h]
  simp only [touchAppend, valueUnder, Node.getConst, get?_setEntry]
  by_cases hg : g = g1
  · simp [hg]
  · simp [hg]

theorem ParseGroups_nil (record mp : Node) :
    ParseGroups record [] mp = (CPCD_SUCCESS, mp) := by
  simp only [ParseGroups]

theorem ParseGroups_cons_absent (record mp grp : Node) (g : String) (sub : Node)
    (rest : List (String × Node)) (hr : record.getConst g = some grp)
    (hg : grp.IsDefined = false) :
    ParseGroups record ((g, sub) :: rest) mp = ParseGroups record rest mp := by
  rw [ParseGroups]
  simp [hr, hg]

theorem ParseGroups_cons_entries (record mp grp : Node) (g : String) (names : List String)
    (es : List Node) (rest : List (String × Node))
    (hr : record.getConst g = some grp) (hg : grp.IsDefined = true)
    (hes : grp.getConst "entries" = some (Node.seq es)) (hok : es.all entryOk = true)
    (hnd : names.Nodup) (hmp : resultOk mp = true) :
    ParseGroups record ((g, Node.seq (names.map Node.scalar)) :: rest) mp
      = ParseGroups record rest (touchAppend mp g (es.filterMap (selectEntry names))) := by
  have hsub : (Node.seq (names.map Node.scalar)).IsDefined = true := rfl
  rw [ParseGroups]
  simp only [hsub, if_true, hr, hg, toMapEntries_of_resultOk mp hmp, hes,
    ParseNode_seq_seq,
    forEach_scanEntry_ok names es _ hnd hok (appendable_of_resultOk mp g hmp)]
  rfl

theorem groupOk_cases (r : Node) (g : String) (h : groupOk r g = true) :
    ∃ grp, r.getConst g = some grp ∧
      ((grp.IsDefined = false ∧ entriesOf r g = []) ∨
        (grp.IsDefined = true ∧ ∃ es, grp.getConst "entries" = some (Node.seq es) ∧
          entriesOf r g = es ∧ es.all entryOk = true)) := by
  simp only [groupOk, Bool.and_eq_true] at h
  obtain ⟨h1, h2⟩ := h
  unfold entriesIsSequence at h1
  cases hr : r.getConst g with
  | none => simp [hr] at h1
  | some grp =>
    refine ⟨grp, rfl, ?_⟩
    simp only [hr, Bool.or_eq_true, Bool.not_eq_true'] at h1
    cases hd : grp.IsDefined with
    | false =>
      left
      refine ⟨rfl, ?_⟩
      cases grp <;> simp_all [Node.IsDefined, entriesOf, Node.getConst]
    | true =>
      right
      refine ⟨rfl, ?_⟩
      rcases h1 with h1 | h1
      · rw [hd] at h1; exact absurd h1 (by decide)
      · cases he : grp.getConst "entries" with
        | none => simp [he] at h1
        | some ent =>
          cases ent with
          | seq es =>
            refine ⟨es, rfl, ?_, ?_⟩
            · simp [entriesOf, hr, he]
            · simpa [entriesOf, hr, he] using h2
          | undefined => simp [he] at h1
          | null => simp [he] at h1
          | scalar _ => simp [he] at h1
          | map _ => simp [he] at h1

theorem ParseGroups_ok (r : Node) (qs : List (String × List String)) (mp : Node)
    (hmp : resultOk mp = true) (hq : ∀ e ∈ qs, e.2.Nodup)
    (hr : ∀ e ∈ qs, groupOk r e.1 = true) :
    ∃ mp1, ParseGroups r (qs.map (fun e => (e.1, Node.seq (e.2.map Node.scalar)))) mp
        = (CPCD_SUCCESS, mp1) ∧ resultOk mp1 = true ∧
      ∀ g, valueUnder mp1 g = appendItems (valueUnder mp g) (contrib r qs g) := by
  induction qs generalizing mp with
  | nil =>
    refine ⟨mp, ParseGroups_nil r mp, hmp, ?_⟩
    intro g; simp [contrib, appendItems]
  | cons e t ih =>
    obtain ⟨g0, names⟩ := e
    have hnd : names.Nodup := hq (g0, names) (by simp)
    have hqt : ∀ e ∈ t, e.2.Nodup := fun e he => hq e (List.mem_cons_of_mem _ he)
    have hrt : ∀ e ∈ t, groupOk r e.1 = true := fun e he => hr e (List.mem_cons_of_mem _ he)
    obtain ⟨grp, hgrp, hcase⟩ := groupOk_cases r g0 (hr (g0, names) (by simp))
    rcases hcase with ⟨hundef, hent⟩ | ⟨hdef, es, hes, hent, hall⟩
    · obtain ⟨mp1, h1, h2, h3⟩ := ih mp hmp hqt hrt
      refine ⟨mp1, ?_, h2, ?_⟩
      · simp only [List.map_cons]
        rw [ParseGroups_cons_absent r mp grp g0 _ _ hgrp hundef]
        exact h1
      · intro g
        rw [h3 g]
        simp [contrib, List.flatMap_cons, hent]
    · obtain ⟨mp1, h1, h2, h3⟩ :=
        ih (touchAppend mp g0 (es.filterMap (selectEntry names)))
          (resultOk_touchAppend mp g0 _ hmp) hqt hrt
      refine ⟨mp1, ?_, h2, ?_⟩
      · simp only [List.map_cons]
        rw [ParseGroups_cons_entries r mp grp g0 names es _ hgrp hdef hes hall hnd hmp]
        exact h1
      · intro g
        rw [h3 g, valueUnder_touchAppend mp g0 g _ hmp]
        by_cases hg : g0 = g
        · subst hg
          simp only [if_true, appendItems_appendItems]
          simp [contrib, List.flatMap_cons, hent]
        · simp [contrib, List.flatMap_cons, hg]

theorem forEach_ParseGroups_ok (records : List Node) (qs : List (String × List String))
    (mp : Node) (hmp : resultOk mp = true) (hq : ∀ e ∈ qs, e.2.Nodup)
    (hr : ∀ r ∈ records, ∀ e ∈ qs, groupOk r e.1 = true) :
    ∃ mp1, forEach (fun record m => ParseGroups record
          (qs.map (fun e => (e.1, Node.seq (e.2.map Node.scalar)))) m) records mp
        = (CPCD_SUCCESS, mp1) ∧ resultOk mp1 = true ∧
      ∀ g, valueUnder mp1 g
        = appendItems (valueUnder mp g) (records.flatMap (fun r => contrib r qs g)) := by
  induction records generalizing mp with
  | nil =>
    refine ⟨mp, rfl, hmp, ?_⟩
    intro g; simp [appendItems]
  | cons r t ih =>
    obtain ⟨mp1, h1, h2, h3⟩ := ParseGroups_ok r qs mp hmp hq (hr r (by simp))
    obtain ⟨mp2, h4, h5, h6⟩ := ih mp1 h2 (fun r1 hr1 => hr r1 (List.mem_cons_of_mem _ hr1))
    refine ⟨mp2, ?_, h5, ?_⟩
    · simp only [forEach, h1, if_true]
      exact h4
    · intro g
      rw [h6 g, h3 g, appendItems_appendItems]
      simp [List.flatMap_cons]

theorem contrib_of_nodup (r : Node) (qs : List (String × List String)) (g : String)
    (names : List String) (hnd : (qs.map Prod.fst).Nodup) (hmem : (g, names) ∈ qs) :
    contrib r qs g = (entriesOf r g).filterMap (selectEntry names) := by
  induction qs with
  | nil => simp at hmem
  | cons e t ih =>
    obtain ⟨g0, n0⟩ := e
    simp only [List.map_cons, List.nodup_cons] at hnd
    have hnot : ∀ g1, g1 ∉ t.map Prod.fst → contrib r t g1 = [] := by
      intro g1 hg1
      simp only [contrib, List.flatMap_eq_nil_iff]
      intro e he
      have : e.1 ≠ g1 := fun h => hg1 (h ▸ List.mem_map_of_mem Prod.fst he)
      simp [this]
    rcases List.mem_cons.1 hmem with heq | hmem
    · cases heq
      simp only [contrib, List.flatMap_cons, if_true]
      have := hnot g hnd.1
      simp only [contrib] at this
      rw [this, List.append_nil]
    · have hne : g0 ≠ g := fun h => hnd.1 (h ▸ List.mem_map_of_mem Prod.fst hmem)
      simp only [contrib, List.flatMap_cons, hne, if_false, List.nil_append]
      exact ih hnd.2 hmem

/-- The result of `ParseNode` on a document all of whose matched groups have
readable entries, under a Query of unique names: success, and under every group
the pairs the records contribute, appended to what the group held. -/
theorem ParseNode_ok (records : List Node) (qs : List (String × List String)) (mp : Node)
    (hmp : resultOk mp = true) (hk : (qs.map Prod.fst).Nodup) (hq : ∀ e ∈ qs, e.2.Nodup)
    (hr : ∀ r ∈ records, ∀ e ∈ qs, groupOk r e.1 = true) :
    ∃ res, ParseNode (Node.seq records) (toQuery qs) mp = (CPCD_SUCCESS, res) ∧
      resultOk res = true ∧
      ∀ g names, (g, names) ∈ qs →
        valueUnder res g = appendItems (valueUnder mp g) (expectedPairs records g names) := by
  obtain ⟨res, h1, h2, h3⟩ := forEach_ParseGroups_ok records qs mp hmp hq hr
  refine ⟨res, ?_, h2, ?_⟩
  · rw [toQuery, ParseNode_seq_map]
    exact h1
  · intro g names hmem
    rw [h3 g, expectedPairs]
    congr 1
    clear h1 h3 hr
    induction records with
    | nil => rfl
    | cons r t ih =>
      simp only [List.flatMap_cons, contrib_of_nodup r qs g names hk hmem]
      rw [ih]

/-! ## C2 -/

/-- C2, as stated, fails: the `entries` of the matched group `phys` is a
Sequence, and `ParseNode` fails, once because an entry is a Scalar (the lookup
of `name` in it throws `BadSubscript`) and once because the `name` of an entry
is a Sequence (its conversion to a string throws). -/
theorem ParseNode_fails_on_unreadable_entries :
    (entriesIsSequence
        (Node.map [("phys", Node.map [("entries", Node.seq [Node.scalar "g"])])]) "phys" = true ∧
      (ParseNode
        (Node.seq [Node.map [("phys", Node.map [("entries", Node.seq [Node.scalar "g"])])]])
        (toQuery [("phys", ["g"])]) Node.null).1 = CPCD_FAILURE) ∧
    (entriesIsSequence
        (Node.map [("phys", Node.map [("entries", Node.seq [Node.map [
          ("name", Node.seq [Node.scalar "g"]), ("value", Node.scalar "9.81")]])])]) "phys" = true ∧
      (ParseNode
        (Node.seq [Node.map [("phys", Node.map [("entries", Node.seq [Node.map [
          ("name", Node.seq [Node.scalar "g"]), ("value", Node.scalar "9.81")]])])]])
        (toQuery [("phys", ["g"])]) Node.null).1 = CPCD_FAILURE) :=
  ⟨⟨rfl, rfl⟩, ⟨rfl, rfl⟩⟩

/-- C2, amended: for every document `set` sequence of records and every Query
that maps distinct groups to Sequences of unique names, `ParseNode` succeeds
whenever the `entries` of every matched group is a Sequence whose items are not
Scalars and have a Scalar `name` and `value` when they expose both; the result
sequence under every group `g` of the Query is then exactly the list of the
pairs of the entries, of every record that has key `g`, that expose both fields
and whose name is requested under `g`, once each, in document order. -/
theorem ParseNode_extracts (records : List Node) (qs : List (String × List String))
    (hk : (qs.map Prod.fst).Nodup) (hq : ∀ e ∈ qs, e.2.Nodup)
    (hr : ∀ r ∈ records, ∀ e ∈ qs, groupOk r e.1 = true) :
    ∃ res, ParseNode (Node.seq records) (toQuery qs) Node.null = (CPCD_SUCCESS, res) ∧
      ∀ g names, (g, names) ∈ qs → pairsUnder res g = expectedPairs records g names := by
  obtain ⟨res, h1, _, h3⟩ := ParseNode_ok records qs Node.null rfl hk hq hr
  refine ⟨res, h1, ?_⟩
  intro g names hmem
  rw [pairsUnder, h3 g names hmem, itemsOf_appendItems]
  rfl

/-- The theorem of C2 amended, at the entry `g` of value `9.81` in group `phys`
and the Query of `g` under `phys`, with the result `ParseNode` returns. -/
theorem ParseNode_extracts_witness :
    ParseNode
        (Node.seq [Node.map [("phys", Node.map [("entries", Node.seq [Node.map [
          ("name", Node.scalar "g"), ("value", Node.scalar "9.81")]])])]])
        (toQuery [("phys", ["g"])]) Node.null
      = (CPCD_SUCCESS, Node.map [("phys", Node.seq [Node.map [
          ("name", Node.scalar "g"), ("value", Node.scalar "9.81")]])]) ∧
    ∃ res, ParseNode
        (Node.seq [Node.map [("phys", Node.map [("entries", Node.seq [Node.map [
          ("name", Node.scalar "g"), ("value", Node.scalar "9.81")]])])]])
        (toQuery [("phys", ["g"])]) Node.null = (CPCD_SUCCESS, res) ∧
      ∀ g names, (g, names) ∈ [("phys", ["g"])] →
        pairsUnder res g = expectedPairs
          [Node.map [("phys", Node.map [("entries", Node.seq [Node.map [
            ("name", Node.scalar "g"), ("value", Node.scalar "9.81")]])])]] g names :=
  ⟨rfl, ParseNode_extracts _ _ (by decide) (by decide) (by decide)⟩

/-! ## C8 -/

/-- C8, as stated, fails: the group `phys` exists in the document, its only
entry is named `g`, the Query asks for `h`; `ParseNode` succeeds and the result
holds, under `phys`, the undefined placeholder `map[str]` created, which is not
a Sequence. -/
theorem ParseNode_no_match_leaves_placeholder :
    ParseNode
        (Node.seq [Node.map [("phys", Node.map [("entries", Node.seq [Node.map [
          ("name", Node.scalar "g"), ("value", Node.scalar "9.81")]])])]])
        (toQuery [("phys", ["h"])]) Node.null
      = (CPCD_SUCCESS, Node.map [("phys", Node.undefined)]) ∧
    (valueUnder (ParseNode
        (Node.seq [Node.map [("phys", Node.map [("entries", Node.seq [Node.map [
          ("name", Node.scalar "g"), ("value", Node.scalar "9.81")]])])]])
        (toQuery [("phys", ["h"])]) Node.null).2 "phys").IsSequence = false :=
  ⟨rfl, rfl⟩

/-- C8, amended: for every document of readable entries and every Query of
distinct groups and unique names, when no entry of a queried group has a
requested name, `ParseNode` returns success and the result holds no pair and no
Sequence for that group: the node under the group is undefined, of size 0. -/
theorem ParseNode_no_match (records : List Node) (qs : List (String × List String))
    (g : String) (names : List String)
    (hk : (qs.map Prod.fst).Nodup) (hq : ∀ e ∈ qs, e.2.Nodup)
    (hr : ∀ r ∈ records, ∀ e ∈ qs, groupOk r e.1 = true)
    (hmem : (g, names) ∈ qs)
    (hnone : ∀ r ∈ records, ∀ e ∈ entriesOf r g, (selectEntry names e).isSome = false) :
    ∃ res, ParseNode (Node.seq records) (toQuery qs) Node.null = (CPCD_SUCCESS, res) ∧
      res.getConst g = some Node.undefined ∧ (valueUnder res g).size = 0 ∧
      pairsUnder res g = [] := by
  obtain ⟨res, h1, h2, h3⟩ := ParseNode_ok records qs Node.null rfl hk hq hr
  have hexp : expectedPairs records g names = [] := by
    simp only [expectedPairs, List.flatMap_eq_nil_iff, List.filterMap_eq_nil_iff]
    intro r hr1 e he
    have := hnone r hr1 e he
    cases hs : selectEntry names e with
    | none => rfl
    | some p => simp [hs] at this
  have hv : valueUnder res g = Node.undefined := by
    rw [h3 g names hmem, hexp]
    rfl
  refine ⟨res, h1, ?_, ?_, ?_⟩
  · cases res with
    | scalar _ => simp [resultOk] at h2
    | undefined => rfl
    | null => rfl
    | seq _ => rfl
    | map kvs =>
      simp only [valueUnder, Node.getConst, Option.getD_some] at hv
      simp [Node.getConst, hv]
  · rw [hv]; rfl
  · rw [pairsUnder, hv]; rfl

/-- The theorem of C8 amended, at the entry `g` in group `phys` and the Query of
`h` under `phys`. -/
theorem ParseNode_no_match_witness :
    ∃ res, ParseNode
        (Node.seq [Node.map [("phys", Node.map [("entries", Node.seq [Node.map [
          ("name", Node.scalar "g"), ("value", Node.scalar "9.81")]])])]])
        (toQuery [("phys", ["h"])]) Node.null = (CPCD_SUCCESS, res) ∧
      res.getConst "phys" = some Node.undefined ∧ (valueUnder res "phys").size = 0 ∧
      pairsUnder res "phys" = [] :=
  ParseNode_no_match _ [("phys", ["h"])] "phys" ["h"] (by decide) (by decide) (by decide)
    (by simp) (by decide)

/-! ## C9 -/

theorem ParseNode_mismatch (node req mp : Node) (hdef : node.IsDefined = true)
    (hns : node.IsSequence = false) (hreq : req.IsSequence = true ∨ req.IsMap = true) :
    ParseNode node req mp = (CPCD_FAILURE, mp) := by
  cases req with
  | seq names =>
    cases node <;> simp_all [ParseNode, Node.IsDefined, Node.IsSequence]
  | map q =>
    cases node <;> simp_all [ParseNode, Node.IsDefined, Node.IsSequence]
  | undefined => simp [Node.IsSequence, Node.IsMap] at hreq
  | null => simp [Node.IsSequence, Node.IsMap] at hreq
  | scalar _ => simp [Node.IsSequence, Node.IsMap] at hreq

theorem forEach_fail_of_mem {α : Type} (body : α → Node → Nat × Node) (l : List α)
    (h : ∃ a ∈ l, ∀ s, (body a s).1 ≠ CPCD_SUCCESS) (s : Node) :
    (forEach body l s).1 = CPCD_FAILURE := by
  induction l generalizing s with
  | nil =>
    obtain ⟨a, ha, _⟩ := h
    simp at ha
  | cons a t ih =>
    simp only [forEach]
    split
    · rename_i hrc
      have hnot : ¬ ∀ s, (body a s).1 ≠ CPCD_SUCCESS := fun hall => hall s hrc
      apply ih
      obtain ⟨b, hb, hfb⟩ := h
      rcases List.mem_cons.1 hb with rfl | hb
      · exact absurd hfb hnot
      · exact ⟨b, hb, hfb⟩
    · rfl

theorem ParseGroups_fail_of_mem (r : Node) (q : List (String × Node)) (g : String)
    (sub grp ent : Node) (hmem : (g, sub) ∈ q)
    (hsub : sub.IsSequence = true ∨ sub.IsMap = true)
    (hr : r.getConst g = some grp) (hg : grp.IsDefined = true)
    (he : grp.getConst "entries" = some ent) (hdef : ent.IsDefined = true)
    (hns : ent.IsSequence = false) (mp : Node) :
    (ParseGroups r q mp).1 = CPCD_FAILURE := by
  have hsubdef : sub.IsDefined = true := by
    cases sub <;> simp_all [Node.IsDefined, Node.IsSequence, Node.IsMap]
  induction q generalizing mp with
  | nil => simp at hmem
  | cons e t ih =>
    obtain ⟨k, s⟩ := e
    rcases List.mem_cons.1 hmem with heq | hmem
    · cases heq
      rw [ParseGroups]
      simp only [hsubdef, if_true, hr, hg, he, ParseNode_mismatch ent sub _ hdef hns hsub]
      cases mp.toMapEntries with
      | none => rfl
      | some kvs => rfl
    · rw [ParseGroups]
      repeat' split
      all_goals first
        | rfl
        | exact ih hmem _

/-- C9: whenever `ParseNode` is given a Query node that is a Sequence or a Mapping
and a document node that is defined and not a Sequence (Null, Scalar or Mapping),
it fails; and when that document node is the `entries` of a group of a record
that the Query matches, the call of `ParseNode` on the whole `set` sequence and
`parse` fail as well. -/
theorem ParseNode_shape_mismatch (node req mp : Node) (hdef : node.IsDefined = true)
    (hns : node.IsSequence = false) (hreq : req.IsSequence = true ∨ req.IsMap = true) :
    (ParseNode node req mp).1 = CPCD_FAILURE ∧
    ∀ (records : List Node) (q : List (String × Node)) (r grp doc dict map0 : Node)
      (g : String),
      r ∈ records → (g, req) ∈ q → r.getConst g = some grp → grp.IsDefined = true →
      grp.getConst "entries" = some node →
      (ParseNode (Node.seq records) (Node.map q) map0).1 = CPCD_FAILURE ∧
      (doc.index "physical_constants_dictionary" = some dict →
        dict.index "set" = some (Node.seq records) →
        (parse doc (Node.map q) map0).1 = CPCD_FAILURE) := by
  refine ⟨by rw [ParseNode_mismatch node req mp hdef hns hreq], ?_⟩
  intro records q r grp doc dict map0 g hr hq hgrp hgdef hent
  have hfail : (ParseNode (Node.seq records) (Node.map q) map0).1 = CPCD_FAILURE := by
    rw [ParseNode_seq_map]
    apply forEach_fail_of_mem
    refine ⟨r, hr, ?_⟩
    intro s
    rw [ParseGroups_fail_of_mem r q g req grp node hq hreq hgrp hgdef hent hdef hns s]
    decide
  refine ⟨hfail, ?_⟩
  intro hdoc hdict
  simp only [parse, hdoc, hdict]
  split
  · rename_i hrc
    rw [hfail] at hrc
    exact absurd hrc (by decide)
  · rfl

/-- The theorem of C9 at the `entries` of group `b` that is the Mapping `k: v`,
in the document of the sets `a` and `b`, under the Query of `y` in `b`. -/
theorem ParseNode_shape_mismatch_witness :
    (ParseNode (Node.map [("k", Node.scalar "v")]) (Node.seq [Node.scalar "y"]) Node.null).1
      = CPCD_FAILURE ∧
    (ParseNode
        (Node.seq [Node.map [("a", Node.map [("entries", Node.seq [mkPair "x" "1"])])],
          Node.map [("b", Node.map [("entries", Node.map [("k", Node.scalar "v")])])]])
        (Node.map [("a", Node.seq [Node.scalar "x"]), ("b", Node.seq [Node.scalar "y"])])
        Node.null).1 = CPCD_FAILURE ∧
    (parse
        (Node.map [("physical_constants_dictionary", Node.map [("set",
          Node.seq [Node.map [("a", Node.map [("entries", Node.seq [mkPair "x" "1"])])],
            Node.map [("b", Node.map [("entries", Node.map [("k", Node.scalar "v")])])]])])])
        (Node.map [("a", Node.seq [Node.scalar "x"]), ("b", Node.seq [Node.scalar "y"])])
        Node.null).1 = CPCD_FAILURE :=
  have h := ParseNode_shape_mismatch (Node.map [("k", Node.scalar "v")])
    (Node.seq [Node.scalar "y"]) Node.null rfl rfl (Or.inl rfl)
  have h2 := h.2
    [Node.map [("a", Node.map [("entries", Node.seq [mkPair "x" "1"])])],
      Node.map [("b", Node.map [("entries", Node.map [("k", Node.scalar "v")])])]]
    [("a", Node.seq [Node.scalar "x"]), ("b", Node.seq [Node.scalar "y"])]
    (Node.map [("b", Node.map [("entries", Node.map [("k", Node.scalar "v")])])])
    (Node.map [("entries", Node.map [("k", Node.scalar "v")])])
    (Node.map [("physical_constants_dictionary", Node.map [("set",
      Node.seq [Node.map [("a", Node.map [("entries", Node.seq [mkPair "x" "1"])])],
        Node.map [("b", Node.map [("entries", Node.map [("k", Node.scalar "v")])])]])])])
    (Node.map [("set",
      Node.seq [Node.map [("a", Node.map [("entries", Node.seq [mkPair "x" "1"])])],
        Node.map [("b", Node.map [("entries", Node.map [("k", Node.scalar "v")])])]])])
    Node.null "b" (List.Mem.tail _ (List.Mem.head _)) (List.Mem.tail _ (List.Mem.head _)) rfl rfl rfl
  ⟨h.1, h2.1, h2.2 rfl rfl⟩

/-! ## C10 -/

theorem forEach_invariant {α : Type} (body : α → Node → Nat × Node) (Q : Node → Prop)
    (hbody : ∀ a m, Q m → Q (body a m).2) (l : List α) (m : Node) (hm : Q m) :
    Q (forEach body l m).2 := by
  induction l generalizing m with
  | nil => exact hm
  | cons a t ih =>
    simp only [forEach]
    split
    · exact ih _ (hbody a m hm)
    · exact hbody a m hm

theorem forEach_append {α : Type} (body : α → Node → Nat × Node) (l1 l2 : List α)
    (m m1 : Node) (h : forEach body l1 m = (CPCD_SUCCESS, m1)) :
    forEach body (l1 ++ l2) m = forEach body l2 m1 := by
  induction l1 generalizing m with
  | nil =>
    simp only [forEach, Prod.mk.injEq, true_and] at h
    rw [h]; rfl
  | cons a t ih =>
    simp only [forEach, List.cons_append] at h ⊢
    split
    · rename_i hrc
      simp only [hrc, if_true] at h
      exact ih _ h
    · rename_i hrc
      simp only [hrc, if_false, Prod.mk.injEq] at h
      exact absurd h.1 (by decide)

theorem matchName_extends (str val : String) (r m0 m : Node)
    (h : appendable m = true ∧ List.IsPrefix (itemsOf m0) (itemsOf m)) :
    appendable (matchName str val r m).2 = true ∧
      List.IsPrefix (itemsOf m0) (itemsOf (matchName str val r m).2) := by
  unfold matchName
  cases r.asString with
  | none => exact h
  | some name =>
    simp only []
    split
    · simp only [push_back_appendable m _ h.1]
      refine ⟨appendable_appendItems m _ h.1, ?_⟩
      rw [itemsOf_appendItems]
      exact h.2.trans (List.prefix_append _ _)
    · exact h

theorem scanEntry_extends (names : List Node) (e m0 m : Node)
    (h : appendable m = true ∧ List.IsPrefix (itemsOf m0) (itemsOf m)) :
    appendable (scanEntry names e m).2 = true ∧
      List.IsPrefix (itemsOf m0) (itemsOf (scanEntry names e m).2) := by
  unfold scanEntry
  repeat' split
  all_goals first
    | exact h
    | exact forEach_invariant _ _ (fun a m1 h1 => matchName_extends _ _ a m0 m1 h1) _ m h

theorem ParseNode_seq_extends (ent : Node) (names : List Node) (m : Node)
    (h : appendable m = true) :
    appendable (ParseNode ent (Node.seq names) m).2 = true ∧
      List.IsPrefix (itemsOf m) (itemsOf (ParseNode ent (Node.seq names) m).2) := by
  have h0 : appendable m = true ∧ List.IsPrefix (itemsOf m) (itemsOf m) :=
    ⟨h, List.prefix_refl _⟩
  cases ent with
  | seq es =>
    rw [ParseNode_seq_seq]
    exact forEach_invariant _ _ (fun a m1 h1 => scanEntry_extends names a m m1 h1) _ m h0
  | undefined => simpa [ParseNode, Node.IsDefined] using h0
  | null =>
    rw [ParseNode_mismatch Node.null (Node.seq names) m rfl rfl (Or.inl rfl)]; exact h0
  | scalar s =>
    rw [ParseNode_mismatch (Node.scalar s) (Node.seq names) m rfl rfl (Or.inl rfl)]; exact h0
  | map kvs =>
    rw [ParseNode_mismatch (Node.map kvs) (Node.seq names) m rfl rfl (Or.inl rfl)]; exact h0

theorem pairsUnder_setEntry (mp : Node) (g g1 : String) (v : Node)
    (h : resultOk mp = true) :
    pairsUnder (Node.map (setEntry (resultEntries mp) g v)) g1
      = if g = g1 then itemsOf v else pairsUnder mp g1 := by
  rw [pairsUnder, pairsUnder, valueUnder_of_resultOk mp g1 h]
  simp only [valueUnder, Node.getConst, get?_setEntry, Option.getD_some]
  by_cases hg : g = g1
  · simp [hg]
  · simp [hg]

theorem ParseGroups_extends (r : Node) (qs : List (String × List String)) (mp0 mp : Node)
    (h : resultOk mp = true ∧ ∀ g, List.IsPrefix (pairsUnder mp0 g) (pairsUnder mp g)) :
    resultOk (ParseGroups r (qs.map (fun e => (e.1, Node.seq (e.2.map Node.scalar)))) mp).2
        = true ∧
      ∀ g, List.IsPrefix (pairsUnder mp0 g)
        (pairsUnder
          (ParseGroups r (qs.map (fun e => (e.1, Node.seq (e.2.map Node.scalar)))) mp).2 g) := by
  induction qs generalizing mp with
  | nil => simpa [ParseGroups] using h
  | cons e t ih =>
    obtain ⟨g0, names⟩ := e
    have hstep : ∀ v, appendable v = true →
        List.IsPrefix (itemsOf ((get? (resultEntries mp) g0).getD Node.undefined)) (itemsOf v) →
        resultOk (Node.map (setEntry (resultEntries mp) g0 v)) = true ∧
          ∀ g, List.IsPrefix (pairsUnder mp0 g)
            (pairsUnder (Node.map (setEntry (resultEntries mp) g0 v)) g) := by
      intro v hv hpre
      refine ⟨resultOk_setEntry mp g0 v h.1 hv, ?_⟩
      intro g
      rw [pairsUnder_setEntry mp g0 g v h.1]
      by_cases hg : g0 = g
      · subst hg
        simp only [if_true]
        refine (h.2 g0).trans ?_
        rw [pairsUnder, valueUnder_of_resultOk mp g0 h.1]
        exact hpre
      · simp only [hg, if_false]
        exact h.2 g
    have hsame := hstep ((get? (resultEntries mp) g0).getD Node.undefined)
      (appendable_of_resultOk mp g0 h.1) (List.prefix_refl _)
    simp only [List.map_cons]
    rw [ParseGroups]
    simp only [toMapEntries_of_resultOk mp h.1]
    have hent : ∀ ent, appendable (ParseNode ent (Node.seq (names.map Node.scalar))
          ((get? (resultEntries mp) g0).getD Node.undefined)).2 = true ∧
        List.IsPrefix (itemsOf ((get? (resultEntries mp) g0).getD Node.undefined))
          (itemsOf (ParseNode ent (Node.seq (names.map Node.scalar))
            ((get? (resultEntries mp) g0).getD Node.undefined)).2) :=
      fun ent => ParseNode_seq_extends ent _ _ (appendable_of_resultOk mp g0 h.1)
    repeat' split
    all_goals first
      | exact h
      | exact hsame
      | exact ih _ h
      | exact ih _ (hstep _ (hent _).1 (hent _).2)
      | exact hstep _ (hent _).1 (hent _).2

/-- C10, as stated, fails: on the document of the set `a` with the entry `x` and
the set `b` whose `entries` is a Mapping, under the Query of `x` in `a` and `y`
in `b`, `ParseNode` fails with a shape mismatch and the result map, Null before
the call, holds the pair of `x` under `a`. -/
theorem ParseNode_failure_keeps_partial_result :
    (ParseNode
        (Node.seq [Node.map [("a", Node.map [("entries", Node.seq [mkPair "x" "1"])])],
          Node.map [("b", Node.map [("entries", Node.map [("k", Node.scalar "v")])])]])
        (toQuery [("a", ["x"]), ("b", ["y"])]) Node.null).1 = CPCD_FAILURE ∧
    pairsUnder (ParseNode
        (Node.seq [Node.map [("a", Node.map [("entries", Node.seq [mkPair "x" "1"])])],
          Node.map [("b", Node.map [("entries", Node.map [("k", Node.scalar "v")])])]])
        (toQuery [("a", ["x"]), ("b", ["y"])]) Node.null).2 "a" = [mkPair "x" "1"] ∧
    pairsUnder Node.null "a" = [] :=
  ⟨rfl, rfl, rfl⟩

/-- C10, amended: `ParseNode` does not undo what it appended.  When the records
`pre` are extracted with success into the map `m1` and the next record `bad`
makes `ParseNode` fail, the call on the whole sequence fails and the result map
still holds, under every group, the pairs of `m1`, those matched before the
failure; the map is as it was before the call when the mismatch is found at the
node the call itself was given. -/
theorem ParseNode_failure_keeps_matched_pairs (pre post : List Node) (bad : Node)
    (qs : List (String × List String)) (mp m1 : Node)
    (hmp : resultOk mp = true)
    (hpre : ParseNode (Node.seq pre) (toQuery qs) mp = (CPCD_SUCCESS, m1))
    (hbad : (ParseNode (Node.seq [bad]) (toQuery qs) m1).1 = CPCD_FAILURE) :
    (ParseNode (Node.seq (pre ++ bad :: post)) (toQuery qs) mp).1 = CPCD_FAILURE ∧
    (∀ g, List.IsPrefix (pairsUnder m1 g)
      (pairsUnder (ParseNode (Node.seq (pre ++ bad :: post)) (toQuery qs) mp).2 g)) ∧
    (∀ node req : Node, node.IsDefined = true → node.IsSequence = false →
      (req.IsSequence = true ∨ req.IsMap = true) →
      ParseNode node req mp = (CPCD_FAILURE, mp)) := by
  have hm1 : resultOk m1 = true := by
    have := (forEach_invariant (fun record m => ParseGroups record
        (qs.map (fun e => (e.1, Node.seq (e.2.map Node.scalar)))) m)
      (fun m => resultOk m = true ∧ ∀ g, List.IsPrefix (pairsUnder mp g) (pairsUnder m g))
      (fun a m hm => ParseGroups_extends a qs mp m hm) pre mp
      ⟨hmp, fun g => List.prefix_refl _⟩).1
    rw [toQuery, ParseNode_seq_map] at hpre
    rw [hpre] at this
    exact this
  have heq : ParseNode (Node.seq (pre ++ bad :: post)) (toQuery qs) mp
      = forEach (fun record m => ParseGroups record
          (qs.map (fun e => (e.1, Node.seq (e.2.map Node.scalar)))) m) (bad :: post) m1 := by
    rw [toQuery, ParseNode_seq_map] at hpre ⊢
    exact forEach_append _ pre (bad :: post) mp m1 hpre
  have hb : (ParseGroups bad (qs.map (fun e => (e.1, Node.seq (e.2.map Node.scalar)))) m1).1
      ≠ CPCD_SUCCESS := by
    intro h0
    rw [toQuery, ParseNode_seq_map] at hbad
    simp only [forEach, h0, if_true] at hbad
    exact absurd hbad (by decide)
  have hres : forEach (fun record m => ParseGroups record
        (qs.map (fun e => (e.1, Node.seq (e.2.map Node.scalar)))) m) (bad :: post) m1
      = (CPCD_FAILURE,
        (ParseGroups bad (qs.map (fun e => (e.1, Node.seq (e.2.map Node.scalar)))) m1).2) := by
    simp only [forEach, hb, if_false]
  refine ⟨by rw [heq, hres], ?_, fun node req h1 h2 h3 => ParseNode_mismatch node req mp h1 h2 h3⟩
  intro g
  rw [heq, hres]
  exact (ParseGroups_extends bad qs m1 m1 ⟨hm1, fun g => List.prefix_refl _⟩).2 g

/-- The theorem of C10 amended at the document of the set `a` with the entry `x`
followed by the set `b` whose `entries` is a Mapping. -/
theorem ParseNode_failure_keeps_matched_pairs_witness :
    (ParseNode
        (Node.seq ([Node.map [("a", Node.map [("entries", Node.seq [mkPair "x" "1"])])]] ++
          Node.map [("b", Node.map [("entries", Node.map [("k", Node.scalar "v")])])] :: []))
        (toQuery [("a", ["x"]), ("b", ["y"])]) Node.null).1 = CPCD_FAILURE ∧
    (∀ g, List.IsPrefix (pairsUnder (Node.map [("a", Node.seq [mkPair "x" "1"])]) g)
      (pairsUnder (ParseNode
        (Node.seq ([Node.map [("a", Node.map [("entries", Node.seq [mkPair "x" "1"])])]] ++
          Node.map [("b", Node.map [("entries", Node.map [("k", Node.scalar "v")])])] :: []))
        (toQuery [("a", ["x"]), ("b", ["y"])]) Node.null).2 g)) ∧
    (∀ node req : Node, node.IsDefined = true → node.IsSequence = false →
      (req.IsSequence = true ∨ req.IsMap = true) →
      ParseNode node req Node.null = (CPCD_FAILURE, Node.null)) :=
  ParseNode_failure_keeps_matched_pairs
    [Node.map [("a", Node.map [("entries", Node.seq [mkPair "x" "1"])])]] []
    (Node.map [("b", Node.map [("entries", Node.map [("k", Node.scalar "v")])])])
    [("a", ["x"]), ("b", ["y"])] Node.null (Node.map [("a", Node.seq [mkPair "x" "1"])])
    rfl rfl rfl

/-! ## C11, C12 -/

theorem queryOf_iter_keys (m : rMap) :
    (queryOf m).iter.map Prod.fst = m.map Prod.fst := by
  rw [queryOf_iter, List.map_map]
  rfl

theorem mem_keys_iff_rFind (m : rMap) (g : String) (h : ∀ e ∈ m, e.2 ≠ []) :
    g ∈ m.map Prod.fst ↔ rFind m g ≠ [] := by
  induction m with
  | nil => simp [rFind]
  | cons e t ih =>
    obtain ⟨k, l⟩ := e
    have hl : l ≠ [] := h (k, l) (by simp)
    have iht := ih (fun e he => h e (List.mem_cons_of_mem _ he))
    by_cases hk : k = g
    · subst hk
      simp [rFind, hl]
    · simp only [List.map_cons, List.mem_cons, rFind, hk, if_false, iht]
      constructor
      · rintro (h1 | h1)
        · exact absurd h1.symm hk
        · exact h1
      · exact fun h1 => Or.inr h1

/-- C11, as stated, fails: the request `b: z, a: x` yields the Query whose keys
iterate as `a`, then `b`, not in the order of the request. -/
theorem ParseReq_keys_not_in_request_order :
    ParseReq (Node.map [("b", Node.scalar "z"), ("a", Node.scalar "x")])
      = (CPCD_SUCCESS, Node.map [("a", Node.seq [Node.scalar "x"]),
          ("b", Node.seq [Node.scalar "z"])]) ∧
    (ParseReq (Node.map [("b", Node.scalar "z"), ("a", Node.scalar "x")])).2.iter.map Prod.fst
      = ["a", "b"] :=
  ⟨rfl, rfl⟩

/-- C11, amended: for every well-formed request, the group keys of the Query
produced by `ParseReq` iterate in strictly ascending lexical order, whatever
their order in the request. -/
theorem ParseReq_keys_ascending (req : List (String × Node))
    (hwf : ∀ kv ∈ req, wellFormedValue kv.2 = true) :
    (ParseReq (Node.map req)).1 = CPCD_SUCCESS ∧
      List.Sorted (· < ·) ((ParseReq (Node.map req)).2.iter.map Prod.fst) := by
  obtain ⟨m, hok, _, hreq⟩ := ParseReq_wellFormed_eq req hwf
  rw [hreq]
  refine ⟨rfl, ?_⟩
  simp only []
  rw [queryOf_iter_keys]
  exact hok.1

/-- The theorem of C11 amended at the request `b: z, a: x`. -/
theorem ParseReq_keys_ascending_witness :
    (ParseReq (Node.map [("b", Node.scalar "z"), ("a", Node.scalar "x")])).1 = CPCD_SUCCESS ∧
      List.Sorted (· < ·)
        ((ParseReq (Node.map [("b", Node.scalar "z"), ("a", Node.scalar "x")])).2.iter.map
          Prod.fst) :=
  ParseReq_keys_ascending _ (by decide)

/-- C12, as stated, fails: the request `a: [], b: x`, whose group `a` has an
empty Sequence as value, yields a Query with the single key `b`; and the request
`a: []` yields the Null Query, with no key. -/
theorem ParseReq_drops_empty_group :
    ParseReq (Node.map [("a", Node.seq []), ("b", Node.scalar "x")])
      = (CPCD_SUCCESS, Node.map [("b", Node.seq [Node.scalar "x"])]) ∧
    ParseReq (Node.map [("a", Node.seq [])]) = (CPCD_SUCCESS, Node.null) :=
  ⟨rfl, rfl⟩

/-- C12, amended: for every well-formed request, the Query produced by
`ParseReq` has exactly one entry per distinct group key of the request under
which at least one name is requested: its keys are pairwise distinct, and a key
is in the Query if and only if some name is requested under it. -/
theorem ParseReq_keys_requested (req : List (String × Node))
    (hwf : ∀ kv ∈ req, wellFormedValue kv.2 = true) :
    ((ParseReq (Node.map req)).2.iter.map Prod.fst).Nodup ∧
      ∀ g, g ∈ (ParseReq (Node.map req)).2.iter.map Prod.fst ↔ requested req g ≠ [] := by
  obtain ⟨m, hok, hfind, hreq⟩ := ParseReq_wellFormed_eq req hwf
  rw [hreq]
  simp only []
  rw [queryOf_iter_keys]
  refine ⟨hok.1.nodup, ?_⟩
  intro g
  rw [mem_keys_iff_rFind m g hok.2, hfind g]

/-- The theorem of C12 amended at the request `a: [], b: x`. -/
theorem ParseReq_keys_requested_witness :
    ((ParseReq (Node.map [("a", Node.seq []), ("b", Node.scalar "x")])).2.iter.map
        Prod.fst).Nodup ∧
      ∀ g, g ∈ (ParseReq (Node.map [("a", Node.seq []), ("b", Node.scalar "x")])).2.iter.map
          Prod.fst ↔
        requested [("a", Node.seq []), ("b", Node.scalar "x")] g ≠ [] :=
  ParseReq_keys_requested _ (by decide)

/-! ## C15 to C20: the cases of `ValidateNode` -/

theorem allPass_eq_success_iff {α : Type} (check : α → Option Nat) (l : List α) :
    allPass check l = some CPCD_SUCCESS ↔ ∀ a ∈ l, check a = some CPCD_SUCCESS := by
  induction l with
  | nil => simp [allPass]
  | cons a t ih =>
    simp only [allPass, List.mem_cons, forall_eq_or_imp]
    cases hc : check a with
    | none => simp
    | some rc =>
      by_cases hrc : rc = CPCD_SUCCESS
      · subst hrc
        simp [ih]
      · simp [hrc]

theorem ValidateNode_seq_seq (d s : List Node) :
    ValidateNode (Node.seq d) (Node.seq s) = ValidateSeq d s := by
  simp only [ValidateNode]

theorem ValidateSeq_eq_success_iff (d s : List Node) :
    ValidateSeq d s = some CPCD_SUCCESS ↔
      ∀ de ∈ d, ∀ sp ∈ s, ValidateNode de sp = some CPCD_SUCCESS := by
  induction s with
  | nil => simp [ValidateSeq]
  | cons p ps ih =>
    rw [ValidateSeq]
    have hall := allPass_eq_success_iff (fun n => ValidateNode n p) d
    cases hc : allPass (fun n => ValidateNode n p) d with
    | none =>
      rw [hc] at hall
      simp only [false_iff, reduceCtorEq] at hall ⊢
      intro h
      exact hall (fun de hde => h de hde p (by simp))
    | some rc =>
      rw [hc] at hall
      by_cases hrc : rc = CPCD_SUCCESS
      · subst hrc
        simp only [if_true, ih]
        have h1 : ∀ a ∈ d, ValidateNode a p = some CPCD_SUCCESS := hall.1 rfl
        constructor
        · intro h de hde sp hsp
          rcases List.mem_cons.1 hsp with rfl | hsp
          · exact h1 de hde
          · exact h de hde sp hsp
        · intro h de hde sp hsp
          exact h de hde sp (List.mem_cons_of_mem _ hsp)
      · simp only [hrc, if_false]
        have hne : ¬ ∀ a ∈ d, ValidateNode a p = some CPCD_SUCCESS := by
          intro h
          have := hall.2 h
          simp only [Option.some.injEq] at this
          exact hrc this
        constructor
        · intro h
          exact absurd h (by decide)
        · intro h
          exact absurd (fun de hde => h de hde p (by simp)) hne

theorem ValidateSeq_cases (d s : List Node) :
    ValidateSeq d s = none ∨ ValidateSeq d s = some CPCD_SUCCESS ∨
      ValidateSeq d s = some CPCD_FAILURE := by
  induction s with
  | nil => right; left; rfl
  | cons p ps ih =>
    rw [ValidateSeq]
    repeat' split
    all_goals first
      | exact ih
      | exact Or.inl rfl
      | exact Or.inr (Or.inr rfl)

theorem ValidateMap_cases (nkvs skvs : List (String × Node)) :
    ValidateMap nkvs skvs = none ∨ ValidateMap nkvs skvs = some CPCD_SUCCESS ∨
      ValidateMap nkvs skvs = some CPCD_FAILURE := by
  induction skvs with
  | nil => right; left; rfl
  | cons e rest ih =>
    obtain ⟨key, sp⟩ := e
    rw [ValidateMap]
    repeat' split
    all_goals first
      | exact ih
      | exact Or.inl rfl
      | exact Or.inr (Or.inr rfl)

theorem ValidateNode_cases (node syn : Node) :
    ValidateNode node syn = none ∨ ValidateNode node syn = some CPCD_SUCCESS ∨
      ValidateNode node syn = some CPCD_FAILURE := by
  cases syn <;> cases node <;>
    first
      | (rw [ValidateNode_seq_seq]; exact ValidateSeq_cases _ _)
      | (rw [ValidateNode_map_map]; exact ValidateMap_cases _ _)
      | (right; left; rfl)
      | (right; right; rfl)

theorem ValidateNode_of_type_ne (node syn : Node) (h : node.type ≠ syn.type) :
    ValidateNode node syn = some CPCD_FAILURE := by
  cases syn <;> cases node <;>
    first
      | exact absurd rfl h
      | rfl

/-- C15: for every node and schema whose variants differ, `ValidateNode` fails;
and when the schema is a Null or a Scalar, `ValidateNode` succeeds exactly when
the node has the same variant, whatever the texts of the Scalars are. -/
theorem ValidateNode_variants (node syn : Node) :
    (node.type ≠ syn.type → ValidateNode node syn = some CPCD_FAILURE) ∧
    ((syn.type = NodeType.Null ∨ syn.type = NodeType.Scalar) →
      (ValidateNode node syn = some CPCD_SUCCESS ↔ node.type = syn.type)) := by
  refine ⟨ValidateNode_of_type_ne node syn, ?_⟩
  intro hs
  cases syn with
  | null => cases node <;> simp [ValidateNode, Node.type]
  | scalar s => cases node <;> simp [ValidateNode, Node.type]
  | undefined => simp [Node.type] at hs
  | seq _ => simp [Node.type] at hs
  | map _ => simp [Node.type] at hs

/-- The theorem of C15 at a Sequence checked against a Scalar, and at the
Scalars `9.81` and `VALUE`. -/
theorem ValidateNode_variants_witness :
    ValidateNode (Node.seq [Node.scalar "a"]) (Node.scalar "VALUE") = some CPCD_FAILURE ∧
    (ValidateNode (Node.scalar "9.81") (Node.scalar "VALUE") = some CPCD_SUCCESS ↔
      (Node.scalar "9.81").type = (Node.scalar "VALUE").type) :=
  ⟨(ValidateNode_variants (Node.seq [Node.scalar "a"]) (Node.scalar "VALUE")).1 (by decide),
    (ValidateNode_variants (Node.scalar "9.81") (Node.scalar "VALUE")).2 (Or.inr rfl)⟩

/-- C16: for every document Sequence `d` and schema Sequence `s`,
`ValidateNode` succeeds on them if and only if it succeeds on every element of
`d` against every element of `s`; so it succeeds when either Sequence is
empty. -/
theorem ValidateNode_sequence_all_pairs (d s : List Node) :
    (ValidateNode (Node.seq d) (Node.seq s) = some CPCD_SUCCESS ↔
      ∀ de ∈ d, ∀ sp ∈ s, ValidateNode de sp = some CPCD_SUCCESS) ∧
    ValidateNode (Node.seq []) (Node.seq s) = some CPCD_SUCCESS ∧
    ValidateNode (Node.seq d) (Node.seq []) = some CPCD_SUCCESS := by
  refine ⟨?_, ?_, ?_⟩
  · rw [ValidateNode_seq_seq]
    exact ValidateSeq_eq_success_iff d s
  · rw [ValidateNode_seq_seq, ValidateSeq_eq_success_iff]
    intro de hde
    simp at hde
  · rw [ValidateNode_seq_seq, ValidateSeq_eq_success_iff]
    intro de _ sp hsp
    simp at hsp

/-- C17, as stated, fails: the one element of the document Sequence `[x]`
validates against the first pattern of the schema Sequence `[VALUE, []]`, and
`ValidateNode` fails on the two Sequences, the element not validating against
the second pattern. -/
theorem ValidateNode_sequence_not_disjunctive :
    (∀ de ∈ [Node.scalar "x"], ∃ sp ∈ [Node.scalar "VALUE", Node.seq []],
      ValidateNode de sp = some CPCD_SUCCESS) ∧
    ValidateNode (Node.seq [Node.scalar "x"]) (Node.seq [Node.scalar "VALUE", Node.seq []])
      = some CPCD_FAILURE := by
  refine ⟨?_, rfl⟩
  intro de hde
  rw [List.mem_singleton] at hde
  subst hde
  exact ⟨Node.scalar "VALUE", List.Mem.head _, rfl⟩

/-- C17, amended: for every document Sequence `d` and schema Sequence of the one
pattern `p`, as the Sequences of the embedded schema are, `ValidateNode`
succeeds if every element of `d` validates against at least one element pattern
of the schema; for a schema Sequence `s` of any length it succeeds if every
element of `d` validates against every pattern of `s`. -/
theorem ValidateNode_sequence_single_pattern (d : List Node) (p : Node)
    (h : ∀ de ∈ d, ∃ sp ∈ [p], ValidateNode de sp = some CPCD_SUCCESS) :
    ValidateNode (Node.seq d) (Node.seq [p]) = some CPCD_SUCCESS ∧
    ∀ s : List Node, (∀ de ∈ d, ∀ sp ∈ s, ValidateNode de sp = some CPCD_SUCCESS) →
      ValidateNode (Node.seq d) (Node.seq s) = some CPCD_SUCCESS := by
  constructor
  · rw [ValidateNode_seq_seq, ValidateSeq_eq_success_iff]
    intro de hde sp hsp
    obtain ⟨sp1, hsp1, hv⟩ := h de hde
    rw [List.mem_singleton] at hsp hsp1
    rw [hsp, ← hsp1]
    exact hv
  · intro s hs
    rw [ValidateNode_seq_seq, ValidateSeq_eq_success_iff]
    exact hs

/-- The theorem of C17 amended at the document Sequence `[x, y]` and the
pattern `VALUE`. -/
theorem ValidateNode_sequence_single_pattern_witness :
    ValidateNode (Node.seq [Node.scalar "x", Node.scalar "y"]) (Node.seq [Node.scalar "VALUE"])
      = some CPCD_SUCCESS ∧
    ∀ s : List Node,
      (∀ de ∈ [Node.scalar "x", Node.scalar "y"], ∀ sp ∈ s,
        ValidateNode de sp = some CPCD_SUCCESS) →
      ValidateNode (Node.seq [Node.scalar "x", Node.scalar "y"]) (Node.seq s)
        = some CPCD_SUCCESS :=
  ValidateNode_sequence_single_pattern [Node.scalar "x", Node.scalar "y"] (Node.scalar "VALUE")
    (by
      intro de hde
      refine ⟨Node.scalar "VALUE", List.Mem.head _, ?_⟩
      simp only [List.mem_cons, List.mem_singleton, List.not_mem_nil, or_false] at hde
      rcases hde with rfl | rfl <;> rfl)

/-- C18: for every document Mapping with a first entry of key `k` and value `v1`
and every schema Mapping whose only key is `VALUE`, with pattern `p`,
`ValidateNode` returns what it returns for `v1` against `p`; neither the key `k`
nor the later entries `rest` of the document enter the result. -/
theorem ValidateNode_wildcard_first_entry (k : String) (v1 p : Node)
    (rest : List (String × Node)) (hv : v1.IsDefined = true) (hp : p.IsDefined = true) :
    ValidateNode (Node.map ((k, v1) :: rest)) (Node.map [("VALUE", p)]) = ValidateNode v1 p := by
  rw [ValidateNode_map_map, ValidateMap]
  simp only [hp, if_true, ne_eq, not_true_eq_false, false_and, if_false, Node.iter,
    List.filter_cons, hv]
  rcases ValidateNode_cases v1 p with h | h | h <;> rw [h] <;> rfl

/-- The theorem of C18 at the document `a: x, b: []` and the pattern `VALUE`. -/
theorem ValidateNode_wildcard_first_entry_witness :
    ValidateNode (Node.map [("a", Node.scalar "x"), ("b", Node.seq [])])
        (Node.map [("VALUE", Node.scalar "VALUE")])
      = ValidateNode (Node.scalar "x") (Node.scalar "VALUE") :=
  ValidateNode_wildcard_first_entry "a" (Node.scalar "x") (Node.scalar "VALUE")
    [("b", Node.seq [])] rfl rfl

theorem ValidateMap_append_congr (nkvs pre a b : List (String × Node))
    (h : ValidateMap nkvs a = ValidateMap nkvs b) :
    ValidateMap nkvs (pre ++ a) = ValidateMap nkvs (pre ++ b) := by
  induction pre with
  | nil => exact h
  | cons e t ih =>
    obtain ⟨key, sp⟩ := e
    simp only [List.cons_append]
    conv_lhs => rw [ValidateMap]
    conv_rhs => rw [ValidateMap]
    rw [ih]

theorem ValidateMap_cons_absent (nkvs rest : List (String × Node)) (k : String) (p : Node)
    (habs : ((get? nkvs k).getD Node.undefined).IsDefined = false) :
    ValidateMap nkvs ((k, p) :: rest) = ValidateMap nkvs (("VALUE", p) :: rest) := by
  conv_lhs => rw [ValidateMap]
  conv_rhs => rw [ValidateMap]
  simp [habs]

theorem ValidateMap_cons_first_passes (nkvs rest tail : List (String × Node))
    (kf : String) (first p : Node) (hit : (Node.map nkvs).iter = (kf, first) :: tail)
    (hpass : ValidateNode first p = some CPCD_SUCCESS) :
    ValidateMap nkvs (("VALUE", p) :: rest) = ValidateMap nkvs rest := by
  conv_lhs => rw [ValidateMap]
  simp [hit, hpass]

/-- C19, as stated, fails: for the document `a: x` and the schema
`a: VALUE, b: [VALUE]`, whose key `b` is absent from the document,
`ValidateNode` fails, and it succeeds for the schema `a: VALUE` without the
entry of `b`. -/
theorem ValidateNode_absent_key_not_skipped :
    ValidateNode (Node.map [("a", Node.scalar "x")])
        (Node.map [("a", Node.scalar "VALUE"), ("b", Node.seq [Node.scalar "VALUE"])])
      = some CPCD_FAILURE ∧
    ValidateNode (Node.map [("a", Node.scalar "x")]) (Node.map [("a", Node.scalar "VALUE")])
      = some CPCD_SUCCESS :=
  ⟨rfl, rfl⟩

theorem ValidateMap_append_of_passes (nkvs pre rest : List (String × Node))
    (h : ValidateMap nkvs pre = some CPCD_SUCCESS) :
    ValidateMap nkvs (pre ++ rest) = ValidateMap nkvs rest := by
  induction pre with
  | nil => rfl
  | cons e t ih =>
    obtain ⟨key1, sp⟩ := e
    have hstep : ∀ r : Option Nat,
        (match r with
          | none => none
          | some rc => if rc = CPCD_SUCCESS then ValidateMap nkvs t else some CPCD_FAILURE)
          = some CPCD_SUCCESS →
        ValidateMap nkvs t = some CPCD_SUCCESS ∧
        (match r with
          | none => none
          | some rc =>
            if rc = CPCD_SUCCESS then ValidateMap nkvs (t ++ rest) else some CPCD_FAILURE)
          = ValidateMap nkvs (t ++ rest) := by
      intro r hr
      cases r with
      | none => exact absurd hr (by simp)
      | some rc =>
        by_cases hrc : rc = CPCD_SUCCESS
        · simp only [hrc, if_true] at hr ⊢
          exact ⟨hr, trivial⟩
        · simp only [hrc, if_false] at hr
          exact absurd hr (by decide)
    have ih1 : ValidateMap nkvs t = some CPCD_SUCCESS →
        ValidateMap nkvs (t ++ rest) = ValidateMap nkvs rest :=
      fun ht => ih ht
    simp only [List.cons_append]
    rw [ValidateMap] at h
    rw [ValidateMap]
    split at h
    · rw [if_pos (by assumption)]
      split at h
      · rw [if_pos (by assumption)]
        obtain ⟨ht, heq⟩ := hstep _ h
        rw [heq]; exact ih1 ht
      · rw [if_neg (by assumption)]
        cases hiter : (Node.map nkvs).iter with
        | nil => rw [hiter] at h; exact absurd h (by simp)
        | cons f tl =>
          rw [hiter] at h
          obtain ⟨ht, heq⟩ := hstep _ h
          simp only []
          rw [heq]; exact ih1 ht
    · rw [if_neg (by assumption)]
      exact ih1 h

theorem ValidateMap_cons_first_fails (nkvs rest tail : List (String × Node))
    (kf : String) (first p : Node) (hp : p.IsDefined = true)
    (hit : (Node.map nkvs).iter = (kf, first) :: tail)
    (hfail : ValidateNode first p = some CPCD_FAILURE) :
    ValidateMap nkvs (("VALUE", p) :: rest) = some CPCD_FAILURE := by
  rw [ValidateMap]
  simp [hp, hit, hfail, CPCD_FAILURE, CPCD_SUCCESS]

/-- C19, amended: for every document Mapping `d` and schema Mapping `s`, a
schema key `k` that is absent from `d` is handled as the key `VALUE` is: the
value of the first entry of `d` is validated against the pattern of `k`, so
`ValidateNode` gives the same result as for `s` with `k` renamed `VALUE`.  When
that first value validates against the pattern, the result is that for `s` with
the entry of `k` removed; when it does not, and the entries of `s` before `k`
are satisfied, `ValidateNode` fails. -/
theorem ValidateNode_absent_key_as_wildcard (nkvs pre post : List (String × Node))
    (k : String) (p : Node)
    (habs : ((get? nkvs k).getD Node.undefined).IsDefined = false) :
    ValidateNode (Node.map nkvs) (Node.map (pre ++ (k, p) :: post))
      = ValidateNode (Node.map nkvs) (Node.map (pre ++ ("VALUE", p) :: post)) ∧
    (∀ (kf : String) (first : Node) (tail : List (String × Node)),
      (Node.map nkvs).iter = (kf, first) :: tail →
      ValidateNode first p = some CPCD_SUCCESS →
      ValidateNode (Node.map nkvs) (Node.map (pre ++ (k, p) :: post))
        = ValidateNode (Node.map nkvs) (Node.map (pre ++ post))) ∧
    (∀ (kf : String) (first : Node) (tail : List (String × Node)),
      (Node.map nkvs).iter = (kf, first) :: tail →
      p.IsDefined = true →
      ValidateNode first p = some CPCD_FAILURE →
      ValidateNode (Node.map nkvs) (Node.map pre) = some CPCD_SUCCESS →
      ValidateNode (Node.map nkvs) (Node.map (pre ++ (k, p) :: post)) = some CPCD_FAILURE) := by
  have h1 := ValidateMap_append_congr nkvs pre _ _ (ValidateMap_cons_absent nkvs post k p habs)
  refine ⟨by rw [ValidateNode_map_map, ValidateNode_map_map]; exact h1, ?_, ?_⟩
  · intro kf first tail hit hpass
    rw [ValidateNode_map_map, ValidateNode_map_map, h1]
    exact ValidateMap_append_congr nkvs pre _ _
      (ValidateMap_cons_first_passes nkvs post tail kf first p hit hpass)
  · intro kf first tail hit hp hfail hpre
    rw [ValidateNode_map_map] at hpre ⊢
    rw [h1, ValidateMap_append_of_passes nkvs pre _ hpre]
    exact ValidateMap_cons_first_fails nkvs post tail kf first p hp hit hfail

/-- The theorem of C19 amended at the document `a: x`: for the schema
`a: VALUE, b: [VALUE]` the key `b` is read as `VALUE` and the call fails, the
Scalar `x` being no Sequence; for the schema `a: VALUE, b: VALUE` the Scalar
`x` validates against the pattern of `b` and the result is that of the schema
`a: VALUE`. -/
theorem ValidateNode_absent_key_as_wildcard_witness :
    ValidateNode (Node.map [("a", Node.scalar "x")])
        (Node.map ([("a", Node.scalar "VALUE")] ++ ("b", Node.seq [Node.scalar "VALUE"]) :: []))
      = ValidateNode (Node.map [("a", Node.scalar "x")])
        (Node.map ([("a", Node.scalar "VALUE")] ++
          ("VALUE", Node.seq [Node.scalar "VALUE"]) :: [])) ∧
    ValidateNode (Node.map [("a", Node.scalar "x")])
        (Node.map ([("a", Node.scalar "VALUE")] ++ ("b", Node.seq [Node.scalar "VALUE"]) :: []))
      = some CPCD_FAILURE ∧
    ValidateNode (Node.map [("a", Node.scalar "x")])
        (Node.map ([("a", Node.scalar "VALUE")] ++ ("b", Node.scalar "VALUE") :: []))
      = ValidateNode (Node.map [("a", Node.scalar "x")])
        (Node.map ([("a", Node.scalar "VALUE")] ++ [])) :=
  ⟨(ValidateNode_absent_key_as_wildcard [("a", Node.scalar "x")] [("a", Node.scalar "VALUE")] []
      "b" (Node.seq [Node.scalar "VALUE"]) rfl).1,
    (ValidateNode_absent_key_as_wildcard [("a", Node.scalar "x")] [("a", Node.scalar "VALUE")] []
      "b" (Node.seq [Node.scalar "VALUE"]) rfl).2.2 "a" (Node.scalar "x") [] rfl rfl rfl rfl,
    (ValidateNode_absent_key_as_wildcard [("a", Node.scalar "x")] [("a", Node.scalar "VALUE")] []
      "b" (Node.scalar "VALUE") rfl).2.1 "a" (Node.scalar "x") [] rfl rfl⟩

/-- C20: the empty document Mapping checked against the embedded schema, or
against any schema Mapping whose first entry has a defined pattern, makes
`ValidateNode` dereference `node.begin()` of a Mapping without entry: the call
has no defined result, and neither has `validate`. -/
theorem ValidateNode_empty_mapping_undefined :
    ValidateNode (Node.map []) dict_syntax = none ∧
    validate (Node.map []) = none ∧
    ∀ (k : String) (p : Node) (rest : List (String × Node)), p.IsDefined = true →
      ValidateNode (Node.map []) (Node.map ((k, p) :: rest)) = none := by
  refine ⟨rfl, rfl, ?_⟩
  intro k p rest hp
  have hu : Node.undefined.IsDefined = false := rfl
  rw [ValidateNode_map_map, ValidateMap]
  simp [hp, get?, hu, Node.iter]

/-! ## C13 -/

theorem unlines_append (a b : List String) : unlines (a ++ b) = unlines a ++ unlines b := by
  induction a with
  | nil => simp [unlines]
  | cons l t ih =>
    show l ++ "\n" ++ unlines (t ++ b) = (l ++ "\n" ++ unlines t) ++ unlines b
    rw [ih]
    simp only [String.append_assoc]

theorem emitDeclaration_pair (text : Node → String) (G n v os : String) :
    emitDeclaration text G (some (mkPair n v)) os
      = (CPCD_SUCCESS, os ++ (writtenDeclaration text G (n, v) ++ "\n")) := by
  have h1 : (mkPair n v).getConst "name" = some (Node.scalar n) := rfl
  have h2 : (mkPair n v).getConst "value" = some (Node.scalar v) := rfl
  simp only [emitDeclaration, h1, h2, writtenDeclaration, _CPCD_FORTRAN_INDENT,
    _CPCD_FORTRAN_KIND, String.append_assoc]
  rfl

theorem forEachOut_declarations (text : Node → String) (G : String)
    (pairs : List (String × String)) (os : String) :
    forEachOut (emitDeclaration text G) ((pairs.map (fun p => mkPair p.1 p.2)).map some) os
      = (CPCD_SUCCESS, os ++ unlines (pairs.map (writtenDeclaration text G))) := by
  induction pairs generalizing os with
  | nil => simp [forEachOut, unlines]
  | cons p t ih =>
    obtain ⟨n, v⟩ := p
    simp only [List.map_cons, forEachOut, emitDeclaration_pair text G n v os, if_true]
    rw [ih]
    simp only [unlines, String.append_assoc]

theorem emitSet_group (text : Node → String) (asInt : String → Option Int)
    (g : String × List (String × String)) (os : String) :
    emitSet text asInt (resultEntry g) os
      = (CPCD_SUCCESS, os ++ unlines (writtenGroup text g)) := by
  simp only [emitSet, resultEntry, indexItems]
  rw [forEachOut_declarations text g.1 g.2 _]
  simp only [writtenGroup, unlines, String.append_assoc]

theorem forEachOut_groups (text : Node → String) (asInt : String → Option Int)
    (groups : List (String × List (String × String))) (os : String) :
    forEachOut (emitSet text asInt) (groups.map resultEntry) os
      = (CPCD_SUCCESS, os ++ unlines (groups.flatMap (writtenGroup text))) := by
  induction groups generalizing os with
  | nil => simp [forEachOut, unlines]
  | cons g t ih =>
    simp only [List.map_cons, forEachOut, emitSet_group text asInt g os, if_true]
    rw [ih]
    simp only [List.flatMap_cons, unlines_append, String.append_assoc]

theorem emitF_written (text : Node → String) (asInt : String → Option Int) (res : Node)
    (groups : List (String × List (String × String)))
    (hseq : res.IsSequence = false) (hit : res.iter = groups.map resultEntry) :
    emitF text asInt res = (CPCD_SUCCESS, unlines (writtenModule text groups)) := by
  have hgen : emitF text asInt res =
      (match forEachOut (emitSet text asInt) res.iter
        ("module " ++ _CPCD_FORTRAN_NAME ++ "\n" ++ "\n" ++ _CPCD_FORTRAN_INDENT
          ++ "integer, parameter :: " ++ _CPCD_FORTRAN_KIND ++ " = kind(1.d0)" ++ "\n" ++ "\n") with
      | (rc, os) =>
        if rc = CPCD_SUCCESS then
          (CPCD_SUCCESS, os ++ "\n" ++ "end module " ++ _CPCD_FORTRAN_NAME ++ "\n")
        else (CPCD_FAILURE, os)) := by
    cases res with
    | seq xs => simp [Node.IsSequence] at hseq
    | undefined => rfl
    | null => rfl
    | scalar _ => rfl
    | map _ => rfl
  have hhead : ("module " ++ _CPCD_FORTRAN_NAME ++ "\n" ++ "\n" ++ _CPCD_FORTRAN_INDENT
      ++ "integer, parameter :: " ++ _CPCD_FORTRAN_KIND ++ " = kind(1.d0)" ++ "\n" ++ "\n")
      = unlines ["module cpcd", "", "  integer, parameter :: cpcd_kind = kind(1.d0)", ""] := by
    decide
  have htail : ∀ os : String, os ++ "\n" ++ "end module " ++ _CPCD_FORTRAN_NAME ++ "\n"
      = os ++ unlines ["", "end module cpcd"] := by
    intro os
    simp only [String.append_assoc]
    rfl
  rw [hgen, hit, hhead, forEachOut_groups text asInt groups _]
  simp only [if_true]
  rw [htail]
  unfold writtenModule
  rw [unlines_append, unlines_append]

theorem declarationCount_rest (l rest : List Char) (h : l.all (fun c => c != '\n') = true) :
    declarationCount false (l ++ '\n' :: rest) = declarationCount true rest := by
  induction l with
  | nil => simp [declarationCount]
  | cons c t ih =>
    simp only [List.all_cons, Bool.and_eq_true, bne_iff_ne, ne_eq] at h
    have hc : (c == '\n') = false := by simpa using h.1
    simp only [List.cons_append, declarationCount, Bool.false_and, hc]
    simpa using ih h.2

theorem isPrefixOf_line (pre l rest : List Char) (hpre : pre.all (fun c => c != '\n') = true) :
    pre.isPrefixOf (l ++ '\n' :: rest) = pre.isPrefixOf l := by
  induction pre generalizing l with
  | nil => simp [List.isPrefixOf]
  | cons a as ih =>
    simp only [List.all_cons, Bool.and_eq_true, bne_iff_ne, ne_eq] at hpre
    cases l with
    | nil =>
      have ha : (a == '\n') = false := by simpa using hpre.1
      simp [List.isPrefixOf, ha]
    | cons b bs =>
      simp only [List.cons_append, List.isPrefixOf, List.append_eq]
      rw [ih bs hpre.2]

theorem declarationCount_line (l : String) (rest : List Char) (h : noBreak l = true) :
    declarationCount true (l.data ++ '\n' :: rest)
      = (if isDeclaration l then 1 else 0) + declarationCount true rest := by
  have hs : declarationStart.data.all (fun c => c != '\n') = true := by decide
  unfold noBreak at h
  unfold isDeclaration
  rw [← isPrefixOf_line declarationStart.data l.data rest hs]
  cases hl : l.data with
  | nil => simp [declarationCount]
  | cons c t =>
    rw [hl] at h
    simp only [List.all_cons, Bool.and_eq_true, bne_iff_ne, ne_eq] at h
    have hc : (c == '\n') = false := by simpa using h.1
    simp only [List.cons_append, declarationCount, Bool.true_and, hc, List.append_eq]
    rw [declarationCount_rest t rest h.2]

theorem data_unlines_cons (l : String) (t : List String) :
    (unlines (l :: t)).data = l.data ++ '\n' :: (unlines t).data := by
  simp [unlines, String.data_append]

theorem declarationCount_unlines (L : List String) (h : L.all noBreak = true) :
    declarationCount true (unlines L).data = (L.filter isDeclaration).length := by
  induction L with
  | nil => rfl
  | cons l t ih =>
    simp only [List.all_cons, Bool.and_eq_true] at h
    rw [data_unlines_cons, declarationCount_line l _ h.1, ih h.2]
    by_cases hd : isDeclaration l = true
    · simp [List.filter_cons, hd]; omega
    · simp [List.filter_cons, hd]

theorem noBreak_append (a b : String) : noBreak (a ++ b) = (noBreak a && noBreak b) := by
  simp [noBreak, String.data_append, List.all_append]

theorem noBreak_writtenDeclaration (text : Node → String) (G : String) (p : String × String)
    (hG : noBreak (text (Node.scalar G)) = true)
    (hp : noBreak (text (Node.scalar p.1)) = true ∧ noBreak (text (Node.scalar p.2)) = true) :
    noBreak (writtenDeclaration text G p) = true := by
  have h1 : noBreak "  real(cpcd_kind), parameter :: " = true := by decide
  have h2 : noBreak "_" = true := by decide
  have h3 : noBreak " = " = true := by decide
  have h4 : noBreak "_cpcd_kind" = true := by decide
  simp only [writtenDeclaration, noBreak_append, h1, h2, h3, h4, hG, hp.1, hp.2, Bool.and_self]

theorem isDeclaration_writtenDeclaration (text : Node → String) (G : String)
    (p : String × String) : isDeclaration (writtenDeclaration text G p) = true := by
  unfold isDeclaration writtenDeclaration declarationStart
  simp only [String.data_append, List.append_assoc]
  rw [List.isPrefixOf_iff_prefix]
  exact List.prefix_append _ _

theorem isDeclaration_comment (x : String) : isDeclaration ("! - from set " ++ x) = false := by
  have h1 : "! - from set ".data = '!' :: " - from set ".data := by decide
  have h2 : declarationStart.data = ' ' :: " real(cpcd_kind), parameter :: ".data := by decide
  unfold isDeclaration
  rw [String.data_append, h1, h2]
  simp [List.isPrefixOf]

theorem noBreak_writtenGroup (text : Node → String) (g : String × List (String × String))
    (hG : noBreak (text (Node.scalar g.1)) = true)
    (hp : g.2.all (fun p => noBreak (text (Node.scalar p.1)) &&
      noBreak (text (Node.scalar p.2))) = true) :
    (writtenGroup text g).all noBreak = true := by
  have h1 : noBreak "! - from set " = true := by decide
  simp only [writtenGroup, List.all_cons, noBreak_append, h1, hG, Bool.and_self, Bool.true_and,
    List.all_eq_true, List.mem_map]
  rintro l ⟨p, hmem, rfl⟩
  have := (List.all_eq_true.mp hp) p hmem
  simp only [Bool.and_eq_true] at this
  exact noBreak_writtenDeclaration text g.1 p hG this

theorem filter_writtenGroup (text : Node → String) (g : String × List (String × String)) :
    ((writtenGroup text g).filter isDeclaration).length = g.2.length := by
  have hall : (g.2.map (writtenDeclaration text g.1)).filter isDeclaration
      = g.2.map (writtenDeclaration text g.1) := by
    rw [List.filter_eq_self]
    intro l hl
    obtain ⟨p, _, rfl⟩ := List.mem_map.mp hl
    exact isDeclaration_writtenDeclaration text g.1 p
  simp only [writtenGroup, List.filter_cons, isDeclaration_comment, Bool.false_eq_true, if_false,
    hall, List.length_map]

theorem declarations_of_groups (text : Node → String)
    (groups : List (String × List (String × String)))
    (h : writtenWithoutBreak text groups = true) :
    (groups.flatMap (writtenGroup text)).all noBreak = true ∧
      ((groups.flatMap (writtenGroup text)).filter isDeclaration).length
        = (groups.map (fun g => g.2.length)).sum := by
  induction groups with
  | nil => exact ⟨rfl, rfl⟩
  | cons g t ih =>
    simp only [writtenWithoutBreak, List.all_cons, Bool.and_eq_true] at h
    obtain ⟨⟨hG, hp⟩, ht⟩ := h
    obtain ⟨ih1, ih2⟩ := ih ht
    refine ⟨?_, ?_⟩
    · rw [List.flatMap_cons, List.all_append, noBreak_writtenGroup text g hG hp, ih1]
      rfl
    · rw [List.flatMap_cons, List.filter_append, List.length_append, filter_writtenGroup, ih2,
        List.map_cons, List.sum_cons]

/-- C13, as stated, fails: the dictionary `sampleDocumentEmptyValue` passes
`ValidateNode`, and `parse` under the Query of `g` in `myset` yields the result
with the pair of `g` and the empty value.  The emitter writes the empty Scalar
as two double quotes, so `emitF` writes the declaration
`myset_g = ""_cpcd_kind`, not the line `myset_g = _cpcd_kind` of the claim. -/
theorem emitF_quotes_empty_value :
    ValidateNode sampleDocumentEmptyValue dict_syntax = some CPCD_SUCCESS ∧
    parse sampleDocumentEmptyValue (toQuery [("myset", ["g"])]) Node.null
      = (CPCD_SUCCESS, Node.map [("myset", Node.seq [mkPair "g" ""])]) ∧
    emitF quotingText noIndex (Node.map [("myset", Node.seq [mkPair "g" ""])])
      = (CPCD_SUCCESS, "module cpcd\n\n  integer, parameter :: cpcd_kind = kind(1.d0)\n\n! - from set myset\n  real(cpcd_kind), parameter :: myset_g = \"\"_cpcd_kind\n\nend module cpcd\n") ∧
    unlines (moduleLines [("myset", [("g", "")])])
      = "module cpcd\n\n  integer, parameter :: cpcd_kind = kind(1.d0)\n\n! - from set myset\n  real(cpcd_kind), parameter :: myset_g = _cpcd_kind\n\nend module cpcd\n" ∧
    (emitF quotingText noIndex (Node.map [("myset", Node.seq [mkPair "g" ""])])).2
      ≠ unlines (moduleLines [("myset", [("g", "")])]) :=
  ⟨rfl, rfl, by decide, by decide, by decide⟩

/-- C13, amended: for every ExtractionResult, a node that is no Sequence and
whose groups, in the order of iteration, map a name `G` to a Sequence of pairs
of `name` and `value`, and for every emitter, `emitF` returns success and the
text it writes is exactly the line `module cpcd`, a blank line, the line of the
kind `cpcd_kind`, a blank line, then for each group the comment `! - from set`
with the group name and one declaration line
`real(cpcd_kind), parameter :: G_name = value_cpcd_kind` per pair in sequence
order, then a blank line and `end module cpcd`, where the group name, the name
and the value stand as the emitter writes these Scalars.  When the emitter
writes them without a line break, the number of lines of the text that begin
with the words of a declaration is the total number of pairs. -/
theorem emitF_module_text (text : Node → String) (asInt : String → Option Int) (res : Node)
    (groups : List (String × List (String × String)))
    (hseq : res.IsSequence = false) (hit : res.iter = groups.map resultEntry) :
    emitF text asInt res = (CPCD_SUCCESS, unlines (writtenModule text groups)) ∧
    (writtenWithoutBreak text groups = true →
      declarationCount true (emitF text asInt res).2.data
        = (groups.map (fun g => g.2.length)).sum) := by
  refine ⟨emitF_written text asInt res groups hseq hit, ?_⟩
  intro hnb
  obtain ⟨h1, h2⟩ := declarations_of_groups text groups hnb
  rw [emitF_written text asInt res groups hseq hit]
  have hall : (writtenModule text groups).all noBreak = true := by
    unfold writtenModule
    rw [List.all_append, List.all_append, h1]
    decide
  rw [declarationCount_unlines _ hall]
  unfold writtenModule
  rw [List.filter_append, List.filter_append, List.length_append, List.length_append, h2]
  have hh : (["module cpcd", "", "  integer, parameter :: cpcd_kind = kind(1.d0)", ""].filter
      isDeclaration).length = 0 := by decide
  have hf : (["", "end module cpcd"].filter isDeclaration).length = 0 := by decide
  rw [hh, hf]
  omega

/-- The theorem of C13 amended at the result that holds the pairs of `g` with
`9.81` and of `e` with the empty value under `phys`, with the text `emitF`
writes and its two declaration lines. -/
theorem emitF_module_text_witness :
    emitF quotingText noIndex (Node.map [("phys", Node.seq [mkPair "g" "9.81", mkPair "e" ""])])
      = (CPCD_SUCCESS, "module cpcd\n\n  integer, parameter :: cpcd_kind = kind(1.d0)\n\n! - from set phys\n  real(cpcd_kind), parameter :: phys_g = 9.81_cpcd_kind\n  real(cpcd_kind), parameter :: phys_e = \"\"_cpcd_kind\n\nend module cpcd\n") ∧
    emitF quotingText noIndex (Node.map [("phys", Node.seq [mkPair "g" "9.81", mkPair "e" ""])])
      = (CPCD_SUCCESS, unlines (writtenModule quotingText [("phys", [("g", "9.81"), ("e", "")])])) ∧
    declarationCount true
        (emitF quotingText noIndex
          (Node.map [("phys", Node.seq [mkPair "g" "9.81", mkPair "e" ""])])).2.data
      = ([("phys", [("g", "9.81"), ("e", "")])].map (fun g => g.2.length)).sum :=
  ⟨rfl,
    (emitF_module_text quotingText noIndex
      (Node.map [("phys", Node.seq [mkPair "g" "9.81", mkPair "e" ""])])
      [("phys", [("g", "9.81"), ("e", "")])] rfl rfl).1,
    (emitF_module_text quotingText noIndex
      (Node.map [("phys", Node.seq [mkPair "g" "9.81", mkPair "e" ""])])
      [("phys", [("g", "9.81"), ("e", "")])] rfl rfl).2 (by decide)⟩

/-! ## C14 -/

theorem ParseReq_fails_on_nested_map (req : List (String × Node))
    (h : ∃ kv ∈ req, kv.2.IsMap = true) : (ParseReq (Node.map req)).1 = CPCD_FAILURE := by
  obtain ⟨kv, hkv, hmap⟩ := h
  cases hc : collect (Node.map req).iter [] with
  | none => exact ParseReq_fst_of_collect_none req hc
  | some m =>
    have hdef : kv.2.IsDefined = true := by
      cases hv : kv.2 <;> simp_all [Node.IsMap, Node.IsDefined]
    have hin : kv ∈ (Node.map req).iter := by
      simp only [Node.iter, List.mem_filter]
      exact ⟨hkv, hdef⟩
    have hwf := collect_some _ _ _ hc kv hin
    cases hv : kv.2 <;> simp_all [Node.IsMap, wellFormedValue]

/-- C14, as stated, fails: in the run of `main` with the flag `validate` set, on
a readable dictionary and a request `a: (k: v)` that contains a nested mapping
value, `main` returns the exit status 0 after `validate`, and `readreq` is not
called. -/
theorem main_validate_only_ignores_request :
    main plainText noIndex
        { exitInOptions := none, validate := true, verbose := false, print := false,
          dictionary := some sampleDocument,
          request := some (Node.map [("a", Node.map [("k", Node.scalar "v")])]) }
      = some (CPCD_SUCCESS, [Call.read, Call.validate]) :=
  rfl

/-- C14, amended: for every run of `main` that comes to the request, the options
being read without exit, the dictionary read and the flag `validate` not set,
and in which the request contains a nested mapping value, `readreq` returns
failure, `main` returns the exit status 1, and neither `parse` nor `femit` is
called. -/
theorem main_stops_on_nested_map (text : Node → String) (asInt : String → Option Int)
    (run : Run) (doc : Node) (req : List (String × Node))
    (hopt : run.exitInOptions = none) (hdoc : run.dictionary = some doc)
    (hval : run.validate = false) (hreq : run.request = some (Node.map req))
    (hnested : ∃ kv ∈ req, kv.2.IsMap = true) :
    (readreq run.request).1 = CPCD_FAILURE ∧
    ∃ calls, main text asInt run = some (CPCD_FAILURE, calls) ∧
      Call.readreq ∈ calls ∧ Call.parse ∉ calls ∧ Call.femit ∉ calls := by
  have hp : (ParseReq (Node.map req)).1 = CPCD_FAILURE := ParseReq_fails_on_nested_map req hnested
  have hr : readreq run.request = (CPCD_FAILURE, (ParseReq (Node.map req)).2) := by
    rw [hreq]
    simp only [readreq, hp]
    rfl
  refine ⟨by rw [hr], ?_⟩
  refine ⟨(if run.print then [Call.read, Call.write] else [Call.read]) ++ [Call.readreq],
    ?_, ?_, ?_, ?_⟩
  · simp only [main, hopt, hdoc, hval, hr]
    rfl
  · simp
  · cases run.print <;> simp
  · cases run.print <;> simp

/-- The theorem of C14 amended at the run on a readable dictionary and the
request `a: (k: v)`, without flag. -/
theorem main_stops_on_nested_map_witness :
    (readreq (some (Node.map [("a", Node.map [("k", Node.scalar "v")])]))).1 = CPCD_FAILURE ∧
    ∃ calls, main plainText noIndex
        { exitInOptions := none, validate := false, verbose := false, print := false,
          dictionary := some sampleDocument,
          request := some (Node.map [("a", Node.map [("k", Node.scalar "v")])]) }
        = some (CPCD_FAILURE, calls) ∧
      Call.readreq ∈ calls ∧ Call.parse ∉ calls ∧ Call.femit ∉ calls :=
  main_stops_on_nested_map plainText noIndex
    { exitInOptions := none, validate := false, verbose := false, print := false,
      dictionary := some sampleDocument,
      request := some (Node.map [("a", Node.map [("k", Node.scalar "v")])]) }
    sampleDocument [("a", Node.map [("k", Node.scalar "v")])] rfl rfl rfl rfl
    ⟨_, List.Mem.head _, rfl⟩

/-! ## C21 -/

theorem ParseNode_undefined (req mp : Node) :
    ParseNode Node.undefined req mp = (CPCD_SUCCESS, mp) := by
  cases req <;> simp [ParseNode, Node.IsDefined]

theorem toMapEntries_of_mapLike (mp : Node) (h : mapLike mp = true) :
    mp.toMapEntries = some (resultEntries mp) := by
  cases mp <;> simp_all [mapLike, resultEntries, Node.toMapEntries]

theorem valueUnder_of_mapLike (mp : Node) (g : String) (h : mapLike mp = true) :
    valueUnder mp g = (get? (resultEntries mp) g).getD Node.undefined := by
  cases mp <;> simp_all [mapLike, resultEntries, Node.toMapEntries, valueUnder,
    Node.getConst, get?]

theorem iter_of_mapLike (mp : Node) (h : mapLike mp = true) :
    mp.iter = (resultEntries mp).filter (fun kv => kv.2.IsDefined) := by
  cases mp <;> simp_all [mapLike, resultEntries, Node.toMapEntries, Node.iter]

theorem filter_setEntry_same (kvs : List (String × Node)) (g : String) :
    (setEntry kvs g ((get? kvs g).getD Node.undefined)).filter (fun kv => kv.2.IsDefined)
      = kvs.filter (fun kv => kv.2.IsDefined) := by
  induction kvs with
  | nil => simp [setEntry, get?, Node.IsDefined]
  | cons e t ih =>
    obtain ⟨k, w⟩ := e
    by_cases hk : k = g
    · simp [setEntry, get?, hk]
    · simp only [setEntry, get?, hk, if_false, List.filter_cons, ih]

/-- The work map after `Node m = map[g]` when nothing is done to `m`: it is a
Mapping that is iterated and read as before. -/
theorem touch_same (mp : Node) (g : String) (h : mapLike mp = true) :
    mapLike (Node.map (setEntry (resultEntries mp) g
        ((get? (resultEntries mp) g).getD Node.undefined))) = true ∧
      (Node.map (setEntry (resultEntries mp) g
        ((get? (resultEntries mp) g).getD Node.undefined))).iter = mp.iter ∧
      ∀ g1, valueUnder (Node.map (setEntry (resultEntries mp) g
        ((get? (resultEntries mp) g).getD Node.undefined))) g1 = valueUnder mp g1 := by
  refine ⟨rfl, ?_, ?_⟩
  · rw [iter_of_mapLike mp h]
    simp only [Node.iter]
    exact filter_setEntry_same _ g
  · intro g1
    rw [valueUnder_of_mapLike mp g1 h]
    simp only [valueUnder, Node.getConst, get?_setEntry, Option.getD_some]
    by_cases hg : g = g1
    · subst hg; simp
    · simp [hg]

theorem ParseGroups_lacking (r : Node) (q : List (String × Node)) (mp : Node)
    (hmp : mapLike mp = true)
    (hq : ∀ e ∈ q, e.2.IsDefined = true → lacksEntries r e.1 = true) :
    ∃ mp1, ParseGroups r q mp = (CPCD_SUCCESS, mp1) ∧ mapLike mp1 = true ∧
      mp1.iter = mp.iter ∧ ∀ g, valueUnder mp1 g = valueUnder mp g := by
  induction q generalizing mp with
  | nil => exact ⟨mp, ParseGroups_nil r mp, hmp, rfl, fun _ => rfl⟩
  | cons e t ih =>
    obtain ⟨g, sub⟩ := e
    have hqt : ∀ e ∈ t, e.2.IsDefined = true → lacksEntries r e.1 = true :=
      fun e he => hq e (List.mem_cons_of_mem _ he)
    cases hsub : sub.IsDefined with
    | false =>
      obtain ⟨mp1, h1, h2, h3, h4⟩ := ih mp hmp hqt
      refine ⟨mp1, ?_, h2, h3, h4⟩
      rw [ParseGroups]
      simp only [hsub, Bool.false_eq_true, if_false]
      exact h1
    | true =>
      have hl := hq (g, sub) (by simp) hsub
      unfold lacksEntries at hl
      cases hr : r.getConst g with
      | none => simp [hr] at hl
      | some grp =>
        simp only [hr] at hl
        cases hd : grp.IsDefined with
        | false =>
          obtain ⟨mp1, h1, h2, h3, h4⟩ := ih mp hmp hqt
          refine ⟨mp1, ?_, h2, h3, h4⟩
          rw [ParseGroups_cons_absent r mp grp g sub t hr hd]
          exact h1
        | true =>
          cases he : grp.getConst "entries" with
          | none => simp [he] at hl
          | some ent =>
            simp only [he, Bool.not_eq_true'] at hl
            have hent : ent = Node.undefined := by
              cases ent <;> simp_all [Node.IsDefined]
            subst hent
            obtain ⟨ht1, ht2, ht3⟩ := touch_same mp g hmp
            obtain ⟨mp1, h1, h2, h3, h4⟩ := ih _ ht1 hqt
            refine ⟨mp1, ?_, h2, h3.trans ht2, fun g1 => (h4 g1).trans (ht3 g1)⟩
            rw [ParseGroups]
            simp only [hsub, if_true, hr, hd, toMapEntries_of_mapLike mp hmp, he,
              ParseNode_undefined]
            exact h1

theorem ParseGroups_mapLike (r : Node) (q : List (String × Node)) (mp : Node)
    (hmp : mapLike mp = true) : mapLike (ParseGroups r q mp).2 = true := by
  induction q generalizing mp with
  | nil => simpa [ParseGroups] using hmp
  | cons e t ih =>
    obtain ⟨g, sub⟩ := e
    rw [ParseGroups]
    repeat' split
    all_goals first
      | exact hmp
      | exact ih _ hmp
      | exact ih _ rfl
      | rfl

theorem ParseGroups_cons_lacking (r : Node) (g : String) (sub : Node)
    (rest : List (String × Node)) (mp : Node) (hmp : mapLike mp = true)
    (hsub : sub.IsDefined = true) (hl : lacksEntries r g = true) :
    ∃ mp1, mapLike mp1 = true ∧ mp1.iter = mp.iter ∧ (∀ g1, valueUnder mp1 g1 = valueUnder mp g1) ∧
      ParseGroups r ((g, sub) :: rest) mp = ParseGroups r rest mp1 := by
  unfold lacksEntries at hl
  cases hr : r.getConst g with
  | none => simp [hr] at hl
  | some grp =>
    simp only [hr] at hl
    cases hd : grp.IsDefined with
    | false =>
      exact ⟨mp, hmp, rfl, fun _ => rfl, ParseGroups_cons_absent r mp grp g sub rest hr hd⟩
    | true =>
      cases he : grp.getConst "entries" with
      | none => simp [he] at hl
      | some ent =>
        simp only [he, Bool.not_eq_true'] at hl
        have hent : ent = Node.undefined := by
          cases ent <;> simp_all [Node.IsDefined]
        subst hent
        obtain ⟨ht1, ht2, ht3⟩ := touch_same mp g hmp
        refine ⟨_, ht1, ht2, ht3, ?_⟩
        rw [ParseGroups]
        simp only [hsub, if_true, hr, hd, toMapEntries_of_mapLike mp hmp, he,
          ParseNode_undefined]

theorem forEach_ParseGroups_mapLike (records : List Node) (q : List (String × Node))
    (mp : Node) (hmp : mapLike mp = true) :
    mapLike (forEach (fun record m => ParseGroups record q m) records mp).2 = true :=
  forEach_invariant _ (fun m => mapLike m = true)
    (fun a m hm => ParseGroups_mapLike a q m hm) records mp hmp

/-- C21: an absent document node is not a shape mismatch.  `ParseNode` on an
undefined node returns success and leaves the map as it is, for every query.  So
a record whose queried groups have no `entries` to read (the record of the group
has no `entries` field, or the record has no such group) contributes no pair:
the call on the `set` sequence goes on after it with a map that is iterated and
read as before the record, and succeeds when the record is the last; and `parse`
succeeds with the map unchanged when the dictionary has no `set`. -/
theorem ParseNode_absent_entries (pre post : List Node) (r : Node)
    (q : List (String × Node)) (mp m1 : Node) (hmp : mapLike mp = true)
    (hq : ∀ e ∈ q, e.2.IsDefined = true → lacksEntries r e.1 = true)
    (hpre : ParseNode (Node.seq pre) (Node.map q) mp = (CPCD_SUCCESS, m1)) :
    (∀ req m, ParseNode Node.undefined req m = (CPCD_SUCCESS, m)) ∧
    (∃ m2, m2.iter = m1.iter ∧ (∀ g, valueUnder m2 g = valueUnder m1 g) ∧
      ParseNode (Node.seq (pre ++ [r])) (Node.map q) mp = (CPCD_SUCCESS, m2) ∧
      ParseNode (Node.seq (pre ++ r :: post)) (Node.map q) mp
        = ParseNode (Node.seq post) (Node.map q) m2) ∧
    (∀ (g : String) (sub : Node) (rest : List (String × Node)) (record m : Node),
      mapLike m = true → sub.IsDefined = true → lacksEntries record g = true →
      ∃ m2, m2.iter = m.iter ∧ (∀ g1, valueUnder m2 g1 = valueUnder m g1) ∧
        ParseGroups record ((g, sub) :: rest) m = ParseGroups record rest m2) ∧
    (∀ doc dict sel m : Node, doc.index "physical_constants_dictionary" = some dict →
      dict.index "set" = some Node.undefined → parse doc sel m = (CPCD_SUCCESS, m)) := by
  refine ⟨ParseNode_undefined, ?_, ?_, ?_⟩
  · rw [ParseNode_seq_map] at hpre
    have hm1 : mapLike m1 = true := by
      have := forEach_ParseGroups_mapLike pre q mp hmp
      rw [hpre] at this
      exact this
    obtain ⟨m2, h1, _, h3, h4⟩ := ParseGroups_lacking r q m1 hm1 hq
    refine ⟨m2, h3, h4, ?_, ?_⟩
    · rw [ParseNode_seq_map, forEach_append _ pre [r] mp m1 hpre]
      simp only [forEach, h1, if_true]
    · rw [ParseNode_seq_map, ParseNode_seq_map, forEach_append _ pre (r :: post) mp m1 hpre]
      simp only [forEach, h1, if_true]
  · intro g sub rest record m hm hsub hl
    obtain ⟨m2, _, h2, h3, h4⟩ := ParseGroups_cons_lacking record g sub rest m hm hsub hl
    exact ⟨m2, h2, h3, h4⟩
  · intro doc dict sel m hdoc hdict
    simp only [parse, hdoc, hdict, ParseNode_undefined, if_true]

/-- The theorem of C21 at the record `b: (description: d)`, which has no
`entries`, after the record of the set `a` with the entry `x`, under the Query
of `x` in `a` and `y` in `b`; and at a dictionary without `set`. -/
theorem ParseNode_absent_entries_witness :
    ParseNode
        (Node.seq ([Node.map [("a", Node.map [("entries", Node.seq [mkPair "x" "1"])])]] ++
          [Node.map [("b", Node.map [("description", Node.scalar "d")])]]))
        (Node.map [("a", Node.seq [Node.scalar "x"]), ("b", Node.seq [Node.scalar "y"])])
        Node.null
      = (CPCD_SUCCESS, Node.map [("a", Node.seq [mkPair "x" "1"]), ("b", Node.undefined)]) ∧
    parse (Node.map [("physical_constants_dictionary", Node.map [
        ("version_number", Node.scalar "1")])])
      (Node.map [("a", Node.seq [Node.scalar "x"])]) Node.null = (CPCD_SUCCESS, Node.null) ∧
    (∃ m2, m2.iter = (Node.map [("a", Node.seq [mkPair "x" "1"])]).iter ∧
      (∀ g, valueUnder m2 g = valueUnder (Node.map [("a", Node.seq [mkPair "x" "1"])]) g) ∧
      ParseNode
          (Node.seq ([Node.map [("a", Node.map [("entries", Node.seq [mkPair "x" "1"])])]] ++
            [Node.map [("b", Node.map [("description", Node.scalar "d")])]]))
          (Node.map [("a", Node.seq [Node.scalar "x"]), ("b", Node.seq [Node.scalar "y"])])
          Node.null = (CPCD_SUCCESS, m2) ∧
      ParseNode
          (Node.seq ([Node.map [("a", Node.map [("entries", Node.seq [mkPair "x" "1"])])]] ++
            Node.map [("b", Node.map [("description", Node.scalar "d")])] :: []))
          (Node.map [("a", Node.seq [Node.scalar "x"]), ("b", Node.seq [Node.scalar "y"])])
          Node.null
        = ParseNode (Node.seq [])
          (Node.map [("a", Node.seq [Node.scalar "x"]), ("b", Node.seq [Node.scalar "y"])])
          m2) :=
  ⟨rfl,
    (ParseNode_absent_entries
      [Node.map [("a", Node.map [("entries", Node.seq [mkPair "x" "1"])])]] []
      (Node.map [("b", Node.map [("description", Node.scalar "d")])])
      [("a", Node.seq [Node.scalar "x"]), ("b", Node.seq [Node.scalar "y"])]
      Node.null (Node.map [("a", Node.seq [mkPair "x" "1"])]) rfl (by decide) rfl).2.2.2
      _ _ _ _ rfl rfl,
    (ParseNode_absent_entries
      [Node.map [("a", Node.map [("entries", Node.seq [mkPair "x" "1"])])]] []
      (Node.map [("b", Node.map [("description", Node.scalar "d")])])
      [("a", Node.seq [Node.scalar "x"]), ("b", Node.seq [Node.scalar "y"])]
      Node.null (Node.map [("a", Node.seq [mkPair "x" "1"])]) rfl (by decide) rfl).2.1⟩

/-! ## C22 -/

theorem ValidateMap_append_entry (d s : List (String × Node)) (k : String) (v : Node)
    (hd : (Node.map d).iter.isEmpty = false) (hk : k ∉ s.map Prod.fst) :
    ValidateMap (d ++ [(k, v)]) s = ValidateMap d s := by
  obtain ⟨kf, first, tail, hit⟩ : ∃ kf first tail, (Node.map d).iter = (kf, first) :: tail := by
    cases h : (Node.map d).iter with
    | nil => rw [h] at hd; exact absurd hd (by decide)
    | cons e t => exact ⟨e.1, e.2, t, rfl⟩
  have hit2 : (Node.map (d ++ [(k, v)])).iter
      = (kf, first) :: (tail ++ [(k, v)].filter (fun kv => kv.2.IsDefined)) := by
    simp only [Node.iter, List.filter_append] at hit ⊢
    rw [hit]
    rfl
  induction s with
  | nil => simp only [ValidateMap]
  | cons e t ih =>
    obtain ⟨key, sp⟩ := e
    simp only [List.map_cons, List.mem_cons, not_or] at hk
    have hget : get? (d ++ [(k, v)]) key = get? d key := get?_append_other d key k v hk.1
    conv_lhs => rw [ValidateMap]
    conv_rhs => rw [ValidateMap]
    simp only [hget, hit, hit2, ih hk.2]

/-- C22: for every document Mapping `d` that has an entry to visit, every schema
Mapping `s` and every key `k` that does not occur in `s`, appending an entry of
key `k` and any value `v` after the last entry of `d` leaves the result of
`ValidateNode` unchanged. -/
theorem ValidateNode_ignores_unmentioned_key (d s : List (String × Node)) (k : String)
    (v : Node) (hd : (Node.map d).iter.isEmpty = false) (hk : k ∉ s.map Prod.fst) :
    ValidateNode (Node.map (d ++ [(k, v)])) (Node.map s) = ValidateNode (Node.map d) (Node.map s) := by
  rw [ValidateNode_map_map, ValidateNode_map_map]
  exact ValidateMap_append_entry d s k v hd hk

/-- The theorem of C22 at the document `a: x`, the schema `a: VALUE, b: [VALUE]`
and the appended entry `extra: [1]`. -/
theorem ValidateNode_ignores_unmentioned_key_witness :
    ValidateNode (Node.map ([("a", Node.scalar "x")] ++ [("extra", Node.seq [Node.scalar "1"])]))
        (Node.map [("a", Node.scalar "VALUE"), ("b", Node.seq [Node.scalar "VALUE"])])
      = ValidateNode (Node.map [("a", Node.scalar "x")])
        (Node.map [("a", Node.scalar "VALUE"), ("b", Node.seq [Node.scalar "VALUE"])]) :=
  ValidateNode_ignores_unmentioned_key [("a", Node.scalar "x")]
    [("a", Node.scalar "VALUE"), ("b", Node.seq [Node.scalar "VALUE"])] "extra"
    (Node.seq [Node.scalar "1"]) rfl (by decide)

end CPCD
